import Mathlib

/-!
# bitmarkd: block ingestion (`block/store.go`) and the peer announce ring (`announce/peer.go`)

A shallow embedding of `StoreIncoming`, `DigestForBlock`, `SetPeer`, `AddPeer`,
`GetNext` and `search`, with the properties of the specification stated and
proved over it.

Conventions of the embedding

* byte slices are lists of naturals, digests and accounts are byte lists;
* `uint64` addition is written with an explicit `% 2 ^ 64`;
* Go has three ways of leaving `StoreIncoming`: `return nil`, `return err`
  and a panic (`logger.Panic`, or a run-time panic such as an index out of
  range); they are the three constructors of `Outcome`;
* packages that are called but whose code is not part of the embedded
  files (record codecs, merkle, ownership, currency) are fields of `Env`.
-/

namespace Bitmarkd

abbrev Bytes := List Nat
abbrev Digest := Bytes
abbrev Account := Bytes
abbrev Link := Bytes

/-- The `fault` values named by the embedded code; every other error value a
collaborator may hand back is `Other`. -/
inductive Fault where
  | ErrPreviousBlockDigestDoesNotMatch
  | ErrInvalidBlockHeaderVersion
  | ErrBlockVersionMustNotDecrease
  | ErrInvalidBlockHeaderTimestamp
  | ErrTransactionAlreadyExists
  | ErrDoubleTransferAttempt
  | ErrTransactionCountOutOfRange
  | ErrMerkleRootDoesNotMatch
  | ErrMissingBlockOwner
  | ErrBlockNotFound
  | ErrInvalidPublicKey
  | ErrAlreadyInitialised
  | Other (code : Nat)
  deriving DecidableEq, Repr

/-- The ways the embedded code terminates the process. -/
inductive Panic where
  /-- Go: `logger.Panic("Transactions database is corrupt")`, store.go:137 -/
  | TransactionsDatabaseCorrupt
  /-- Go: `logger.Panicf("missing BlockOwnerTxIndex: %v", link)`, store.go:171 -/
  | MissingBlockOwnerTxIndex
  /-- Go: `logger.Panicf("unhandled transaction: %v", tx)`, store.go:185 and 326 -/
  | UnhandledTransaction
  /-- Go: `logger.Panicf("should not occur: %+v", tx)`, store.go:270 and 301 -/
  | ShouldNotOccur
  /-- Go: `logger.Panicf("pack, should not error: %s", err)`, store.go:316 -/
  | PackShouldNotError
  /-- Go: `logger.Panicf("block.Store: out of sequence block ...")`, store.go:342 -/
  | OutOfSequenceBlock
  /-- Go run-time panic: index out of range -/
  | IndexOutOfRange
  /-- a panic raised inside a collaborator (for instance a nil account
  dereferenced while packing) -/
  | Collaborator (code : Nat)
  deriving DecidableEq, Repr

/-- Result of a step that may return a value, return an error or panic. -/
inductive Res (α : Type) where
  | ok (a : α)
  | error (e : Fault)
  | fatal (p : Panic)
  deriving DecidableEq, Repr

/-- How a call of `StoreIncoming` ends. -/
inductive Outcome where
  | success
  | error (e : Fault)
  | fatal (p : Panic)
  deriving DecidableEq, Repr

/-- Go: `uint64` arithmetic wraps at this modulus. -/
def uint64Modulus : Nat := 2 ^ 64

/-- Bytes written by `binary.BigEndian.PutUint64`. -/
def putUint64 (n : Nat) : Bytes :=
  [n / 2 ^ 56 % 256, n / 2 ^ 48 % 256, n / 2 ^ 40 % 256, n / 2 ^ 32 % 256,
   n / 2 ^ 24 % 256, n / 2 ^ 16 % 256, n / 2 ^ 8 % 256, n % 256]

/-- Modelled from the spec: a storage pool, a persistent key-value namespace
with `has(key)`, `get(key)` and `put(key, value)`; the pool implementation
(package `storage`) is not among the embedded files. A pool holds one value
per key, the most recently written one. -/
abbrev Pool (V : Type) := List (Bytes × V)

def Pool.Get {V : Type} (p : Pool V) (key : Bytes) : Option V :=
  match p with
  | [] => none
  | (k, v) :: rest => if k = key then some v else Pool.Get rest key

def Pool.Has {V : Type} (p : Pool V) (key : Bytes) : Bool :=
  (Pool.Get p key).isSome

def Pool.Put {V : Type} (p : Pool V) (key : Bytes) (value : V) : Pool V :=
  (key, value) :: p.filter (fun e => decide (e.1 ≠ key))

/-- The five pools `StoreIncoming` touches. `Transactions` and `Assets` are
written with the three-argument `Put(key, blockNumberKey, packed)`. -/
structure Pools where
  Blocks : Pool Bytes
  Transactions : Pool (Bytes × Bytes)
  Assets : Pool (Bytes × Bytes)
  BlockOwnerPayment : Pool Bytes
  BlockOwnerTxIndex : Pool Bytes
  deriving DecidableEq, Repr

/-- Modelled from the spec: the block ring, "a small bounded ring of
recently-committed blocks indexed by block number" holding digest and packed
bytes; package `blockring` is not among the embedded files. Newest entry
first. -/
abbrev BlockRing := List (Nat × Digest × Bytes)

/-- Modelled from the spec: `blockring.Put(number, digest, packedBlock)` on a
ring that keeps the most recent `size` blocks. -/
def blockringPut (size : Nat) (number : Nat) (digest : Digest) (packedBlock : Bytes)
    (ring : BlockRing) : BlockRing :=
  ((number, digest, packedBlock) :: ring).take size

/-- The fields of `globalData` in package `block` that `StoreIncoming` uses. -/
structure ChainHead where
  height : Nat
  previousBlock : Digest
  previousVersion : Nat
  previousTimestamp : Nat
  rebuild : Bool
  deriving DecidableEq, Repr

/-- Go: `blockrecord.Header`: the fields read by `StoreIncoming`. -/
structure Header where
  Version : Nat
  TransactionCount : Nat
  Number : Nat
  PreviousBlock : Digest
  MerkleRoot : Digest
  Timestamp : Nat
  deriving DecidableEq, Repr

/-- Go: `currency.Map`, a Go map from currency to address. -/
abbrev CurrencyMap := List (Nat × Bytes)

/-- Assignment `m[c] = address` on a `currency.Map`. -/
def CurrencyMap.set (m : CurrencyMap) (c : Nat) (address : Bytes) : CurrencyMap :=
  match m with
  | [] => [(c, address)]
  | (c', a') :: rest =>
    if c' = c then (c, address) :: rest else (c', a') :: CurrencyMap.set rest c address

/-- The variants of `transactionrecord.Transaction` that the type switches of
`StoreIncoming` name, with the fields they read; `rest` stands for the
fields only the codec looks at (signature, nonce, ...). `Unhandled` is any
value that reaches the `default:` arm. -/
inductive Transaction where
  | OldBaseData (Currency : Nat) (PaymentAddress : Bytes) (Owner : Account) (rest : Bytes)
  | AssetData (Registrant : Account) (rest : Bytes)
  | BitmarkIssue (AssetId : Bytes) (Owner : Account) (rest : Bytes)
  | BitmarkTransferUnratified (Link : Link) (Owner : Account) (rest : Bytes)
  | BitmarkTransferCountersigned (Link : Link) (Owner : Account) (rest : Bytes)
  | BlockFoundation (Version : Nat) (Payments : CurrencyMap) (Owner : Account) (rest : Bytes)
  | BlockOwnerTransfer (Link : Link) (Version : Nat) (Payments : CurrencyMap)
      (Owner : Account) (rest : Bytes)
  | Unhandled (tag : Nat)
  deriving DecidableEq, Repr

/-- Process state seen by `StoreIncoming`: chain head, storage pools, the
ownership records (`Own`, owned by package `ownership`), the block ring and
the pending caches of packages `asset` and `reservoir` (`Pend`). -/
structure State (Own Pend : Type) where
  head : ChainHead
  pools : Pools
  ownership : Own
  ring : BlockRing
  pending : Pend

/-- The local `type txn struct` of `StoreIncoming`, store.go:80-86. -/
structure Txn where
  txId : Digest
  packed : Bytes
  unpacked : Transaction
  linkOwner : Option Account
  previousBlockNumberKey : Option Bytes
  deriving DecidableEq, Repr

/-- Collaborators of `StoreIncoming` whose code is outside the embedded
files, with the signatures of their call sites. The readers of package
`ownership` see the storage pools and the ownership records. -/
structure Env (Own Pend : Type) where
  /-- Go: `mode.IsTesting()` -/
  testing : Bool
  /-- The key `currency.Litecoin` of a `currency.Map` -/
  Litecoin : Nat
  /-- The number N of blocks the block ring keeps -/
  BlockRingSize : Nat
  /-- Go: `blockrecord.ExtractHeader(packedBlock)`: header, digest, body -/
  ExtractHeader : Bytes → Except Fault (Header × Digest × Bytes)
  /-- Go: `blockrecord.FoundationTxId(header, digest)` -/
  FoundationTxId : Header → Digest → Digest
  /-- Go: `transactionrecord.Packed(data).Unpack(testing)`: the transaction and
  the number of bytes it occupies, which is at most `len(data)` -/
  Unpack : Bytes → Bool → Except Fault (Transaction × Nat)
  /-- Go: `tx.Pack(account)`; only the error (or panic) is looked at -/
  Pack : Transaction → Option Account → Res Unit
  /-- Go: `tx.AssetId()` of an `AssetData` record -/
  AssetId : Transaction → Bytes
  /-- Go: `merkle.NewDigest` -/
  NewDigest : Bytes → Digest
  /-- Go: `merkle.FullMerkleTree` -/
  FullMerkleTree : List Digest → List Digest
  /-- Go: `transactionrecord.CheckPayments(version, testing, payments)` -/
  CheckPayments : Nat → Bool → CurrencyMap → Option Fault
  /-- Go: `payments.Pack(testing)` on a `currency.Map` -/
  PackPayments : CurrencyMap → Bool → Except Fault Bytes
  /-- Go: `c.ValidateAddress(address, testing)` -/
  ValidateAddress : Nat → Bytes → Bool → Option Fault
  /-- Go: `litecoin.FromBitcoin(address)`: value and error -/
  FromBitcoin : Bytes → Bytes × Option Fault
  /-- Go: `ownership.OwnerOf(link)` -/
  OwnerOf : Pools → Own → Link → Option Account
  /-- Go: `ownership.CurrentlyOwns(owner, link)` -/
  CurrentlyOwns : Pools → Own → Option Account → Link → Bool
  /-- Go: `ownership.CreateAsset(txId, blockNumber, assetId, owner)` -/
  CreateAsset : Digest → Nat → Bytes → Account → Own → Own
  /-- Go: `ownership.CreateBlock(txId, blockNumber, owner)` -/
  CreateBlock : Digest → Nat → Account → Own → Own
  /-- Go: `ownership.Transfer(link, txId, blockNumber, oldOwner, newOwner)` -/
  Transfer : Link → Digest → Nat → Option Account → Account → Own → Own
  /-- Go: `asset.Delete(assetId)` -/
  AssetDelete : Bytes → Pend → Pend
  /-- Go: `reservoir.DeleteByTxId(txId)` -/
  DeleteByTxId : Digest → Pend → Pend
  /-- Go: `reservoir.DeleteByLink(link)` -/
  DeleteByLink : Link → Pend → Pend
  /-- Go: `reservoir.Disable()` -/
  Disable : Pend → Pend
  /-- Go: `reservoir.Enable()` -/
  Enable : Pend → Pend


/-- Header checks of `StoreIncoming`, store.go:42-74: the error of the first
check that fails, `none` when all pass. -/
def checkHeader (g : ChainHead) (header : Header) : Option Fault :=
  if g.previousBlock ≠ header.PreviousBlock then
    some Fault.ErrPreviousBlockDigestDoesNotMatch
  else if header.Version < 1 then
    some Fault.ErrInvalidBlockHeaderVersion
  else if g.previousVersion > header.Version then
    some Fault.ErrBlockVersionMustNotDecrease
  else if g.previousTimestamp > header.Timestamp then
    let d := g.previousTimestamp - header.Timestamp
    let fail : Bool :=
      match header.Version with
      | 1 => decide (d > 240 * 60)
      | 2 => decide (d > 10 * 60)
      | _ => true
    if fail then some Fault.ErrInvalidBlockHeaderTimestamp else none
  else
    none

/-- Sequencing of a `tx.Pack(...)` call: `if nil != err { return err }`. -/
def afterPack {α : Type} (r : Res Unit) (k : Res α) : Res α :=
  match r with
  | Res.ok _ => k
  | Res.error e => Res.error e
  | Res.fatal p => Res.fatal p

/-- One pass of the validation loop, store.go:97-192: the record written to
`txs[i]` and the advanced cursor `data[n:]`. -/
def validateTransaction {Own Pend : Type} (env : Env Own Pend) (pools : Pools) (own : Own)
    (suppressDuplicateRecordChecks : Bool) (data : Bytes) : Res (Txn × Bytes) :=
  match env.Unpack data env.testing with
  | Except.error err => Res.error err
  | Except.ok (transaction, n) =>
    let txId := env.NewDigest (data.take n)
    let record (linkOwner : Option Account) (previousBlockNumberKey : Option Bytes) :
        Res (Txn × Bytes) :=
      Res.ok ({ txId := txId, packed := data.take n, unpacked := transaction,
                linkOwner := linkOwner,
                previousBlockNumberKey := previousBlockNumberKey }, data.drop n)
    match transaction with
    | Transaction.OldBaseData _ _ owner _ =>
      afterPack (env.Pack transaction (some owner)) (record none none)
    | Transaction.AssetData registrant _ =>
      afterPack (env.Pack transaction (some registrant))
        (if !suppressDuplicateRecordChecks && pools.Assets.Has (env.AssetId transaction) then
          Res.error Fault.ErrTransactionAlreadyExists
        else record none none)
    | Transaction.BitmarkIssue _ owner _ =>
      afterPack (env.Pack transaction (some owner))
        (if !suppressDuplicateRecordChecks && pools.Transactions.Has txId then
          Res.error Fault.ErrTransactionAlreadyExists
        else record none none)
    | Transaction.BitmarkTransferUnratified link _ _
    | Transaction.BitmarkTransferCountersigned link _ _ =>
      match env.OwnerOf pools own link with
      | none => Res.fatal Panic.TransactionsDatabaseCorrupt
      | some linkOwner =>
        afterPack (env.Pack transaction (some linkOwner))
          (if !env.CurrentlyOwns pools own (some linkOwner) link then
            Res.error Fault.ErrDoubleTransferAttempt
          else record (some linkOwner) none)
    | Transaction.BlockFoundation _ _ owner _ =>
      afterPack (env.Pack transaction (some owner)) (record none none)
    | Transaction.BlockOwnerTransfer link version payments _ _ =>
      let linkOwner := env.OwnerOf pools own link
      afterPack (env.Pack transaction linkOwner)
        (if !env.CurrentlyOwns pools own linkOwner link then
          Res.error Fault.ErrDoubleTransferAttempt
        else
          match pools.BlockOwnerTxIndex.Get link with
          | none => Res.fatal Panic.MissingBlockOwnerTxIndex
          | some n =>
            match env.CheckPayments version env.testing payments with
            | some err => Res.error err
            | none => record linkOwner (some n))
    | Transaction.Unhandled _ => Res.fatal Panic.UnhandledTransaction

/-- The validation loop, store.go:96-198, by recursion on the number of
transactions still to read, `header.TransactionCount - i`. The test
`i+1 == header.TransactionCount` is `remaining = 0` after this pass. -/
def validateLoop {Own Pend : Type} (env : Env Own Pend) (pools : Pools) (own : Own)
    (suppressDuplicateRecordChecks : Bool) : Nat → Bytes → Res (List Txn)
  | 0, _ => Res.ok []
  | remaining + 1, data =>
    match validateTransaction env pools own suppressDuplicateRecordChecks data with
    | Res.error e => Res.error e
    | Res.fatal p => Res.fatal p
    | Res.ok (t, data') =>
      if remaining = 0 ∧ data'.length > 0 then
        Res.error Fault.ErrTransactionCountOutOfRange
      else
        match validateLoop env pools own suppressDuplicateRecordChecks remaining data' with
        | Res.error e => Res.error e
        | Res.fatal p => Res.fatal p
        | Res.ok ts => Res.ok (t :: ts)

/-- The locals set by the first-transaction switch, store.go:210-213. -/
structure Foundation where
  packedPayments : Bytes
  packedFoundation : Bytes
  blockOwner : Account
  txStart : Nat
  deriving DecidableEq, Repr

/-- The switch on `txs[0].unpacked`, store.go:215-255. Indexing `txs[0]` and
`txs[1]` panics when the slice is too short. -/
def selectFoundation {Own Pend : Type} (env : Env Own Pend) (txs : List Txn) :
    Res Foundation :=
  match txs with
  | [] => Res.fatal Panic.IndexOutOfRange
  | t0 :: others =>
    match t0.unpacked with
    | Transaction.BlockFoundation version payments owner _ =>
      match env.CheckPayments version env.testing payments with
      | some err => Res.error err
      | none =>
        match env.PackPayments payments env.testing with
        | Except.error err => Res.error err
        | Except.ok packedPayments =>
          Res.ok { packedPayments := packedPayments, packedFoundation := t0.packed,
                   blockOwner := owner, txStart := 1 }
    | Transaction.OldBaseData currency paymentAddress owner _ =>
      match env.ValidateAddress currency paymentAddress env.testing with
      | some err => Res.error err
      | none =>
        let currencies := CurrencyMap.set [] currency paymentAddress
        match others with
        | [] => Res.fatal Panic.IndexOutOfRange
        | t1 :: _ =>
          let (currencies, txStart, packedFoundation) :=
            match t1.unpacked with
            | Transaction.OldBaseData currency1 paymentAddress1 _ _ =>
              (CurrencyMap.set currencies currency1 paymentAddress1, 2,
                t0.packed ++ t1.packed)
            | _ =>
              (CurrencyMap.set currencies env.Litecoin
                (env.FromBitcoin paymentAddress).1, 1, t0.packed)
          match env.PackPayments currencies env.testing with
          | Except.error err => Res.error err
          | Except.ok packedPayments =>
            Res.ok { packedPayments := packedPayments,
                     packedFoundation := packedFoundation,
                     blockOwner := owner, txStart := txStart }
    | _ => Res.error Fault.ErrMissingBlockOwner

/-- One pass of the commit loop, store.go:263-328. -/
def commitTransaction {Own Pend : Type} (env : Env Own Pend) (header : Header)
    (blockNumberKey : Bytes) (s : State Own Pend) (item : Txn) :
    Outcome × State Own Pend :=
  match item.unpacked with
  | Transaction.OldBaseData _ _ _ _ => (Outcome.fatal Panic.ShouldNotOccur, s)
  | Transaction.AssetData _ _ =>
    let assetId := env.AssetId item.unpacked
    let s1 := { s with pending := env.AssetDelete assetId s.pending }
    if !s1.pools.Assets.Has assetId then
      (Outcome.success,
        { s1 with pools := { s1.pools with
            Assets := s1.pools.Assets.Put assetId (blockNumberKey, item.packed) } })
    else (Outcome.success, s1)
  | Transaction.BitmarkIssue assetId owner _ =>
    let s1 := { s with pending := env.DeleteByTxId item.txId s.pending }
    if !s1.pools.Transactions.Has item.txId then
      (Outcome.success,
        { s1 with
          pools := { s1.pools with
            Transactions := s1.pools.Transactions.Put item.txId (blockNumberKey, item.packed) },
          ownership := env.CreateAsset item.txId header.Number assetId owner s1.ownership })
    else (Outcome.success, s1)
  | Transaction.BitmarkTransferUnratified link owner _
  | Transaction.BitmarkTransferCountersigned link owner _ =>
    let s1 := { s with pending := env.DeleteByLink link (env.DeleteByTxId item.txId s.pending) }
    (Outcome.success,
      { s1 with
        pools := { s1.pools with
          Transactions := s1.pools.Transactions.Put item.txId (blockNumberKey, item.packed) },
        ownership := env.Transfer link item.txId header.Number item.linkOwner owner
          s1.ownership })
  | Transaction.BlockFoundation _ _ _ _ => (Outcome.fatal Panic.ShouldNotOccur, s)
  | Transaction.BlockOwnerTransfer link _ payments owner _ =>
    let s1 := { s with pending := env.DeleteByLink link (env.DeleteByTxId item.txId s.pending) }
    match env.PackPayments payments env.testing with
    | Except.error _ => (Outcome.fatal Panic.PackShouldNotError, s1)
    | Except.ok p =>
      (Outcome.success,
        { s1 with
          pools := { s1.pools with
            Transactions :=
              s1.pools.Transactions.Put item.txId (blockNumberKey, item.packed),
            BlockOwnerPayment :=
              s1.pools.BlockOwnerPayment.Put (item.previousBlockNumberKey.getD []) p,
            BlockOwnerTxIndex := s1.pools.BlockOwnerTxIndex.Put item.txId blockNumberKey },
          ownership := env.Transfer link item.txId header.Number item.linkOwner owner
            s1.ownership })
  | Transaction.Unhandled _ => (Outcome.fatal Panic.UnhandledTransaction, s)

/-- The commit loop `for _, item := range txs[txStart:]`, store.go:263-328; a
panic ends it. -/
def commitLoop {Own Pend : Type} (env : Env Own Pend) (header : Header)
    (blockNumberKey : Bytes) (s : State Own Pend) : List Txn → Outcome × State Own Pend
  | [] => (Outcome.success, s)
  | item :: items =>
    match commitTransaction env header blockNumberKey s item with
    | (Outcome.success, s1) => commitLoop env header blockNumberKey s1 items
    | r => r

/-- The writes of `StoreIncoming` once validation is over, store.go:261-364. -/
def commit {Own Pend : Type} (env : Env Own Pend) (s : State Own Pend)
    (packedBlock : Bytes) (header : Header) (digest : Digest) (txs : List Txn)
    (f : Foundation) : Outcome × State Own Pend :=
  let blockNumberKey := putUint64 header.Number
  match commitLoop env header blockNumberKey s (txs.drop f.txStart) with
  | (Outcome.success, s1) =>
    let foundationTxId := env.FoundationTxId header digest
    let s2 : State Own Pend :=
      { s1 with
        pools := { s1.pools with
          BlockOwnerPayment := s1.pools.BlockOwnerPayment.Put blockNumberKey f.packedPayments,
          Transactions :=
            s1.pools.Transactions.Put foundationTxId (blockNumberKey, f.packedFoundation),
          BlockOwnerTxIndex := s1.pools.BlockOwnerTxIndex.Put foundationTxId blockNumberKey },
        ownership := env.CreateBlock foundationTxId header.Number f.blockOwner s1.ownership }
    let expectedBlockNumber := (s2.head.height + 1) % uint64Modulus
    if expectedBlockNumber ≠ header.Number then
      (Outcome.fatal Panic.OutOfSequenceBlock, s2)
    else
      let s3 : State Own Pend :=
        { s2 with head := { s2.head with
            previousBlock := digest,
            previousVersion := header.Version,
            previousTimestamp := header.Timestamp,
            height := header.Number } }
      if s3.head.rebuild then
        (Outcome.success, s3)
      else
        (Outcome.success,
          { s3 with
            ring := blockringPut env.BlockRingSize header.Number digest packedBlock s3.ring,
            pools := { s3.pools with
              Blocks := s3.pools.Blocks.Put (putUint64 header.Number) packedBlock } })
  | r => r

/-- Transaction validation, Merkle check, foundation selection and commit,
store.go:76-364, for a block whose header passed `checkHeader`. -/
def storeTransactions {Own Pend : Type} (env : Env Own Pend) (s : State Own Pend)
    (packedBlock : Bytes) (header : Header) (digest : Digest) (data : Bytes) :
    Outcome × State Own Pend :=
  let suppressDuplicateRecordChecks : Bool := decide (header.Version = 1)
  match validateLoop env s.pools s.ownership suppressDuplicateRecordChecks
      header.TransactionCount data with
  | Res.error e => (Outcome.error e, s)
  | Res.fatal p => (Outcome.fatal p, s)
  | Res.ok txs =>
    match (env.FullMerkleTree (txs.map Txn.txId)).getLast? with
    | none => (Outcome.fatal Panic.IndexOutOfRange, s)
    | some merkleRoot =>
      if merkleRoot ≠ header.MerkleRoot then
        (Outcome.error Fault.ErrMerkleRootDoesNotMatch, s)
      else
        match selectFoundation env txs with
        | Res.error e => (Outcome.error e, s)
        | Res.fatal p => (Outcome.fatal p, s)
        | Res.ok f =>
          if txs.length < f.txStart then
            (Outcome.error Fault.ErrTransactionCountOutOfRange, s)
          else
            commit env s packedBlock header digest txs f

/-- The body of `StoreIncoming` between `reservoir.Disable()` and the deferred
`reservoir.Enable()`, store.go:35-364. -/
def storeIncomingBody {Own Pend : Type} (env : Env Own Pend) (s : State Own Pend)
    (packedBlock : Bytes) : Outcome × State Own Pend :=
  match env.ExtractHeader packedBlock with
  | Except.error err => (Outcome.error err, s)
  | Except.ok (header, digest, data) =>
    match checkHeader s.head header with
    | some err => (Outcome.error err, s)
    | none => storeTransactions env s packedBlock header digest data

/-- Go: `StoreIncoming(packedBlock)`, store.go:27-365: the outcome and the state
the call leaves. The deferred `reservoir.Enable()` runs on every exit. -/
def StoreIncoming {Own Pend : Type} (env : Env Own Pend) (s : State Own Pend)
    (packedBlock : Bytes) : Outcome × State Own Pend :=
  let r := storeIncomingBody env { s with pending := env.Disable s.pending } packedBlock
  (r.1, { r.2 with pending := env.Enable r.2.pending })

/-- The blocks stored by a run of `StoreIncoming` calls, one call per packed
block in turn, each with the header and digest `ExtractHeader` gives it. A
refused block leaves the run going; a panic ends the process and the run. -/
def storedBlocks {Own Pend : Type} (env : Env Own Pend) :
    State Own Pend → List Bytes → List (Header × Digest)
  | _, [] => []
  | s, packedBlock :: later =>
    match StoreIncoming env s packedBlock with
    | (Outcome.success, s1) =>
      match env.ExtractHeader packedBlock with
      | Except.ok (header, digest, _) => (header, digest) :: storedBlocks env s1 later
      | Except.error _ => storedBlocks env s1 later
    | (Outcome.error _, s1) => storedBlocks env s1 later
    | (Outcome.fatal _, _) => []

/-- A list of stored blocks continues a chain whose tip has the given number
and digest: each block is numbered one more (in `uint64`) than the one
before it and names that one's digest as its previous block. -/
def linkedFrom (number : Nat) (digest : Digest) : List (Header × Digest) → Prop
  | [] => True
  | (header, d) :: later =>
    header.Number = (number + 1) % uint64Modulus ∧ header.PreviousBlock = digest ∧
      linkedFrom header.Number d later

instance linkedFromDecidable (number : Nat) (digest : Digest)
    (l : List (Header × Digest)) : Decidable (linkedFrom number digest l) := by
  induction l generalizing number digest with
  | nil => exact isTrue trivial
  | cons b later ih =>
    obtain ⟨header, d⟩ := b
    unfold linkedFrom
    have := ih header.Number d
    infer_instance

/-- The transaction ids observed on a block body, in the words of the spec:
the i-th id is the digest of exactly the bytes consumed by unpacking the i-th
transaction, the records being drawn one after the other from the body. -/
def observedTxIds {Own Pend : Type} (env : Env Own Pend) : Nat → Bytes → List Digest
  | 0, _ => []
  | count + 1, data =>
    match env.Unpack data env.testing with
    | Except.ok (_, n) => env.NewDigest (data.take n) :: observedTxIds env count (data.drop n)
    | Except.error _ => []

/-- The per-record part of the validation loop (store.go:97-192) applied to
`count` records in turn, leaving out the test for trailing bytes: the records
read and the bytes that remain after them. -/
def validateRecords {Own Pend : Type} (env : Env Own Pend) (pools : Pools) (own : Own)
    (suppressDuplicateRecordChecks : Bool) : Nat → Bytes → Res (List Txn × Bytes)
  | 0, data => Res.ok ([], data)
  | count + 1, data =>
    match validateTransaction env pools own suppressDuplicateRecordChecks data with
    | Res.error e => Res.error e
    | Res.fatal p => Res.fatal p
    | Res.ok (t, data') =>
      match validateRecords env pools own suppressDuplicateRecordChecks count data' with
      | Res.error e => Res.error e
      | Res.fatal p => Res.fatal p
      | Res.ok (ts, remaining) => Res.ok (t :: ts, remaining)

/-! ## A small concrete instance

A toy codec over which the definitions can be evaluated: a block is
`version, count, number, previous, root, timestamp` followed by two-byte
transaction records `tag, x`; digests are one byte long. -/

/-- Toy `merkle.NewDigest`: the byte sum modulo 256. -/
def exNewDigest (b : Bytes) : Digest := [b.sum % 256]

/-- Toy `blockrecord.ExtractHeader`: six header bytes, then the body. -/
def exExtractHeader (b : Bytes) : Except Fault (Header × Digest × Bytes) :=
  match b with
  | version :: count :: number :: previous :: root :: timestamp :: body =>
    Except.ok ({ Version := version, TransactionCount := count, Number := number,
                 PreviousBlock := [previous], MerkleRoot := [root], Timestamp := timestamp },
               exNewDigest [version, count, number, previous, root, timestamp], body)
  | _ => Except.error (Fault.Other 1)

/-- Toy `Unpack`: a record is a tag byte and one payload byte. -/
def exUnpack (data : Bytes) (_testing : Bool) : Except Fault (Transaction × Nat) :=
  match data with
  | 1 :: x :: _ => Except.ok (Transaction.OldBaseData 1 [x] [x] [], 2)
  | 2 :: x :: _ => Except.ok (Transaction.AssetData [x] [], 2)
  | 3 :: x :: _ => Except.ok (Transaction.BitmarkIssue [x] [x] [], 2)
  | 4 :: x :: _ => Except.ok (Transaction.BitmarkTransferUnratified [x] [x + 1] [], 2)
  | 5 :: x :: _ => Except.ok (Transaction.BitmarkTransferCountersigned [x] [x + 1] [], 2)
  | 6 :: x :: _ => Except.ok (Transaction.BlockFoundation 1 [(1, [x])] [x] [], 2)
  | 7 :: x :: _ => Except.ok (Transaction.BlockOwnerTransfer [x] 1 [(1, [x])] [x + 1] [], 2)
  | _ => Except.error (Fault.Other 2)

/-- Toy `Pack`: succeeds whenever an account is supplied, panics on a nil one. -/
def exPack (_tx : Transaction) (signer : Option Account) : Res Unit :=
  match signer with
  | some _ => Res.ok ()
  | none => Res.fatal (Panic.Collaborator 0)

/-- Toy `AssetId`: the registrant bytes. -/
def exAssetId (tx : Transaction) : Bytes :=
  match tx with
  | Transaction.AssetData registrant _ => registrant
  | _ => []

/-- Toy `merkle.FullMerkleTree`: the ids followed by one root, the digest of
their concatenation; a single zero root for no ids. -/
def exFullMerkleTree (ids : List Digest) : List Digest :=
  ids ++ [exNewDigest ids.flatten]

/-- Toy `currency.Map.Pack`. -/
def exPackPayments (m : CurrencyMap) (_testing : Bool) : Except Fault Bytes :=
  Except.ok (m.map (fun e => e.1 :: e.2)).flatten

/-- Toy ownership records: link and current owner. -/
abbrev ExOwn := List (Link × Account)

/-- Toy `ownership.OwnerOf`. -/
def exOwnerOf (_pools : Pools) (own : ExOwn) (link : Link) : Option Account :=
  Pool.Get own link

/-- Toy `ownership.CurrentlyOwns`. -/
def exCurrentlyOwns (_pools : Pools) (own : ExOwn) (owner : Option Account)
    (link : Link) : Bool :=
  decide (owner.isSome ∧ Pool.Get own link = owner)

/-- The toy collaborators; the pending cache is only its enabled flag. -/
def exEnv : Env ExOwn Bool where
  testing := true
  Litecoin := 2
  BlockRingSize := 3
  ExtractHeader := exExtractHeader
  FoundationTxId := fun header digest => exNewDigest (header.Number :: digest)
  Unpack := exUnpack
  Pack := exPack
  AssetId := exAssetId
  NewDigest := exNewDigest
  FullMerkleTree := exFullMerkleTree
  CheckPayments := fun _ _ _ => none
  PackPayments := exPackPayments
  ValidateAddress := fun _ _ _ => none
  FromBitcoin := fun address => (address.map (fun b => b + 1), none)
  OwnerOf := exOwnerOf
  CurrentlyOwns := exCurrentlyOwns
  CreateAsset := fun txId _ _ owner own => Pool.Put own txId owner
  CreateBlock := fun txId _ owner own => Pool.Put own txId owner
  Transfer := fun link txId _ _ newOwner own =>
    Pool.Put (own.filter (fun e => decide (e.1 ≠ link))) txId newOwner
  AssetDelete := fun _ p => p
  DeleteByTxId := fun _ p => p
  DeleteByLink := fun _ p => p
  Disable := fun _ => false
  Enable := fun _ => true

/-- A chain head at height 7 whose last block has digest `[9]`, version 2 and
timestamp 1000. -/
def exState : State ExOwn Bool where
  head := { height := 7, previousBlock := [9], previousVersion := 2,
            previousTimestamp := 1000, rebuild := false }
  pools := { Blocks := [], Transactions := [], Assets := [],
             BlockOwnerPayment := [], BlockOwnerTxIndex := [] }
  ownership := []
  ring := []
  pending := true

/-- A version 2 block numbered 8 on top of `exState`, holding an `OldBaseData`
and a `BitmarkIssue`, with the right Merkle root `[15]`. -/
def exBlockGood : Bytes := [2, 2, 8, 9, 15, 1000, 1, 5, 3, 6]

/-- The same block with a wrong Merkle root. -/
def exBlockBadRoot : Bytes := [2, 2, 8, 9, 14, 1000, 1, 5, 3, 6]

/-- The block numbered 9 that follows `exBlockGood` (digest `[12]`). -/
def exBlockNext : Bytes := [2, 2, 9, 12, 16, 1001, 1, 5, 3, 7]

/-- The block `exBlockGood` with timestamp 500, which is 500 s before the
timestamp 1000 of the chain head. -/
def exBlockBack500 : Bytes := [2, 2, 8, 9, 15, 500, 1, 5, 3, 6]

/-- The block `exBlockGood` with timestamp 300, 700 s before the head. -/
def exBlockBack700 : Bytes := [2, 2, 8, 9, 15, 300, 1, 5, 3, 6]

/-- The block `exBlockGood` naming `[3]` instead of `[9]` as previous block. -/
def exBlockWrongPrevious : Bytes := [2, 2, 8, 3, 15, 1000, 1, 5, 3, 6]

/-- The block `exBlockGood` with header version 0. -/
def exBlockVersion0 : Bytes := [0, 2, 8, 9, 15, 1000, 1, 5, 3, 6]

/-- The block `exBlockGood` with header version 1, below the head's 2. -/
def exBlockVersion1 : Bytes := [1, 2, 8, 9, 15, 1000, 1, 5, 3, 6]

/-- A block with transaction count 0 and one byte after the header, whose
Merkle root `[1]` is not the root `[0]` of the empty tree. -/
def exBlockNoTxTrailing : Bytes := [2, 0, 8, 9, 1, 1000, 77]

/-- A block with transaction count 0 and one byte after the header, whose
Merkle root is the root `[0]` of the empty tree. -/
def exBlockNoTxTrailingRoot : Bytes := [2, 0, 8, 9, 0, 1000, 77]

/-- The block `exBlockGood` followed by one more byte. -/
def exBlockTrailing : Bytes := [2, 2, 8, 9, 15, 1000, 1, 5, 3, 6, 77]

/-- The block `exBlockBadRoot`, whose header carries a wrong Merkle root, with
one byte appended after its two transactions. -/
def exBlockBadRootTrailing : Bytes := [2, 2, 8, 9, 14, 1000, 1, 5, 3, 6, 77]

/-- A block whose only transaction is an `OldBaseData`, with the right Merkle
root `[6]`. -/
def exBlockSingleBase : Bytes := [2, 1, 8, 9, 6, 1000, 1, 5]

/-- A block with transaction count 0, nothing after the header, and the
Merkle root `[0]` of the empty tree. -/
def exBlockEmpty : Bytes := [2, 0, 8, 9, 0, 1000]

/-- The state `exState` with the rebuild flag set. -/
def exStateRebuild : State ExOwn Bool :=
  { exState with head := { exState.head with rebuild := true } }

/-! ## The ordered key index (`avl/search.go`) and the peer ring (`announce/peer.go`) -/

/-- Go: `bytes.Compare(a, b)`: -1, 0 or +1 by lexicographic byte order. -/
def bytesCompare : Bytes → Bytes → Int
  | [], [] => 0
  | [], _ :: _ => -1
  | _ :: _, [] => 1
  | a :: as, b :: bs =>
    if a < b then -1 else if b < a then 1 else bytesCompare as bs

/-- A `*avl.Node`: `nil` is the nil pointer. The fields are those `search`
reads (`key`, `left`, `right`, `leftNodes`) and the value handed out by
`node.Value()`. -/
inductive Node (K V : Type) where
  | nil : Node K V
  | node (left : Node K V) (key : K) (value : V) (leftNodes : Int) (right : Node K V) :
      Node K V
  deriving Repr

/-- Go: `search(key, tree, index)`, search.go:12-25; `compare a b` is
`a.Compare(b)`. -/
def search {K V : Type} (compare : K → K → Int) (key : K) :
    Node K V → Int → Node K V × Int
  | Node.nil, _ => (Node.nil, -1)
  | Node.node left k value leftNodes right, index =>
    let c := compare k key
    if c = 1 then search compare key left index
    else if c = -1 then search compare key right (index + leftNodes + 1)
    else (Node.node left k value leftNodes right, index + leftNodes)

/-- Go: `tree.Search(key)`, search.go:8-10. -/
def Search {K V : Type} (compare : K → K → Int) (root : Node K V) (key : K) :
    Node K V × Int :=
  search compare key root 0

/-- The nodes of a tree in in-order sequence. -/
def Node.inorder {K V : Type} : Node K V → List (Node K V)
  | Node.nil => []
  | Node.node left k value leftNodes right =>
    left.inorder ++ Node.node left k value leftNodes right :: right.inorder

/-- The key of a node, none for the nil pointer. -/
def Node.key? {K V : Type} : Node K V → Option K
  | Node.nil => none
  | Node.node _ k _ _ _ => some k

/-- The keys of a tree in in-order sequence. -/
def Node.keys {K V : Type} : Node K V → List K
  | Node.nil => []
  | Node.node left k _ _ right => left.keys ++ k :: right.keys

/-- A tree is ordered by the key comparison when its in-order key sequence is
strictly increasing: `a.Compare(b) = -1` for every key `a` before a key `b`. -/
def Node.Ordered {K V : Type} (compare : K → K → Int) (t : Node K V) : Prop :=
  t.keys.Pairwise (fun a b => compare a b = -1)

instance Node.OrderedDecidable {K V : Type} (compare : K → K → Int) (t : Node K V) :
    Decidable (t.Ordered compare) := by
  unfold Node.Ordered
  infer_instance

/-- Modelled from the spec: `first() -> node?` of the ordered key index, the
first node of the in-order traversal, nil for an empty tree; the traversal
code of package `avl` is not among the embedded files. -/
def First {K V : Type} (root : Node K V) : Node K V :=
  root.inorder.headD Node.nil

/-- The node that follows the node with the given key in a node sequence. -/
def nodeAfter {K V : Type} [DecidableEq K] (key : K) : List (Node K V) → Node K V
  | [] => Node.nil
  | n :: later => if n.key? = some key then later.headD Node.nil else nodeAfter key later

/-- Modelled from the spec: `node.next() -> node?` of the ordered key index,
the node that follows `node` in the in-order traversal of the tree it belongs
to, nil after the last one. A node of an ordered tree is identified by its
key. -/
def Next {K V : Type} [DecidableEq K] (root : Node K V) (node : Node K V) : Node K V :=
  match node with
  | Node.nil => Node.nil
  | Node.node _ k _ _ _ => nodeAfter k root.inorder

/-- Go: `time.Time`, as a count of nanoseconds since the Unix epoch. -/
abbrev Time := Int

/-- Go: `type peerEntry struct`, peer.go:20-24. -/
structure peerEntry where
  publicKey : Bytes
  listeners : Bytes
  timestamp : Time
  deriving DecidableEq, Repr

/-- Go: `pubkey.Compare`, peer.go:138-141. -/
def pubkeyCompare (p q : Bytes) : Int := bytesCompare p q

/-- The fields of `globalData` in package `announce` that peer.go uses. -/
structure AnnounceData where
  publicKey : Bytes
  listeners : Bytes
  peerSet : Bool
  peerTree : Node Bytes peerEntry
  thisNode : Node Bytes peerEntry
  treeChanged : Bool

/-- Go: `GetNext(publicKey)`, peer.go:108-125, at clock reading `now`: public
key, listeners, timestamp and error; a nil slice is the empty list. -/
def GetNext (g : AnnounceData) (now : Time) (publicKey : Bytes) :
    Bytes × Bytes × Time × Option Fault :=
  let node := (Search pubkeyCompare g.peerTree publicKey).1
  let node :=
    match node with
    | Node.nil => node
    | n => Next g.peerTree n
  let node :=
    match node with
    | Node.nil => First g.peerTree
    | n => n
  match node with
  | Node.nil => ([], [], now, some Fault.ErrInvalidPublicKey)
  | Node.node _ _ peer _ _ => (peer.publicKey, peer.listeners, peer.timestamp, none)

/-- A leaf node of the peer tree for a public key seen at time 0. -/
def exPeer (key : Bytes) : peerEntry :=
  { publicKey := key, listeners := [127, 0, 0, 1], timestamp := 0 }

/-- The ring with the public keys `0x01`, `0x05`, `0x0A`, rooted at `0x05`. -/
def exRing : AnnounceData where
  publicKey := [5]
  listeners := [127, 0, 0, 1]
  peerSet := true
  peerTree :=
    Node.node (Node.node Node.nil [1] (exPeer [1]) 0 Node.nil) [5] (exPeer [5]) 1
      (Node.node Node.nil [10] (exPeer [10]) 0 Node.nil)
  thisNode := Node.nil
  treeChanged := false

/-- The empty ring. -/
def exRingEmpty : AnnounceData where
  publicKey := []
  listeners := []
  peerSet := false
  peerTree := Node.nil
  thisNode := Node.nil
  treeChanged := false

/-! ## Insertion into the ordered key index and `addPeer` (`announce/peer.go`) -/

/-- The number of nodes of a tree. -/
def Node.size {K V : Type} : Node K V → Nat
  | Node.nil => 0
  | Node.node left _ _ _ right => left.size + 1 + right.size

/-- The height of a tree. -/
def Node.height {K V : Type} : Node K V → Nat
  | Node.nil => 0
  | Node.node left _ _ _ right => max left.height right.height + 1

/-- The key and value pairs of a tree in in-order sequence. -/
def Node.entries {K V : Type} : Node K V → List (K × V)
  | Node.nil => []
  | Node.node left k value _ right => left.entries ++ (k, value) :: right.entries

/-- A node over two subtrees, with `leftNodes` counting the left one. -/
def mkNode {K V : Type} (left : Node K V) (key : K) (value : V) (right : Node K V) :
    Node K V :=
  Node.node left key value left.size right

/-- Modelled from the spec: the rebalancing step of the self-balancing ordered
map ("balance invariant AVL-style: height difference of sibling subtrees
≤ 1"); the insertion code of package `avl` is not among the embedded files.
A subtree that has grown two levels higher than its sibling is rotated, once
or twice, which keeps the in-order sequence. -/
def balance {K V : Type} (left : Node K V) (key : K) (value : V) (right : Node K V) :
    Node K V :=
  if left.height > right.height + 1 then
    match left with
    | Node.nil => mkNode left key value right
    | Node.node ll lk lv _ lr =>
      if ll.height ≥ lr.height then
        mkNode ll lk lv (mkNode lr key value right)
      else
        match lr with
        | Node.nil => mkNode left key value right
        | Node.node lrl lrk lrv _ lrr =>
          mkNode (mkNode ll lk lv lrl) lrk lrv (mkNode lrr key value right)
  else if right.height > left.height + 1 then
    match right with
    | Node.nil => mkNode left key value right
    | Node.node rl rk rv _ rr =>
      if rr.height ≥ rl.height then
        mkNode (mkNode left key value rl) rk rv rr
      else
        match rl with
        | Node.nil => mkNode left key value right
        | Node.node rll rlk rlv _ rlr =>
          mkNode (mkNode left key value rll) rlk rlv (mkNode rlr rk rv rr)
  else
    mkNode left key value right

/-- Modelled from the spec: `insert(key, value) -> added?` of the ordered key
index, "inserts if absent, else overwrites the value; returns whether a new
key was added"; the insertion code of package `avl` is not among the embedded
files. The key is looked for with the comparison `search` uses. -/
def Insert {K V : Type} (compare : K → K → Int) (key : K) (value : V) :
    Node K V → Node K V × Bool
  | Node.nil => (mkNode Node.nil key value Node.nil, true)
  | Node.node left k v leftNodes right =>
    let c := compare k key
    if c = 1 then
      let r := Insert compare key value left
      (balance r.1 k v right, r.2)
    else if c = -1 then
      let r := Insert compare key value right
      (balance left k v r.1, r.2)
    else
      (Node.node left k value leftNodes right, false)

/-- The constants `announceExpiry` and `announceRebroadcast` of package
`announce`, durations in nanoseconds; their declarations are outside the
embedded files. -/
structure AnnounceConstants where
  announceExpiry : Int
  announceRebroadcast : Int
  deriving DecidableEq, Repr

/-- Nanoseconds in a second: `time.Unix(sec, 0)` is `sec` times this. -/
def nanosecondsPerSecond : Nat := 1000000000

/-- The timestamp `ts` that `addPeer` works with, peer.go:66-70, at a clock
reading of `now` nanoseconds after the Unix epoch: `time.Now()`, replaced by
`time.Unix(int64(timestamp), 0)` when
`timestamp != 0 && timestamp <= uint64(ts.Unix())`. -/
def effectiveTimestamp (now : Nat) (timestamp : Nat) : Time :=
  if timestamp ≠ 0 ∧ timestamp ≤ now / nanosecondsPerSecond then
    ((timestamp * nanosecondsPerSecond : Nat) : Int)
  else
    (now : Int)

/-- Go: `addPeer(publicKey, listeners, timestamp)`, peer.go:64-106, called when
the clock reads `now` nanoseconds after the Unix epoch (the clock is read
once per call: `time.Since(ts)` is `now - ts`): the result and the
`globalData` it leaves. The log line is left out. -/
def addPeer (c : AnnounceConstants) (g : AnnounceData) (now : Nat)
    (publicKey : Bytes) (listeners : Bytes) (timestamp : Nat) : Bool × AnnounceData :=
  let ts := effectiveTimestamp now timestamp
  if (now : Int) - ts ≥ c.announceExpiry then
    (false, g)
  else
    let peer : peerEntry := { publicKey := publicKey, listeners := listeners, timestamp := ts }
    let limited : Bool :=
      match (Search pubkeyCompare g.peerTree publicKey).1 with
      | Node.nil => false
      | Node.node _ _ existing _ _ => decide (ts - existing.timestamp < c.announceRebroadcast)
    if limited then
      (false, g)
    else
      let r := Insert pubkeyCompare publicKey peer g.peerTree
      let g1 : AnnounceData := { g with peerTree := r.1 }
      if g.publicKey = publicKey then
        (false, g1)
      else if r.2 then
        (true, { g1 with treeChanged := true })
      else
        (true, g1)

/-- Go: `AddPeer(publicKey, listeners, timestamp)`, peer.go:56-61: `addPeer`
under the lock. -/
def AddPeer (c : AnnounceConstants) (g : AnnounceData) (now : Nat)
    (publicKey : Bytes) (listeners : Bytes) (timestamp : Nat) : Bool × AnnounceData :=
  addPeer c g now publicKey listeners timestamp

/-- Go: `SetPeer(publicKey, listeners)`, peer.go:32-50, at clock reading `now`:
the error, if any, and the `globalData` it leaves. `thisNode` is the node as
`Search` finds it at that moment; `determineConnections` works on fields of
`globalData` that peer.go does not use. -/
def SetPeer (c : AnnounceConstants) (g : AnnounceData) (now : Nat)
    (publicKey : Bytes) (listeners : Bytes) : Option Fault × AnnounceData :=
  if g.peerSet then
    (some Fault.ErrAlreadyInitialised, g)
  else
    let g1 : AnnounceData :=
      { g with publicKey := publicKey, listeners := listeners, peerSet := true }
    let g2 := (addPeer c g1 now publicKey listeners 0).2
    (none, { g2 with thisNode := (Search pubkeyCompare g2.peerTree publicKey).1 })

/-- The well-formed rings: the peer tree is ordered by `pubkey.Compare` and
every entry is stored under its own public key. -/
def RingInv (g : AnnounceData) : Prop :=
  g.peerTree.Ordered pubkeyCompare ∧ ∀ e ∈ g.peerTree.entries, e.2.publicKey = e.1

instance RingInvDecidable (g : AnnounceData) : Decidable (RingInv g) := by
  unfold RingInv
  infer_instance

/-- A call on the peer ring together with the clock reading at which it is
made. -/
inductive RingOp where
  | setPeer (now : Nat) (publicKey : Bytes) (listeners : Bytes)
  | addPeer (now : Nat) (publicKey : Bytes) (listeners : Bytes) (timestamp : Nat)
  deriving DecidableEq, Repr

/-- The `globalData` a call leaves. -/
def applyRingOp (c : AnnounceConstants) (g : AnnounceData) : RingOp → AnnounceData
  | RingOp.setPeer now publicKey listeners => (SetPeer c g now publicKey listeners).2
  | RingOp.addPeer now publicKey listeners timestamp =>
    (AddPeer c g now publicKey listeners timestamp).2

/-- The `globalData` a sequence of calls leaves. -/
def runRingOps (c : AnnounceConstants) (g : AnnounceData) (ops : List RingOp) :
    AnnounceData :=
  ops.foldl (applyRingOp c) g

/-- The public key reached from `publicKey` by `steps` calls of `GetNext`, each
one made with the key the call before returned. -/
def ringWalk (g : AnnounceData) (now : Time) : Nat → Bytes → Bytes
  | 0, publicKey => publicKey
  | steps + 1, publicKey => ringWalk g now steps (GetNext g now publicKey).1

/-- Announcement constants for the examples: expiry after 3300 s, rebroadcast
after 420 s. -/
def exConstants : AnnounceConstants :=
  { announceExpiry := 3300000000000, announceRebroadcast := 420000000000 }

/-- A clock reading for the examples: 10000 s after the epoch. -/
def exNow : Nat := 10000000000000

/-- The ring built on the empty one by announcing `0x05`, `0x01`, `0x0A`,
`0x07` and `0x03` at `exNow`. -/
def exRingOps : List RingOp :=
  [RingOp.addPeer exNow [5] [127, 0, 0, 1] 0, RingOp.addPeer exNow [1] [127, 0, 0, 1] 0,
   RingOp.addPeer exNow [10] [127, 0, 0, 1] 0, RingOp.addPeer exNow [7] [127, 0, 0, 1] 0,
   RingOp.addPeer exNow [3] [127, 0, 0, 1] 0]

/-- The ring with the keys `0x01`, `0x03`, `0x05`, `0x07`, `0x0A`. -/
def exRingFive : AnnounceData := runRingOps exConstants exRingEmpty exRingOps

/-- The ring `exRingFive` after `SetPeer(0x06, ...)` at `exNow`: the node's own
key is `0x06`. -/
def exRingSelf : AnnounceData := (SetPeer exConstants exRingFive exNow [6] [10, 0, 0, 1]).2

/-- The ring `exRingSelf` after `AddPeer(0x42, L, 10000)` at `exNow`. -/
def exRingWith42 : AnnounceData :=
  (AddPeer exConstants exRingSelf exNow [66] [192, 168, 0, 1] 10000).2

/-- The `globalData` of package `announce` before any call: the zero value,
with an empty peer tree. -/
def initialAnnounceData : AnnounceData where
  publicKey := []
  listeners := []
  peerSet := false
  peerTree := Node.nil
  thisNode := Node.nil
  treeChanged := false

/-- Every node's `leftNodes` field equals the number of nodes in its left
subtree. -/
def Node.Counted {K V : Type} : Node K V → Prop
  | Node.nil => True
  | Node.node left _ _ leftNodes right =>
    leftNodes = (left.size : Int) ∧ left.Counted ∧ right.Counted

instance Node.CountedDecidable {K V : Type} : (t : Node K V) → Decidable t.Counted
  | Node.nil => isTrue trivial
  | Node.node left _ _ leftNodes right =>
    have := Node.CountedDecidable left
    have := Node.CountedDecidable right
    inferInstanceAs (Decidable (leftNodes = (left.size : Int) ∧ left.Counted ∧ right.Counted))

/-- The contract of a key comparison `a.Compare(b)`: it answers -1 one way
round exactly when it answers +1 the other way round, and it answers neither
(the `default:` arm of `search`) exactly for equal keys. -/
def ThreeWay {K : Type} (compare : K → K → Int) : Prop :=
  (∀ a b, compare a b = -1 ↔ compare b a = 1) ∧
  (∀ a b, (compare a b ≠ 1 ∧ compare a b ≠ -1) ↔ a = b)

/-- The 0-based in-order rank of a key: the number of keys of the tree that
are strictly smaller. -/
def Node.rank {K V : Type} (compare : K → K → Int) (t : Node K V) (key : K) : Nat :=
  t.keys.countP (fun k => decide (compare k key = -1))

/-! ## `DigestForBlock` (`block/get.go`) -/

/-- The constants of package `genesis` that get.go reads; their declarations
are outside the embedded files. -/
structure Genesis where
  BlockNumber : Nat
  TestGenesisDigest : Digest
  LiveGenesisDigest : Digest
  deriving DecidableEq, Repr

/-- Modelled from the spec: `blockring.DigestForBlock(number)`, the digest the
block ring holds for a block number, if any; package `blockring` is not
among the embedded files. -/
def blockringDigestForBlock (ring : BlockRing) (number : Nat) : Option Digest :=
  match ring with
  | [] => none
  | (n, digest, _) :: older =>
    if n = number then some digest else blockringDigestForBlock older number

/-- Go: `DigestForBlock(number)`, get.go:36-67: the digest, or the error. -/
def DigestForBlock {Own Pend : Type} (env : Env Own Pend) (genesis : Genesis)
    (s : State Own Pend) (number : Nat) : Except Fault Digest :=
  if number ≤ genesis.BlockNumber then
    if env.testing then Except.ok genesis.TestGenesisDigest
    else Except.ok genesis.LiveGenesisDigest
  else
    let cached : Option Digest :=
      if number > genesis.BlockNumber ∧ number ≤ s.head.height then
        blockringDigestForBlock s.ring number
      else none
    match cached with
    | some d => Except.ok d
    | none =>
      match s.pools.Blocks.Get (putUint64 number) with
      | none => Except.error Fault.ErrBlockNotFound
      | some packed =>
        match env.ExtractHeader packed with
        | Except.ok (_, digest, _) => Except.ok digest
        | Except.error err => Except.error err

/-- Genesis constants for the examples: block number 1. -/
def exGenesis : Genesis :=
  { BlockNumber := 1, TestGenesisDigest := [101], LiveGenesisDigest := [102] }

/-- The collaborators `exEnv` in live mode. -/
def exEnvLive : Env ExOwn Bool := { exEnv with testing := false }

/-- The collaborators `exEnv` with a `Pack` that returns an error on a nil
account. -/
def exEnvPackError : Env ExOwn Bool :=
  { exEnv with
    Pack := fun _ signer =>
      match signer with
      | some _ => Res.ok ()
      | none => Res.error (Fault.Other 3) }

/-- The collaborators `exEnv` with a `Pack` that accepts every account, the
nil one included. -/
def exEnvPackAny : Env ExOwn Bool := { exEnv with Pack := fun _ _ => Res.ok () }

/-- A block whose second transaction is a `BlockOwnerTransfer` of the link
`[4]`, for which the ownership records of `exState` hold no owner. -/
def exBlockOwnerTransferNoOwner : Bytes := [2, 2, 8, 9, 0, 1000, 6, 5, 7, 4]

/-- A block whose second transaction is a `BitmarkTransferUnratified` of the
link `[4]`, for which the ownership records of `exState` hold no owner. -/
def exBlockTransferNoOwner : Bytes := [2, 2, 8, 9, 0, 1000, 6, 5, 4, 4]

/-- The collaborators `exEnv` with a block ring of capacity zero, so that every
lookup is answered from the Blocks pool. -/
def exEnvNoRing : Env ExOwn Bool := { exEnv with BlockRingSize := 0 }

/-! ## The periodic checker of package payment -/

/-- The communication of the `select` in `checker.Run` that proceeds in one
pass of the loop: the receive from `shutdown` (background.go:136) or the
receive from `time.After(blockchainCheckIntervel)` (background.go:139). -/
inductive SelectCase where
  | shutdown
  | interval
  deriving DecidableEq, Repr

/-- How a Go statement ends: it runs to its end, it executes a `break`
without a label, or it executes a `return`. -/
inductive Completion where
  | normal
  | breakOut
  | returned
  deriving DecidableEq, Repr

/-- What a run of `checker.Run` has done so far: passes of the `for` loop
begun, rounds of `checkLatestBlock` started and waited for, calls of
`checkLatestBlock` started, and "block check finished" lines logged. -/
structure CheckerState where
  passes : Nat
  rounds : Nat
  checks : Nat
  logged : Nat
  deriving DecidableEq, Repr

/-- Go: the two clauses of the `select` in `checker.Run`
(background.go:136-146). The shutdown clause is the statement `break`. The
interval clause starts one `checkLatestBlock` per handler, waits for all of
them and logs; `handlers` is `len(globalData.handlers)`, and every call is
taken to finish, so that `wg.Wait` returns. -/
def checker.clause (handlers : Nat) (c : SelectCase) (s : CheckerState) :
    Completion × CheckerState :=
  match c with
  | SelectCase.shutdown => (Completion.breakOut, s)
  | SelectCase.interval =>
    (Completion.normal,
      { s with rounds := s.rounds + 1, checks := s.checks + handlers,
               logged := s.logged + 1 })

/-- Go: the `select` statement of `checker.Run` (background.go:135-147). A
`break` without a label ends the innermost `for`, `switch` or `select`
statement, here the `select` itself, which therefore ends normally. -/
def checker.select (handlers : Nat) (c : SelectCase) (s : CheckerState) :
    Completion × CheckerState :=
  match checker.clause handlers c s with
  | (Completion.breakOut, s1) => (Completion.normal, s1)
  | (completion, s1) => (completion, s1)

/-- Go: `checker.Run` (background.go:133-149), the loop `for { select { ... } }`
run over the communications that proceed in its successive passes. The loop
has no condition: it is left only when its body ends with `break` or
`return`, after which `Run` returns. The result is `true` when `Run` has
returned and `false` when it is still in the loop after the listed passes,
waiting in the `select`. -/
def checker.Run (handlers : Nat) : List SelectCase → CheckerState → Bool × CheckerState
  | [], s => (false, s)
  | c :: later, s =>
    match checker.select handlers c { s with passes := s.passes + 1 } with
    | (Completion.normal, s1) => checker.Run handlers later s1
    | (_, s1) => (true, s1)

/-- A checker that has done nothing yet. -/
def exChecker : CheckerState := { passes := 0, rounds := 0, checks := 0, logged := 0 }

/-! ## Frame lemmas for the commit phase -/

theorem commitTransaction_outcome {Own Pend : Type} (env : Env Own Pend) (header : Header)
    (key : Bytes) (s : State Own Pend) (item : Txn) (e : Fault) :
    (commitTransaction env header key s item).1 ≠ Outcome.error e := by
  unfold commitTransaction
  split <;> (try split) <;> simp <;> split_ifs <;> simp

theorem commitTransaction_frame {Own Pend : Type} (env : Env Own Pend) (header : Header)
    (key : Bytes) (s : State Own Pend) (item : Txn) :
    (commitTransaction env header key s item).2.head = s.head ∧
    (commitTransaction env header key s item).2.ring = s.ring ∧
    (commitTransaction env header key s item).2.pools.Blocks = s.pools.Blocks := by
  unfold commitTransaction
  split <;> (try split) <;> simp <;> split_ifs <;> simp

theorem commitLoop_outcome {Own Pend : Type} (env : Env Own Pend) (header : Header)
    (key : Bytes) (items : List Txn) (s : State Own Pend) (e : Fault) :
    (commitLoop env header key s items).1 ≠ Outcome.error e := by
  induction items generalizing s with
  | nil => simp [commitLoop]
  | cons item items ih =>
    unfold commitLoop
    split
    · exact ih _
    · rename_i r hr
      exact commitTransaction_outcome env header key s item e

theorem commitLoop_frame {Own Pend : Type} (env : Env Own Pend) (header : Header)
    (key : Bytes) (items : List Txn) (s : State Own Pend) :
    (commitLoop env header key s items).2.head = s.head ∧
    (commitLoop env header key s items).2.ring = s.ring ∧
    (commitLoop env header key s items).2.pools.Blocks = s.pools.Blocks := by
  induction items generalizing s with
  | nil => simp [commitLoop]
  | cons item items ih =>
    have h := commitTransaction_frame env header key s item
    unfold commitLoop
    split
    · rename_i s1 hs1
      have h1 := ih s1
      rw [hs1] at h
      simp only at h
      rw [h1.1, h1.2.1, h1.2.2]
      exact h
    · exact h


theorem commit_outcome {Own Pend : Type} (env : Env Own Pend) (s : State Own Pend)
    (packedBlock : Bytes) (header : Header) (digest : Digest) (txs : List Txn)
    (f : Foundation) (e : Fault) :
    (commit env s packedBlock header digest txs f).1 ≠ Outcome.error e := by
  have h := commitLoop_outcome env header (putUint64 header.Number) (txs.drop f.txStart) s e
  unfold commit
  simp only []
  generalize commitLoop env header (putUint64 header.Number) s (txs.drop f.txStart) = r at h
  obtain ⟨o, s1⟩ := r
  cases o with
  | success => simp only []; split_ifs <;> simp
  | error e1 => simpa using h
  | fatal p => simp

theorem storeTransactions_error {Own Pend : Type} (env : Env Own Pend) (s : State Own Pend)
    (packedBlock : Bytes) (header : Header) (digest : Digest) (data : Bytes) (e : Fault)
    (h : (storeTransactions env s packedBlock header digest data).1 = Outcome.error e) :
    (storeTransactions env s packedBlock header digest data).2 = s := by
  unfold storeTransactions at h ⊢
  simp only at h ⊢
  split <;> try rfl
  split <;> try rfl
  split_ifs <;> try rfl
  split <;> try rfl
  split_ifs <;> try rfl
  rename_i txs _ _ _ _ f hf _
  exfalso
  simp only [*] at h
  exact commit_outcome env s packedBlock header digest _ _ e h

theorem storeIncomingBody_error {Own Pend : Type} (env : Env Own Pend) (s : State Own Pend)
    (packedBlock : Bytes) (e : Fault)
    (h : (storeIncomingBody env s packedBlock).1 = Outcome.error e) :
    (storeIncomingBody env s packedBlock).2 = s := by
  unfold storeIncomingBody at h ⊢
  cases hx : env.ExtractHeader packedBlock with
  | error err => rfl
  | ok v =>
    obtain ⟨header, digest, data⟩ := v
    simp only [hx] at h ⊢
    cases hc : checkHeader s.head header with
    | some err => rfl
    | none =>
      simp only [hc] at h ⊢
      exact storeTransactions_error env s packedBlock header digest data e h


/-! ## C1: an error return leaves the state as it was -/

/-- C1. Whenever `StoreIncoming` returns an error, the chain head (height,
previousBlock, previousVersion, previousTimestamp), each of the five storage
pools (Blocks, Transactions, Assets, BlockOwnerPayment, BlockOwnerTxIndex),
the ownership records and the block ring are equal to their values before
the call: every `return err` of the function precedes its first write. -/
theorem StoreIncoming_error_leaves_state {Own Pend : Type} (env : Env Own Pend)
    (s : State Own Pend) (packedBlock : Bytes) (e : Fault)
    (h : (StoreIncoming env s packedBlock).1 = Outcome.error e) :
    (StoreIncoming env s packedBlock).2.head = s.head ∧
    (StoreIncoming env s packedBlock).2.pools.Blocks = s.pools.Blocks ∧
    (StoreIncoming env s packedBlock).2.pools.Transactions = s.pools.Transactions ∧
    (StoreIncoming env s packedBlock).2.pools.Assets = s.pools.Assets ∧
    (StoreIncoming env s packedBlock).2.pools.BlockOwnerPayment = s.pools.BlockOwnerPayment ∧
    (StoreIncoming env s packedBlock).2.pools.BlockOwnerTxIndex = s.pools.BlockOwnerTxIndex ∧
    (StoreIncoming env s packedBlock).2.ownership = s.ownership ∧
    (StoreIncoming env s packedBlock).2.ring = s.ring := by
  unfold StoreIncoming at h ⊢
  simp only at h ⊢
  rw [storeIncomingBody_error env _ packedBlock e h]
  simp

/-- C1 at a concrete input: the block with a wrong Merkle root is refused
with `ErrMerkleRootDoesNotMatch` and nothing is written. -/
theorem StoreIncoming_error_leaves_state_witness :
    (StoreIncoming exEnv exState exBlockBadRoot).1
        = Outcome.error Fault.ErrMerkleRootDoesNotMatch ∧
    (StoreIncoming exEnv exState exBlockBadRoot).2.head = exState.head ∧
    (StoreIncoming exEnv exState exBlockBadRoot).2.pools.Blocks = exState.pools.Blocks ∧
    (StoreIncoming exEnv exState exBlockBadRoot).2.pools.Transactions
        = exState.pools.Transactions ∧
    (StoreIncoming exEnv exState exBlockBadRoot).2.pools.Assets = exState.pools.Assets ∧
    (StoreIncoming exEnv exState exBlockBadRoot).2.pools.BlockOwnerPayment
        = exState.pools.BlockOwnerPayment ∧
    (StoreIncoming exEnv exState exBlockBadRoot).2.pools.BlockOwnerTxIndex
        = exState.pools.BlockOwnerTxIndex ∧
    (StoreIncoming exEnv exState exBlockBadRoot).2.ownership = exState.ownership ∧
    (StoreIncoming exEnv exState exBlockBadRoot).2.ring = exState.ring :=
  ⟨by decide, StoreIncoming_error_leaves_state exEnv exState exBlockBadRoot
    Fault.ErrMerkleRootDoesNotMatch (by decide)⟩


/-! ## What a successful call has done -/

/-- The chain head after a block with this header and digest has been stored. -/
theorem commit_success {Own Pend : Type} (env : Env Own Pend) (s : State Own Pend)
    (packedBlock : Bytes) (header : Header) (digest : Digest) (txs : List Txn)
    (f : Foundation)
    (h : (commit env s packedBlock header digest txs f).1 = Outcome.success) :
    header.Number = (s.head.height + 1) % uint64Modulus ∧
    (commit env s packedBlock header digest txs f).2.head =
      { height := header.Number, previousBlock := digest,
        previousVersion := header.Version, previousTimestamp := header.Timestamp,
        rebuild := s.head.rebuild } ∧
    (commit env s packedBlock header digest txs f).2.ring =
      (if s.head.rebuild then s.ring
       else blockringPut env.BlockRingSize header.Number digest packedBlock s.ring) ∧
    (commit env s packedBlock header digest txs f).2.pools.Blocks =
      (if s.head.rebuild then s.pools.Blocks
       else s.pools.Blocks.Put (putUint64 header.Number) packedBlock) := by
  have hf := commitLoop_frame env header (putUint64 header.Number) (txs.drop f.txStart) s
  unfold commit at h ⊢
  simp only [] at h ⊢
  generalize commitLoop env header (putUint64 header.Number) s (txs.drop f.txStart) = r
    at hf h ⊢
  obtain ⟨o, s1⟩ := r
  obtain ⟨h1, h2, h3⟩ := hf
  simp only at h1 h2 h3
  cases o with
  | error e1 => simp at h
  | fatal p => simp at h
  | success =>
    simp only [] at h ⊢
    by_cases hn : (s1.head.height + 1) % uint64Modulus = header.Number
    · rw [h1] at hn
      by_cases hr : s.head.rebuild = true
      · simp [h1, h2, h3, hn, hr]
      · simp [h1, h2, h3, hn, hr]
    · simp [hn] at h

theorem storeTransactions_success {Own Pend : Type} (env : Env Own Pend)
    (s : State Own Pend) (packedBlock : Bytes) (header : Header) (digest : Digest)
    (data : Bytes)
    (h : (storeTransactions env s packedBlock header digest data).1 = Outcome.success) :
    ∃ txs f,
      validateLoop env s.pools s.ownership (decide (header.Version = 1))
        header.TransactionCount data = Res.ok txs ∧
      (env.FullMerkleTree (txs.map Txn.txId)).getLast? = some header.MerkleRoot ∧
      selectFoundation env txs = Res.ok f ∧
      f.txStart ≤ txs.length ∧
      storeTransactions env s packedBlock header digest data
        = commit env s packedBlock header digest txs f := by
  unfold storeTransactions at h ⊢
  simp only [] at h ⊢
  cases hv : validateLoop env s.pools s.ownership (decide (header.Version = 1))
      header.TransactionCount data with
  | error e => simp [hv] at h
  | fatal p => simp [hv] at h
  | ok txs =>
    simp only [hv] at h ⊢
    cases hm : (env.FullMerkleTree (txs.map Txn.txId)).getLast? with
    | none => simp [hm] at h
    | some root =>
      simp only [hm] at h ⊢
      by_cases hroot : root = header.MerkleRoot
      · simp only [hroot, ne_eq, not_true_eq_false, if_false] at h ⊢
        cases hs : selectFoundation env txs with
        | error e => simp [hs] at h
        | fatal p => simp [hs] at h
        | ok f =>
          simp only [hs] at h ⊢
          by_cases hl : txs.length < f.txStart
          · simp [hl] at h
          · simp only [hl, if_false] at h ⊢
            exact ⟨txs, f, rfl, by rw [hm, hroot], hs, Nat.le_of_not_lt hl, rfl⟩
      · simp [hroot] at h

/-- Everything a `return nil` of `StoreIncoming` implies about the block and
about the state it leaves. -/
theorem StoreIncoming_success {Own Pend : Type} (env : Env Own Pend) (s : State Own Pend)
    (packedBlock : Bytes)
    (h : (StoreIncoming env s packedBlock).1 = Outcome.success) :
    ∃ header digest data,
      env.ExtractHeader packedBlock = Except.ok (header, digest, data) ∧
      checkHeader s.head header = none ∧
      header.Number = (s.head.height + 1) % uint64Modulus ∧
      (StoreIncoming env s packedBlock).2.head =
        { height := header.Number, previousBlock := digest,
          previousVersion := header.Version, previousTimestamp := header.Timestamp,
          rebuild := s.head.rebuild } ∧
      (StoreIncoming env s packedBlock).2.ring =
        (if s.head.rebuild then s.ring
         else blockringPut env.BlockRingSize header.Number digest packedBlock s.ring) ∧
      (StoreIncoming env s packedBlock).2.pools.Blocks =
        (if s.head.rebuild then s.pools.Blocks
         else s.pools.Blocks.Put (putUint64 header.Number) packedBlock) := by
  unfold StoreIncoming storeIncomingBody at h ⊢
  simp only [] at h ⊢
  cases hx : env.ExtractHeader packedBlock with
  | error err => simp [hx] at h
  | ok v =>
    obtain ⟨header, digest, data⟩ := v
    simp only [hx] at h ⊢
    cases hc : checkHeader s.head header with
    | some err => simp [hc] at h
    | none =>
      simp only [hc] at h ⊢
      obtain ⟨txs, f, -, -, -, -, hcommit⟩ :=
        storeTransactions_success env _ packedBlock header digest data h
      rw [hcommit] at h ⊢
      have hk := commit_success env _ packedBlock header digest txs f h
      exact ⟨header, digest, data, rfl, hc, hk.1, hk.2.1, hk.2.2.1, hk.2.2.2⟩


theorem checkHeader_none_previousBlock (g : ChainHead) (header : Header)
    (h : checkHeader g header = none) : header.PreviousBlock = g.previousBlock := by
  unfold checkHeader at h
  by_cases hp : g.previousBlock = header.PreviousBlock
  · exact hp.symm
  · simp [hp] at h

theorem StoreIncoming_error_head {Own Pend : Type} (env : Env Own Pend)
    (s : State Own Pend) (packedBlock : Bytes) (e : Fault)
    (h : (StoreIncoming env s packedBlock).1 = Outcome.error e) :
    (StoreIncoming env s packedBlock).2.head = s.head := by
  unfold StoreIncoming at h ⊢
  simp only at h ⊢
  rw [storeIncomingBody_error env _ packedBlock e h]

theorem storedBlocks_linked {Own Pend : Type} (env : Env Own Pend)
    (blocks : List Bytes) (s : State Own Pend) :
    linkedFrom s.head.height s.head.previousBlock (storedBlocks env s blocks) := by
  induction blocks generalizing s with
  | nil => simp [storedBlocks, linkedFrom]
  | cons b later ih =>
    unfold storedBlocks
    cases hr : StoreIncoming env s b with
    | mk o s1 =>
      have ho : (StoreIncoming env s b).1 = o := by rw [hr]
      have hs : (StoreIncoming env s b).2 = s1 := by rw [hr]
      cases o with
      | fatal p => simp [linkedFrom]
      | error e =>
        simp only
        have hh := StoreIncoming_error_head env s b e ho
        rw [hs] at hh
        rw [← hh]
        exact ih s1
      | success =>
        obtain ⟨header, digest, data, hx, hc, hn, hhead, -, -⟩ :=
          StoreIncoming_success env s b ho
        rw [hs] at hhead
        simp only [hx]
        have hi := ih s1
        rw [hhead] at hi
        exact ⟨hn, checkHeader_none_previousBlock _ _ hc, hi⟩

/-! ## C2: stored blocks are numbered consecutively and linked by digest -/

/-- C2. A call of `StoreIncoming` that returns success stored a block whose
header number is the chain-head height before the call plus 1 (the `uint64`
sum `globalData.height + 1` of the code, which is the plain sum at every
height below the largest `uint64`), and it leaves height = header.number,
previousBlock = the block digest, previousVersion = header.version and
previousTimestamp = header.timestamp. Hence in any run of calls the stored
blocks are numbered consecutively, without gaps, and each names the digest of
the block stored before it as its previous block. -/
theorem StoreIncoming_chain_monotone {Own Pend : Type} (env : Env Own Pend)
    (s : State Own Pend) (packedBlock : Bytes) (blocks : List Bytes) :
    ((StoreIncoming env s packedBlock).1 = Outcome.success →
      ∃ header digest data,
        env.ExtractHeader packedBlock = Except.ok (header, digest, data) ∧
        header.Number = (s.head.height + 1) % uint64Modulus ∧
        (s.head.height + 1 < uint64Modulus → header.Number = s.head.height + 1) ∧
        (StoreIncoming env s packedBlock).2.head.height = header.Number ∧
        (StoreIncoming env s packedBlock).2.head.previousBlock = digest ∧
        (StoreIncoming env s packedBlock).2.head.previousVersion = header.Version ∧
        (StoreIncoming env s packedBlock).2.head.previousTimestamp = header.Timestamp) ∧
    linkedFrom s.head.height s.head.previousBlock (storedBlocks env s blocks) := by
  refine ⟨fun h => ?_, storedBlocks_linked env blocks s⟩
  obtain ⟨header, digest, data, hx, -, hn, hhead, -, -⟩ :=
    StoreIncoming_success env s packedBlock h
  refine ⟨header, digest, data, hx, hn, fun hlt => ?_, ?_, ?_, ?_, ?_⟩
  · rw [hn, Nat.mod_eq_of_lt hlt]
  all_goals rw [hhead]

/-- C2 at a concrete input: block 8 is stored on a head at height 7, and in
the run `exBlockGood, exBlockBadRoot, exBlockNext` the stored blocks are
8 and 9, linked by digest. -/
theorem StoreIncoming_chain_monotone_witness :
    (StoreIncoming exEnv exState exBlockGood).1 = Outcome.success ∧
    (∃ header digest data,
        exEnv.ExtractHeader exBlockGood = Except.ok (header, digest, data) ∧
        header.Number = (exState.head.height + 1) % uint64Modulus ∧
        (exState.head.height + 1 < uint64Modulus →
          header.Number = exState.head.height + 1) ∧
        (StoreIncoming exEnv exState exBlockGood).2.head.height = header.Number ∧
        (StoreIncoming exEnv exState exBlockGood).2.head.previousBlock = digest ∧
        (StoreIncoming exEnv exState exBlockGood).2.head.previousVersion = header.Version ∧
        (StoreIncoming exEnv exState exBlockGood).2.head.previousTimestamp
          = header.Timestamp) ∧
    (storedBlocks exEnv exState [exBlockGood, exBlockBadRoot, exBlockNext]).map
        (fun b => b.1.Number) = [8, 9] ∧
    linkedFrom exState.head.height exState.head.previousBlock
      (storedBlocks exEnv exState [exBlockGood, exBlockBadRoot, exBlockNext]) :=
  ⟨by decide,
   (StoreIncoming_chain_monotone exEnv exState exBlockGood
      [exBlockGood, exBlockBadRoot, exBlockNext]).1 (by decide),
   by decide,
   (StoreIncoming_chain_monotone exEnv exState exBlockGood
      [exBlockGood, exBlockBadRoot, exBlockNext]).2⟩


/-! ## The validation loop -/

theorem validateTransaction_ok {Own Pend : Type} (env : Env Own Pend) (pools : Pools)
    (own : Own) (suppress : Bool) (data data' : Bytes) (t : Txn)
    (h : validateTransaction env pools own suppress data = Res.ok (t, data')) :
    ∃ tx n, env.Unpack data env.testing = Except.ok (tx, n) ∧
      t.txId = env.NewDigest (data.take n) ∧ t.packed = data.take n ∧
      t.unpacked = tx ∧ data' = data.drop n := by
  unfold validateTransaction at h
  cases hu : env.Unpack data env.testing with
  | error err => simp [hu] at h
  | ok v =>
    obtain ⟨tx, n⟩ := v
    refine ⟨tx, n, rfl, ?_⟩
    simp only [hu] at h
    cases tx <;> simp only [afterPack] at h <;> repeat' (split at h)
    all_goals first
      | (simp at h; done)
      | (simp only [Res.ok.injEq, Prod.mk.injEq] at h
         obtain ⟨rfl, rfl⟩ := h
         simp)

/-- The ids the loop records are the observed ids, one per counted record. -/
theorem validateLoop_ok {Own Pend : Type} (env : Env Own Pend) (pools : Pools)
    (own : Own) (suppress : Bool) (count : Nat) (data : Bytes) (txs : List Txn)
    (h : validateLoop env pools own suppress count data = Res.ok txs) :
    txs.map Txn.txId = observedTxIds env count data ∧ txs.length = count := by
  induction count generalizing data txs with
  | zero =>
    simp only [validateLoop, Res.ok.injEq] at h
    subst h
    simp [observedTxIds]
  | succ k ih =>
    unfold validateLoop at h
    cases hv : validateTransaction env pools own suppress data with
    | error e => simp [hv] at h
    | fatal p => simp [hv] at h
    | ok v =>
      obtain ⟨t, data'⟩ := v
      simp only [hv] at h
      split_ifs at h
      cases hl : validateLoop env pools own suppress k data' with
      | error e => simp [hl] at h
      | fatal p => simp [hl] at h
      | ok ts =>
        simp only [hl, Res.ok.injEq] at h
        subst h
        obtain ⟨tx, n, hu, hid, -, -, hd⟩ := validateTransaction_ok env pools own suppress _ _ _ hv
        obtain ⟨h1, h2⟩ := ih data' ts hl
        subst hd
        simp [observedTxIds, hu, hid, h1, h2]

theorem StoreIncoming_success_validated {Own Pend : Type} (env : Env Own Pend)
    (s : State Own Pend) (packedBlock : Bytes)
    (h : (StoreIncoming env s packedBlock).1 = Outcome.success) :
    ∃ header digest data txs f,
      env.ExtractHeader packedBlock = Except.ok (header, digest, data) ∧
      checkHeader s.head header = none ∧
      validateLoop env s.pools s.ownership (decide (header.Version = 1))
        header.TransactionCount data = Res.ok txs ∧
      (env.FullMerkleTree (txs.map Txn.txId)).getLast? = some header.MerkleRoot ∧
      selectFoundation env txs = Res.ok f ∧
      f.txStart ≤ txs.length := by
  unfold StoreIncoming storeIncomingBody at h
  simp only [] at h
  cases hx : env.ExtractHeader packedBlock with
  | error err => simp [hx] at h
  | ok v =>
    obtain ⟨header, digest, data⟩ := v
    simp only [hx] at h
    cases hc : checkHeader s.head header with
    | some err => simp [hc] at h
    | none =>
      simp only [hc] at h
      obtain ⟨txs, f, h1, h2, h3, h4, -⟩ :=
        storeTransactions_success env _ packedBlock header digest data h
      exact ⟨header, digest, data, txs, f, rfl, hc, h1, h2, h3, h4⟩

/-- When the header checks pass and the validation loop goes through, the
outcome is decided by the Merkle comparison and what follows it. -/
theorem StoreIncoming_merkle_mismatch {Own Pend : Type} (env : Env Own Pend)
    (s : State Own Pend) (packedBlock : Bytes) (header : Header) (digest : Digest)
    (data : Bytes) (txs : List Txn) (root : Digest)
    (hx : env.ExtractHeader packedBlock = Except.ok (header, digest, data))
    (hc : checkHeader s.head header = none)
    (hv : validateLoop env s.pools s.ownership (decide (header.Version = 1))
      header.TransactionCount data = Res.ok txs)
    (hm : (env.FullMerkleTree (txs.map Txn.txId)).getLast? = some root)
    (hr : root ≠ header.MerkleRoot) :
    (StoreIncoming env s packedBlock).1 = Outcome.error Fault.ErrMerkleRootDoesNotMatch := by
  unfold StoreIncoming storeIncomingBody storeTransactions
  simp only [hx, hc, hv, hm, hr, ne_eq, not_false_eq_true, if_true]

/-- When the counted records all validate and, for a count of at least one,
no bytes remain after them, the validation loop goes through with the same
records. -/
theorem validateLoop_of_validateRecords {Own Pend : Type} (env : Env Own Pend)
    (pools : Pools) (own : Own) (suppress : Bool) (count : Nat) (data : Bytes)
    (txs : List Txn) (remaining : Bytes)
    (hv : validateRecords env pools own suppress count data = Res.ok (txs, remaining))
    (hr : 1 ≤ count → remaining = []) :
    validateLoop env pools own suppress count data = Res.ok txs := by
  induction count generalizing data txs with
  | zero =>
    simp only [validateRecords, Res.ok.injEq, Prod.mk.injEq] at hv
    obtain ⟨rfl, -⟩ := hv
    rfl
  | succ k ih =>
    unfold validateRecords at hv
    unfold validateLoop
    cases ht : validateTransaction env pools own suppress data with
    | error e => simp [ht] at hv
    | fatal p => simp [ht] at hv
    | ok v =>
      obtain ⟨t, data'⟩ := v
      simp only [ht] at hv
      cases hrec : validateRecords env pools own suppress k data' with
      | error e => simp [hrec] at hv
      | fatal p => simp [hrec] at hv
      | ok w =>
        obtain ⟨ts, rest⟩ := w
        simp only [hrec, Res.ok.injEq, Prod.mk.injEq] at hv
        obtain ⟨rfl, rfl⟩ := hv
        have hrest : rest = [] := hr (by omega)
        subst hrest
        cases k with
        | zero =>
          simp only [validateRecords, Res.ok.injEq, Prod.mk.injEq] at hrec
          obtain ⟨rfl, rfl⟩ := hrec
          simp [validateLoop]
        | succ m =>
          have hl := ih data' ts hrec (fun _ => rfl)
          simp [hl]

/-! ## C3: the Merkle root is recomputed over the observed transaction ids -/

/-- C3, as the code has it. `StoreIncoming` accepts a block only if the root
(last element) of `FullMerkleTree` over the ordered transaction ids equals
`header.MerkleRoot`, the i-th id being the digest of exactly the bytes
consumed by unpacking the i-th transaction (`observedTxIds`); and when the
header checks pass, all `header.TransactionCount` transactions validate and,
for a count of at least one, no bytes remain in the block body after them,
but that root differs, the result is `ErrMerkleRootDoesNotMatch`. -/
theorem StoreIncoming_merkle_root {Own Pend : Type} (env : Env Own Pend)
    (s : State Own Pend) (packedBlock : Bytes) :
    ((StoreIncoming env s packedBlock).1 = Outcome.success →
      ∃ header digest data,
        env.ExtractHeader packedBlock = Except.ok (header, digest, data) ∧
        (env.FullMerkleTree (observedTxIds env header.TransactionCount data)).getLast?
          = some header.MerkleRoot) ∧
    (∀ header digest data txs remaining root,
      env.ExtractHeader packedBlock = Except.ok (header, digest, data) →
      checkHeader s.head header = none →
      validateRecords env s.pools s.ownership (decide (header.Version = 1))
        header.TransactionCount data = Res.ok (txs, remaining) →
      (1 ≤ header.TransactionCount → remaining = []) →
      (env.FullMerkleTree (observedTxIds env header.TransactionCount data)).getLast?
        = some root →
      root ≠ header.MerkleRoot →
      (StoreIncoming env s packedBlock).1
        = Outcome.error Fault.ErrMerkleRootDoesNotMatch) := by
  constructor
  · intro h
    obtain ⟨header, digest, data, txs, f, hx, -, hv, hm, -, -⟩ :=
      StoreIncoming_success_validated env s packedBlock h
    refine ⟨header, digest, data, hx, ?_⟩
    rw [← (validateLoop_ok env _ _ _ _ _ _ hv).1]
    exact hm
  · intro header digest data txs remaining root hx hc hrecords hrem hm hr
    have hv := validateLoop_of_validateRecords env s.pools s.ownership _ _ data txs
      remaining hrecords hrem
    rw [← (validateLoop_ok env _ _ _ _ _ _ hv).1] at hm
    exact StoreIncoming_merkle_mismatch env s packedBlock header digest data txs root
      hx hc hv hm hr

/-- C3 at concrete inputs: `exBlockGood` is accepted and its observed ids
`[6], [9]` have root `[15]`, the header's; `exBlockBadRoot`, whose header
says `[14]` and whose two records leave no byte behind, is refused with
`ErrMerkleRootDoesNotMatch`. -/
theorem StoreIncoming_merkle_root_witness :
    (StoreIncoming exEnv exState exBlockGood).1 = Outcome.success ∧
    (∃ header digest data,
        exEnv.ExtractHeader exBlockGood = Except.ok (header, digest, data) ∧
        (exEnv.FullMerkleTree (observedTxIds exEnv header.TransactionCount data)).getLast?
          = some header.MerkleRoot) ∧
    observedTxIds exEnv 2 [1, 5, 3, 6] = [[6], [9]] ∧
    validateRecords exEnv exState.pools exState.ownership false 2 [1, 5, 3, 6]
      = Res.ok
        ([{ txId := [6], packed := [1, 5], unpacked := Transaction.OldBaseData 1 [5] [5] [],
            linkOwner := none, previousBlockNumberKey := none },
          { txId := [9], packed := [3, 6], unpacked := Transaction.BitmarkIssue [6] [6] [],
            linkOwner := none, previousBlockNumberKey := none }], []) ∧
    (StoreIncoming exEnv exState exBlockBadRoot).1
      = Outcome.error Fault.ErrMerkleRootDoesNotMatch :=
  ⟨by decide,
   (StoreIncoming_merkle_root exEnv exState exBlockGood).1 (by decide),
   by decide,
   by decide,
   (StoreIncoming_merkle_root exEnv exState exBlockBadRoot).2
     { Version := 2, TransactionCount := 2, Number := 8, PreviousBlock := [9],
       MerkleRoot := [14], Timestamp := 1000 }
     [11] [1, 5, 3, 6]
     [{ txId := [6], packed := [1, 5], unpacked := Transaction.OldBaseData 1 [5] [5] [],
        linkOwner := none, previousBlockNumberKey := none },
      { txId := [9], packed := [3, 6], unpacked := Transaction.BitmarkIssue [6] [6] [],
        linkOwner := none, previousBlockNumberKey := none }]
     [] [15] rfl (by decide) (by decide) (fun _ => rfl) (by decide) (by decide)⟩

/-- C3 as stated fails when bytes follow the last transaction: on
`exBlockBadRootTrailing` the header checks pass, both counted transactions
validate and the root over their ids is `[15]` where the header says `[14]`,
yet the byte 77 that remains is found first (store.go:194-197) and the result
is `ErrTransactionCountOutOfRange`, not `ErrMerkleRootDoesNotMatch`. -/
theorem StoreIncoming_merkle_root_trailing_bytes :
    exEnv.ExtractHeader exBlockBadRootTrailing = Except.ok
      ({ Version := 2, TransactionCount := 2, Number := 8, PreviousBlock := [9],
         MerkleRoot := [14], Timestamp := 1000 }, [11], [1, 5, 3, 6, 77]) ∧
    checkHeader exState.head
      { Version := 2, TransactionCount := 2, Number := 8, PreviousBlock := [9],
        MerkleRoot := [14], Timestamp := 1000 } = none ∧
    validateRecords exEnv exState.pools exState.ownership false 2 [1, 5, 3, 6, 77]
      = Res.ok
        ([{ txId := [6], packed := [1, 5], unpacked := Transaction.OldBaseData 1 [5] [5] [],
            linkOwner := none, previousBlockNumberKey := none },
          { txId := [9], packed := [3, 6], unpacked := Transaction.BitmarkIssue [6] [6] [],
            linkOwner := none, previousBlockNumberKey := none }], [77]) ∧
    observedTxIds exEnv 2 [1, 5, 3, 6, 77] = [[6], [9]] ∧
    (exEnv.FullMerkleTree (observedTxIds exEnv 2 [1, 5, 3, 6, 77])).getLast? = some [15] ∧
    (StoreIncoming exEnv exState exBlockBadRootTrailing).1
      = Outcome.error Fault.ErrTransactionCountOutOfRange ∧
    (StoreIncoming exEnv exState exBlockBadRootTrailing).1
      ≠ Outcome.error Fault.ErrMerkleRootDoesNotMatch :=
  ⟨rfl, by decide, by decide, by decide, by decide, by decide, by decide⟩


/-! ## Header checks -/

theorem StoreIncoming_header_error {Own Pend : Type} (env : Env Own Pend)
    (s : State Own Pend) (packedBlock : Bytes) (header : Header) (digest : Digest)
    (data : Bytes) (e : Fault)
    (hx : env.ExtractHeader packedBlock = Except.ok (header, digest, data))
    (hc : checkHeader s.head header = some e) :
    (StoreIncoming env s packedBlock).1 = Outcome.error e := by
  unfold StoreIncoming storeIncomingBody
  simp only [hx, hc]

theorem StoreIncoming_header_pass {Own Pend : Type} (env : Env Own Pend)
    (s : State Own Pend) (packedBlock : Bytes) (header : Header) (digest : Digest)
    (data : Bytes)
    (hx : env.ExtractHeader packedBlock = Except.ok (header, digest, data))
    (hc : checkHeader s.head header = none) :
    (StoreIncoming env s packedBlock).1 =
      (storeTransactions env { s with pending := env.Disable s.pending } packedBlock
        header digest data).1 := by
  unfold StoreIncoming storeIncomingBody
  simp only [hx, hc]

/-- The timestamp check in isolation, for a header that passed the linkage
and version checks. -/
theorem checkHeader_timestamp (g : ChainHead) (header : Header)
    (hp : header.PreviousBlock = g.previousBlock) (hv1 : 1 ≤ header.Version)
    (hv2 : g.previousVersion ≤ header.Version) :
    checkHeader g header =
      if header.Timestamp < g.previousTimestamp ∧
          ((header.Version = 1 ∧ g.previousTimestamp - header.Timestamp > 14400) ∨
           (header.Version = 2 ∧ g.previousTimestamp - header.Timestamp > 600) ∨
           (header.Version ≠ 1 ∧ header.Version ≠ 2)) then
        some Fault.ErrInvalidBlockHeaderTimestamp
      else none := by
  unfold checkHeader
  have h1 : ¬ header.Version < 1 := by omega
  have h2 : ¬ g.previousVersion > header.Version := by omega
  simp only [hp, ne_eq, not_true_eq_false, if_false, h1, h2]
  by_cases ht : g.previousTimestamp > header.Timestamp
  · simp only [ht, if_true, true_and]
    by_cases e1 : header.Version = 1
    · by_cases hd : g.previousTimestamp - header.Timestamp > 14400 <;> simp [e1, hd]
    · by_cases e2 : header.Version = 2
      · by_cases hd : g.previousTimestamp - header.Timestamp > 600 <;> simp [e2, hd]
      · have : (match header.Version with
            | 1 => decide (g.previousTimestamp - header.Timestamp > 240 * 60)
            | 2 => decide (g.previousTimestamp - header.Timestamp > 10 * 60)
            | _ => true) = true := by
          split
          · rename_i h; exact absurd h e1
          · rename_i h; exact absurd h e2
          · rfl
        simp [this, e1, e2]
  · have ht2 : ¬ header.Timestamp < g.previousTimestamp := ht
    simp [ht, ht2]


/-! ## C4: timestamp tolerance by header version -/

/-- C4. For a block whose linkage and version checks pass: if
header.timestamp >= previousTimestamp the timestamp check does not fail; if
header.timestamp < previousTimestamp, with d = previousTimestamp -
header.timestamp, `StoreIncoming` returns `ErrInvalidBlockHeaderTimestamp`
when (version = 1 and d > 14400) or (version = 2 and d > 600) or the version
is neither 1 nor 2, and the header check raises that error in exactly those
cases: in every other case the header passes and the call returns what
transaction validation and commit return. With previousTimestamp = 1000 and
previousVersion = 2, a version 2 header with timestamp 500 passes the check
and one with timestamp 300 is refused. -/
theorem StoreIncoming_timestamp_tolerance {Own Pend : Type} (env : Env Own Pend)
    (s : State Own Pend) (packedBlock : Bytes) (header : Header) (digest : Digest)
    (data : Bytes)
    (hx : env.ExtractHeader packedBlock = Except.ok (header, digest, data))
    (hp : header.PreviousBlock = s.head.previousBlock)
    (hv1 : 1 ≤ header.Version)
    (hv2 : s.head.previousVersion ≤ header.Version) :
    (s.head.previousTimestamp ≤ header.Timestamp → checkHeader s.head header = none) ∧
    (header.Timestamp < s.head.previousTimestamp ∧
        ((header.Version = 1 ∧ s.head.previousTimestamp - header.Timestamp > 14400) ∨
         (header.Version = 2 ∧ s.head.previousTimestamp - header.Timestamp > 600) ∨
         (header.Version ≠ 1 ∧ header.Version ≠ 2)) →
      (StoreIncoming env s packedBlock).1
        = Outcome.error Fault.ErrInvalidBlockHeaderTimestamp) ∧
    (checkHeader s.head header = some Fault.ErrInvalidBlockHeaderTimestamp ↔
      header.Timestamp < s.head.previousTimestamp ∧
        ((header.Version = 1 ∧ s.head.previousTimestamp - header.Timestamp > 14400) ∨
         (header.Version = 2 ∧ s.head.previousTimestamp - header.Timestamp > 600) ∨
         (header.Version ≠ 1 ∧ header.Version ≠ 2))) ∧
    (¬ (header.Timestamp < s.head.previousTimestamp ∧
        ((header.Version = 1 ∧ s.head.previousTimestamp - header.Timestamp > 14400) ∨
         (header.Version = 2 ∧ s.head.previousTimestamp - header.Timestamp > 600) ∨
         (header.Version ≠ 1 ∧ header.Version ≠ 2))) →
      checkHeader s.head header = none ∧
      (StoreIncoming env s packedBlock).1 =
        (storeTransactions env { s with pending := env.Disable s.pending } packedBlock
          header digest data).1) ∧
    (∀ (height number count : Nat) (previous root : Digest) (rebuild : Bool),
      checkHeader
        { height := height, previousBlock := previous, previousVersion := 2,
          previousTimestamp := 1000, rebuild := rebuild }
        { Version := 2, TransactionCount := count, Number := number,
          PreviousBlock := previous, MerkleRoot := root, Timestamp := 500 } = none ∧
      checkHeader
        { height := height, previousBlock := previous, previousVersion := 2,
          previousTimestamp := 1000, rebuild := rebuild }
        { Version := 2, TransactionCount := count, Number := number,
          PreviousBlock := previous, MerkleRoot := root, Timestamp := 300 }
        = some Fault.ErrInvalidBlockHeaderTimestamp) := by
  have hck := checkHeader_timestamp s.head header hp hv1 hv2
  refine ⟨fun hge => ?_, fun hc => ?_, ?_, fun hn => ?_, ?_⟩
  · rw [hck, if_neg]
    intro hc
    omega
  · rw [if_pos hc] at hck
    exact StoreIncoming_header_error env s packedBlock header digest data _ hx hck
  · rw [hck]
    constructor
    · intro h
      by_contra hn
      rw [if_neg hn] at h
      exact absurd h (by simp)
    · intro h
      rw [if_pos h]
  · rw [if_neg hn] at hck
    exact ⟨hck, StoreIncoming_header_pass env s packedBlock header digest data hx hck⟩
  · intro height number count previous root rebuild
    constructor <;> simp [checkHeader]

/-- C4 at concrete inputs on a head with previousTimestamp 1000 and
previousVersion 2: the version 2 block with timestamp 300 (d = 700) is
refused with `ErrInvalidBlockHeaderTimestamp`; the one with timestamp 500
(d = 500) passes the check and, all else being valid, is stored. -/
theorem StoreIncoming_timestamp_tolerance_witness :
    (StoreIncoming exEnv exState exBlockBack700).1
      = Outcome.error Fault.ErrInvalidBlockHeaderTimestamp ∧
    (checkHeader exState.head
        { Version := 2, TransactionCount := 2, Number := 8, PreviousBlock := [9],
          MerkleRoot := [15], Timestamp := 500 } = none ∧
      (StoreIncoming exEnv exState exBlockBack500).1 =
        (storeTransactions exEnv { exState with pending := exEnv.Disable exState.pending }
          exBlockBack500
          { Version := 2, TransactionCount := 2, Number := 8, PreviousBlock := [9],
            MerkleRoot := [15], Timestamp := 500 } [24] [1, 5, 3, 6]).1) ∧
    (StoreIncoming exEnv exState exBlockBack500).1 = Outcome.success :=
  ⟨(StoreIncoming_timestamp_tolerance exEnv exState exBlockBack700
      { Version := 2, TransactionCount := 2, Number := 8, PreviousBlock := [9],
        MerkleRoot := [15], Timestamp := 300 } [80] [1, 5, 3, 6]
      rfl rfl (by decide) (by decide)).2.1 (by decide),
   (StoreIncoming_timestamp_tolerance exEnv exState exBlockBack500
      { Version := 2, TransactionCount := 2, Number := 8, PreviousBlock := [9],
        MerkleRoot := [15], Timestamp := 500 } [24] [1, 5, 3, 6]
      rfl rfl (by decide) (by decide)).2.2.2.1 (by decide),
   by decide⟩


/-! ## C5: the header checks fail fast, in order -/

/-- C5. For a block whose header extracts successfully the result is
`ErrPreviousBlockDigestDoesNotMatch` if header.previousBlock differs from the
head's previousBlock; otherwise `ErrInvalidBlockHeaderVersion` if
header.version < 1; otherwise `ErrBlockVersionMustNotDecrease` if
header.version < head.previousVersion. The header check raises each of the
three errors only under its own condition: when the condition of one of them
is false the check does not produce it, and a header that meets none of the
three conditions goes on to the timestamp check. -/
theorem StoreIncoming_header_fail_fast {Own Pend : Type} (env : Env Own Pend)
    (s : State Own Pend) (packedBlock : Bytes) (header : Header) (digest : Digest)
    (data : Bytes)
    (hx : env.ExtractHeader packedBlock = Except.ok (header, digest, data)) :
    (header.PreviousBlock ≠ s.head.previousBlock →
      (StoreIncoming env s packedBlock).1
        = Outcome.error Fault.ErrPreviousBlockDigestDoesNotMatch) ∧
    (header.PreviousBlock = s.head.previousBlock → header.Version < 1 →
      (StoreIncoming env s packedBlock).1
        = Outcome.error Fault.ErrInvalidBlockHeaderVersion) ∧
    (header.PreviousBlock = s.head.previousBlock → ¬ header.Version < 1 →
      header.Version < s.head.previousVersion →
      (StoreIncoming env s packedBlock).1
        = Outcome.error Fault.ErrBlockVersionMustNotDecrease) ∧
    (checkHeader s.head header = some Fault.ErrPreviousBlockDigestDoesNotMatch ↔
      header.PreviousBlock ≠ s.head.previousBlock) ∧
    (checkHeader s.head header = some Fault.ErrInvalidBlockHeaderVersion ↔
      header.PreviousBlock = s.head.previousBlock ∧ header.Version < 1) ∧
    (checkHeader s.head header = some Fault.ErrBlockVersionMustNotDecrease ↔
      header.PreviousBlock = s.head.previousBlock ∧ ¬ header.Version < 1 ∧
        header.Version < s.head.previousVersion) ∧
    (header.PreviousBlock = s.head.previousBlock → ¬ header.Version < 1 →
      ¬ header.Version < s.head.previousVersion →
      checkHeader s.head header = none ∨
      checkHeader s.head header = some Fault.ErrInvalidBlockHeaderTimestamp) := by
  have key : ∀ e, checkHeader s.head header = some e →
      (StoreIncoming env s packedBlock).1 = Outcome.error e :=
    fun e he => StoreIncoming_header_error env s packedBlock header digest data e hx he
  by_cases hp : header.PreviousBlock = s.head.previousBlock
  · have hp2 : s.head.previousBlock = header.PreviousBlock := hp.symm
    by_cases hv : header.Version < 1
    · have hc : checkHeader s.head header = some Fault.ErrInvalidBlockHeaderVersion := by
        simp [checkHeader, hp2, hv]
      refine ⟨fun h => absurd hp h, fun _ _ => key _ hc, fun _ h => absurd hv h,
        ?_, ?_, ?_, fun _ h => absurd hv h⟩
      · simp [hc, hp]
      · simp [hc, hp, hv]
      · simp [hc, hv]
    · by_cases hd : header.Version < s.head.previousVersion
      · have hc : checkHeader s.head header = some Fault.ErrBlockVersionMustNotDecrease := by
          simp [checkHeader, hp2, hv, hd]
        refine ⟨fun h => absurd hp h, fun _ h => absurd h hv, fun _ _ _ => key _ hc,
          ?_, ?_, ?_, fun _ _ h => absurd hd h⟩
        · simp [hc, hp]
        · simp [hc, hv]
        · simp [hc, hp, hv, hd]
      · have hc := checkHeader_timestamp s.head header hp (by omega) (by omega)
        refine ⟨fun h => absurd hp h, fun _ h => absurd h hv, fun _ _ h => absurd h hd,
          ?_, ?_, ?_, fun _ _ _ => ?_⟩
        · rw [hc]; split_ifs <;> simp [hp]
        · rw [hc]; split_ifs <;> simp [hv]
        · rw [hc]; split_ifs <;> simp [hd]
        · rw [hc]; split_ifs <;> simp
  · have hp2 : ¬ s.head.previousBlock = header.PreviousBlock := fun h => hp h.symm
    have hc : checkHeader s.head header = some Fault.ErrPreviousBlockDigestDoesNotMatch := by
      simp [checkHeader, hp2]
    refine ⟨fun _ => key _ hc, fun h => absurd h hp, fun h => absurd h hp,
      ?_, ?_, ?_, fun h => absurd h hp⟩
    · simp [hc, hp]
    · simp [hc, hp]
    · simp [hc, hp]

/-- C5 at concrete inputs on `exState` (previous block `[9]`, version 2): a
wrong previous digest, then version 0, then version 1 below the head's. -/
theorem StoreIncoming_header_fail_fast_witness :
    (StoreIncoming exEnv exState exBlockWrongPrevious).1
      = Outcome.error Fault.ErrPreviousBlockDigestDoesNotMatch ∧
    (StoreIncoming exEnv exState exBlockVersion0).1
      = Outcome.error Fault.ErrInvalidBlockHeaderVersion ∧
    (StoreIncoming exEnv exState exBlockVersion1).1
      = Outcome.error Fault.ErrBlockVersionMustNotDecrease ∧
    (checkHeader exState.head
        { Version := 2, TransactionCount := 2, Number := 8, PreviousBlock := [9],
          MerkleRoot := [15], Timestamp := 1000 } = none ∨
      checkHeader exState.head
        { Version := 2, TransactionCount := 2, Number := 8, PreviousBlock := [9],
          MerkleRoot := [15], Timestamp := 1000 }
        = some Fault.ErrInvalidBlockHeaderTimestamp) :=
  ⟨(StoreIncoming_header_fail_fast exEnv exState exBlockWrongPrevious
      { Version := 2, TransactionCount := 2, Number := 8, PreviousBlock := [3],
        MerkleRoot := [15], Timestamp := 1000 } [6] [1, 5, 3, 6] rfl).1 (by decide),
   (StoreIncoming_header_fail_fast exEnv exState exBlockVersion0
      { Version := 0, TransactionCount := 2, Number := 8, PreviousBlock := [9],
        MerkleRoot := [15], Timestamp := 1000 } [10] [1, 5, 3, 6] rfl).2.1
      (by decide) (by decide),
   (StoreIncoming_header_fail_fast exEnv exState exBlockVersion1
      { Version := 1, TransactionCount := 2, Number := 8, PreviousBlock := [9],
        MerkleRoot := [15], Timestamp := 1000 } [11] [1, 5, 3, 6] rfl).2.2.1
      (by decide) (by decide) (by decide),
   (StoreIncoming_header_fail_fast exEnv exState exBlockGood
      { Version := 2, TransactionCount := 2, Number := 8, PreviousBlock := [9],
        MerkleRoot := [15], Timestamp := 1000 } [12] [1, 5, 3, 6] rfl).2.2.2.2.2.2
      (by decide) (by decide) (by decide)⟩


/-! ## C6: bytes after the last transaction -/

/-- With at least one record, bytes left over after the last one stop the
loop with `ErrTransactionCountOutOfRange`. -/
theorem validateLoop_trailing {Own Pend : Type} (env : Env Own Pend) (pools : Pools)
    (own : Own) (suppress : Bool) (k : Nat) (data : Bytes) (txs : List Txn)
    (remaining : Bytes)
    (hv : validateRecords env pools own suppress (k + 1) data = Res.ok (txs, remaining))
    (hr : remaining ≠ []) :
    validateLoop env pools own suppress (k + 1) data
      = Res.error Fault.ErrTransactionCountOutOfRange := by
  induction k generalizing data txs with
  | zero =>
    unfold validateRecords at hv
    unfold validateLoop
    cases ht : validateTransaction env pools own suppress data with
    | error e => simp [ht] at hv
    | fatal p => simp [ht] at hv
    | ok v =>
      obtain ⟨t, data'⟩ := v
      simp only [ht, validateRecords, Res.ok.injEq, Prod.mk.injEq] at hv
      obtain ⟨-, rfl⟩ := hv
      have hl : data'.length > 0 := List.length_pos.mpr hr
      simp [hl]
  | succ k ih =>
    unfold validateRecords at hv
    unfold validateLoop
    cases ht : validateTransaction env pools own suppress data with
    | error e => simp [ht] at hv
    | fatal p => simp [ht] at hv
    | ok v =>
      obtain ⟨t, data'⟩ := v
      simp only [ht] at hv
      cases hrec : validateRecords env pools own suppress (k + 1) data' with
      | error e => simp [hrec] at hv
      | fatal p => simp [hrec] at hv
      | ok w =>
        obtain ⟨ts, rest⟩ := w
        simp only [hrec, Res.ok.injEq, Prod.mk.injEq] at hv
        obtain ⟨-, rfl⟩ := hv
        simp [ih data' ts hrec]

/-- C6, as the code has it. For every block whose header checks pass and
whose header.transaction-count records, at least one, all unpack and
validate, if bytes remain in the block body after those records have been
consumed then `StoreIncoming` returns `ErrTransactionCountOutOfRange`. -/
theorem StoreIncoming_trailing_bytes {Own Pend : Type} (env : Env Own Pend)
    (s : State Own Pend) (packedBlock : Bytes) (header : Header) (digest : Digest)
    (data : Bytes) (txs : List Txn) (remaining : Bytes)
    (hx : env.ExtractHeader packedBlock = Except.ok (header, digest, data))
    (hc : checkHeader s.head header = none)
    (hcount : 1 ≤ header.TransactionCount)
    (hv : validateRecords env s.pools s.ownership (decide (header.Version = 1))
      header.TransactionCount data = Res.ok (txs, remaining))
    (hr : remaining ≠ []) :
    (StoreIncoming env s packedBlock).1
      = Outcome.error Fault.ErrTransactionCountOutOfRange := by
  obtain ⟨k, hk⟩ : ∃ k, header.TransactionCount = k + 1 := ⟨header.TransactionCount - 1, by omega⟩
  rw [hk] at hv
  have hl := validateLoop_trailing env s.pools s.ownership _ k data txs remaining hv hr
  unfold StoreIncoming storeIncomingBody storeTransactions
  simp only [hx, hc, hk, hl]

/-- C6 at a concrete input: `exBlockGood` with one byte appended. -/
theorem StoreIncoming_trailing_bytes_witness :
    (StoreIncoming exEnv exState exBlockTrailing).1
      = Outcome.error Fault.ErrTransactionCountOutOfRange :=
  StoreIncoming_trailing_bytes exEnv exState exBlockTrailing
    { Version := 2, TransactionCount := 2, Number := 8, PreviousBlock := [9],
      MerkleRoot := [15], Timestamp := 1000 } [12] [1, 5, 3, 6, 77]
    [{ txId := [6], packed := [1, 5], unpacked := Transaction.OldBaseData 1 [5] [5] [],
       linkOwner := none, previousBlockNumberKey := none },
     { txId := [9], packed := [3, 6], unpacked := Transaction.BitmarkIssue [6] [6] [],
       linkOwner := none, previousBlockNumberKey := none }]
    [77] rfl (by decide) (by decide) (by decide) (by decide)

/-- C6 as stated fails for transaction count 0: the header checks pass, all
zero records validate and the byte 77 remains, yet the loop body, which holds
the test, never runs. The result is `ErrMerkleRootDoesNotMatch` when the
header's root is not that of the empty tree, and a run-time panic at
`txs[0]` when it is. -/
theorem StoreIncoming_trailing_bytes_zero_count :
    exEnv.ExtractHeader exBlockNoTxTrailing = Except.ok
      ({ Version := 2, TransactionCount := 0, Number := 8, PreviousBlock := [9],
         MerkleRoot := [1], Timestamp := 1000 }, [252], [77]) ∧
    checkHeader exState.head
      { Version := 2, TransactionCount := 0, Number := 8, PreviousBlock := [9],
        MerkleRoot := [1], Timestamp := 1000 } = none ∧
    validateRecords exEnv exState.pools exState.ownership false 0 [77]
      = Res.ok ([], [77]) ∧
    (StoreIncoming exEnv exState exBlockNoTxTrailing).1
      = Outcome.error Fault.ErrMerkleRootDoesNotMatch ∧
    (StoreIncoming exEnv exState exBlockNoTxTrailing).1
      ≠ Outcome.error Fault.ErrTransactionCountOutOfRange ∧
    (StoreIncoming exEnv exState exBlockNoTxTrailingRoot).1
      = Outcome.fatal Panic.IndexOutOfRange :=
  ⟨rfl, by decide, by decide, by decide, by decide, by decide⟩


/-- Foundation selection returns only after it has read the `txStart`
transactions it takes for itself. -/
theorem selectFoundation_txStart {Own Pend : Type} (env : Env Own Pend) (txs : List Txn)
    (f : Foundation) (h : selectFoundation env txs = Res.ok f) :
    f.txStart ≤ txs.length := by
  unfold selectFoundation at h
  cases txs with
  | nil => simp at h
  | cons t0 others =>
    cases others with
    | nil =>
      simp only at h
      repeat' (split at h)
      all_goals first
        | (simp at h; done)
        | (simp only [Res.ok.injEq] at h
           subst h
           simp)
    | cons t1 tail =>
      simp only at h
      repeat' (split at h)
      all_goals first
        | (simp at h; done)
        | (simp only [Res.ok.injEq] at h
           subst h
           simp)

/-! ## C7: a block whose only transaction is a base record -/

/-- C7, what the code does. With a single transaction, an `OldBaseData` whose
payment address is valid, foundation selection evaluates `txs[1]` on a slice
of length 1 and panics with an index out of range, for every collaborator
environment; `StoreIncoming` on such a block ends in that panic. With a
second transaction that is not an `OldBaseData` (`exBlockGood`) the branch
for a single base record is taken: txStart = 1, foundation bytes =
tx[0].packed, and the payment map `{1: [5], Litecoin: [6]}` is packed. -/
theorem StoreIncoming_single_base_record :
    (∀ (Own Pend : Type) (env : Env Own Pend) (txId : Digest) (packed : Bytes)
        (currency : Nat) (paymentAddress : Bytes) (owner : Account) (rest : Bytes)
        (linkOwner : Option Account) (key : Option Bytes),
      selectFoundation env
        [{ txId := txId, packed := packed,
           unpacked := Transaction.OldBaseData currency paymentAddress owner rest,
           linkOwner := linkOwner, previousBlockNumberKey := key }] =
        match env.ValidateAddress currency paymentAddress env.testing with
        | some err => Res.error err
        | none => Res.fatal Panic.IndexOutOfRange) ∧
    exEnv.ValidateAddress 1 [5] exEnv.testing = none ∧
    (StoreIncoming exEnv exState exBlockSingleBase).1
      = Outcome.fatal Panic.IndexOutOfRange ∧
    selectFoundation exEnv
      [{ txId := [6], packed := [1, 5], unpacked := Transaction.OldBaseData 1 [5] [5] [],
         linkOwner := none, previousBlockNumberKey := none },
       { txId := [9], packed := [3, 6], unpacked := Transaction.BitmarkIssue [6] [6] [],
         linkOwner := none, previousBlockNumberKey := none }] =
      Res.ok { packedPayments := [1, 5, 2, 6], packedFoundation := [1, 5],
               blockOwner := [5], txStart := 1 } := by
  refine ⟨?_, by decide, by decide, by decide⟩
  intro Own Pend env txId packed currency paymentAddress owner rest linkOwner key
  simp only [selectFoundation]

/-! ## C8: a block without transactions -/

/-- C8, what the code does. On an empty transaction list foundation selection
evaluates `txs[0]` and panics with an index out of range, for every
collaborator environment, so a block with transaction count 0 that passes the
header and Merkle checks ends `StoreIncoming` in that panic, not in
`ErrTransactionCountOutOfRange`. Whenever foundation selection returns, the
list already has txStart elements: the test `len(txs) < txStart` that
follows it can never hold. -/
theorem StoreIncoming_no_transactions :
    (∀ (Own Pend : Type) (env : Env Own Pend),
      selectFoundation env [] = Res.fatal Panic.IndexOutOfRange) ∧
    (∀ (Own Pend : Type) (env : Env Own Pend) (txs : List Txn),
      match selectFoundation env txs with
      | Res.ok f => f.txStart ≤ txs.length
      | _ => True) ∧
    exEnv.ExtractHeader exBlockEmpty = Except.ok
      ({ Version := 2, TransactionCount := 0, Number := 8, PreviousBlock := [9],
         MerkleRoot := [0], Timestamp := 1000 }, [251], []) ∧
    checkHeader exState.head
      { Version := 2, TransactionCount := 0, Number := 8, PreviousBlock := [9],
        MerkleRoot := [0], Timestamp := 1000 } = none ∧
    (exEnv.FullMerkleTree []).getLast? = some [0] ∧
    (StoreIncoming exEnv exState exBlockEmpty).1 = Outcome.fatal Panic.IndexOutOfRange ∧
    (StoreIncoming exEnv exState exBlockEmpty).1
      ≠ Outcome.error Fault.ErrTransactionCountOutOfRange := by
  refine ⟨fun _ _ _ => rfl, ?_, rfl, by decide, by decide, by decide, by decide⟩
  intro Own Pend env txs
  cases h : selectFoundation env txs with
  | ok f => exact selectFoundation_txStart env txs f h
  | error e => trivial
  | fatal p => trivial


/-! ## C9: the rebuild flag -/

theorem Pool_Get_Put {V : Type} (p : Pool V) (key : Bytes) (value : V) :
    Pool.Get (Pool.Put p key value) key = some value := by
  simp [Pool.Put, Pool.Get]

theorem blockringPut_head (size : Nat) (number : Nat) (digest : Digest)
    (packedBlock : Bytes) (ring : BlockRing) (h : 0 < size) :
    (blockringPut size number digest packedBlock ring).head?
      = some (number, digest, packedBlock) := by
  obtain ⟨k, rfl⟩ : ∃ k, size = k + 1 := ⟨size - 1, by omega⟩
  simp [blockringPut]

/-- The eight bytes of `putUint64` are the big-endian digits of the number. -/
theorem putUint64_bigEndian (n : Nat) :
    (putUint64 n).length = 8 ∧
    (putUint64 n).foldl (fun acc b => acc * 256 + b) 0 = n % 2 ^ 64 ∧
    ∀ b ∈ putUint64 n, b < 256 := by
  refine ⟨rfl, ?_, ?_⟩
  · simp only [putUint64, List.foldl]
    omega
  · intro b hb
    simp only [putUint64, List.mem_cons, List.mem_singleton, List.not_mem_nil, or_false] at hb
    omega

/-- C9. A successful `StoreIncoming` made with the rebuild flag set leaves the
Blocks pool and the block ring unchanged while the chain head is advanced to
the block; with the rebuild flag clear it puts (header.number, digest,
packedBlock) into the block ring and stores packedBlock in Blocks under the
8-byte big-endian encoding of header.number. -/
theorem StoreIncoming_rebuild {Own Pend : Type} (env : Env Own Pend) (s : State Own Pend)
    (packedBlock : Bytes)
    (h : (StoreIncoming env s packedBlock).1 = Outcome.success) :
    ∃ header digest data,
      env.ExtractHeader packedBlock = Except.ok (header, digest, data) ∧
      (StoreIncoming env s packedBlock).2.head.height = header.Number ∧
      (StoreIncoming env s packedBlock).2.head.previousBlock = digest ∧
      (StoreIncoming env s packedBlock).2.head.previousVersion = header.Version ∧
      (StoreIncoming env s packedBlock).2.head.previousTimestamp = header.Timestamp ∧
      (s.head.rebuild = true →
        (StoreIncoming env s packedBlock).2.pools.Blocks = s.pools.Blocks ∧
        (StoreIncoming env s packedBlock).2.ring = s.ring) ∧
      (s.head.rebuild = false →
        (StoreIncoming env s packedBlock).2.ring
          = blockringPut env.BlockRingSize header.Number digest packedBlock s.ring ∧
        (0 < env.BlockRingSize →
          (StoreIncoming env s packedBlock).2.ring.head?
            = some (header.Number, digest, packedBlock)) ∧
        (StoreIncoming env s packedBlock).2.pools.Blocks
          = s.pools.Blocks.Put (putUint64 header.Number) packedBlock ∧
        (StoreIncoming env s packedBlock).2.pools.Blocks.Get (putUint64 header.Number)
          = some packedBlock) := by
  obtain ⟨header, digest, data, hx, -, -, hhead, hring, hblocks⟩ :=
    StoreIncoming_success env s packedBlock h
  refine ⟨header, digest, data, hx, ?_, ?_, ?_, ?_, fun hr => ?_, fun hr => ?_⟩
  · rw [hhead]
  · rw [hhead]
  · rw [hhead]
  · rw [hhead]
  · rw [hring, hblocks]
    simp [hr]
  · rw [hring, hblocks]
    simp only [hr, Bool.false_eq_true, if_false]
    exact ⟨trivial, fun hsize => blockringPut_head _ _ _ _ _ hsize, trivial,
      Pool_Get_Put _ _ _⟩

/-- C9 at concrete inputs: `exBlockGood` stored on `exStateRebuild` (flag set)
leaves Blocks and the ring empty and moves the head to height 8; stored on
`exState` (flag clear) it is put into the ring and into Blocks under the key
`0,0,0,0,0,0,0,8`. -/
theorem StoreIncoming_rebuild_witness :
    ((StoreIncoming exEnv exStateRebuild exBlockGood).1 = Outcome.success ∧
      ∃ header digest data,
        exEnv.ExtractHeader exBlockGood = Except.ok (header, digest, data) ∧
        (StoreIncoming exEnv exStateRebuild exBlockGood).2.head.height = header.Number ∧
        (StoreIncoming exEnv exStateRebuild exBlockGood).2.head.previousBlock = digest ∧
        (StoreIncoming exEnv exStateRebuild exBlockGood).2.head.previousVersion
          = header.Version ∧
        (StoreIncoming exEnv exStateRebuild exBlockGood).2.head.previousTimestamp
          = header.Timestamp ∧
        (exStateRebuild.head.rebuild = true →
          (StoreIncoming exEnv exStateRebuild exBlockGood).2.pools.Blocks
            = exStateRebuild.pools.Blocks ∧
          (StoreIncoming exEnv exStateRebuild exBlockGood).2.ring = exStateRebuild.ring) ∧
        (exStateRebuild.head.rebuild = false →
          (StoreIncoming exEnv exStateRebuild exBlockGood).2.ring
            = blockringPut exEnv.BlockRingSize header.Number digest exBlockGood
                exStateRebuild.ring ∧
          (0 < exEnv.BlockRingSize →
            (StoreIncoming exEnv exStateRebuild exBlockGood).2.ring.head?
              = some (header.Number, digest, exBlockGood)) ∧
          (StoreIncoming exEnv exStateRebuild exBlockGood).2.pools.Blocks
            = exStateRebuild.pools.Blocks.Put (putUint64 header.Number) exBlockGood ∧
          (StoreIncoming exEnv exStateRebuild exBlockGood).2.pools.Blocks.Get
            (putUint64 header.Number) = some exBlockGood)) ∧
    exStateRebuild.head.rebuild = true ∧
    (StoreIncoming exEnv exStateRebuild exBlockGood).2.pools.Blocks = [] ∧
    (StoreIncoming exEnv exStateRebuild exBlockGood).2.ring = [] ∧
    (StoreIncoming exEnv exStateRebuild exBlockGood).2.head.height = 8 ∧
    ((StoreIncoming exEnv exState exBlockGood).1 = Outcome.success ∧
      ∃ header digest data,
        exEnv.ExtractHeader exBlockGood = Except.ok (header, digest, data) ∧
        (StoreIncoming exEnv exState exBlockGood).2.head.height = header.Number ∧
        (StoreIncoming exEnv exState exBlockGood).2.head.previousBlock = digest ∧
        (StoreIncoming exEnv exState exBlockGood).2.head.previousVersion
          = header.Version ∧
        (StoreIncoming exEnv exState exBlockGood).2.head.previousTimestamp
          = header.Timestamp ∧
        (exState.head.rebuild = true →
          (StoreIncoming exEnv exState exBlockGood).2.pools.Blocks
            = exState.pools.Blocks ∧
          (StoreIncoming exEnv exState exBlockGood).2.ring = exState.ring) ∧
        (exState.head.rebuild = false →
          (StoreIncoming exEnv exState exBlockGood).2.ring
            = blockringPut exEnv.BlockRingSize header.Number digest exBlockGood
                exState.ring ∧
          (0 < exEnv.BlockRingSize →
            (StoreIncoming exEnv exState exBlockGood).2.ring.head?
              = some (header.Number, digest, exBlockGood)) ∧
          (StoreIncoming exEnv exState exBlockGood).2.pools.Blocks
            = exState.pools.Blocks.Put (putUint64 header.Number) exBlockGood ∧
          (StoreIncoming exEnv exState exBlockGood).2.pools.Blocks.Get
            (putUint64 header.Number) = some exBlockGood)) ∧
    exState.head.rebuild = false ∧
    (StoreIncoming exEnv exState exBlockGood).2.ring = [(8, [12], exBlockGood)] ∧
    (StoreIncoming exEnv exState exBlockGood).2.pools.Blocks
      = [([0, 0, 0, 0, 0, 0, 0, 8], exBlockGood)] :=
  ⟨⟨by decide, StoreIncoming_rebuild exEnv exStateRebuild exBlockGood (by decide)⟩,
   by decide, by decide, by decide, by decide,
   ⟨by decide, StoreIncoming_rebuild exEnv exState exBlockGood (by decide)⟩,
   by decide, by decide, by decide⟩

/-! ## The byte order of public keys -/

theorem bytesCompare_range (a b : Bytes) :
    bytesCompare a b = -1 ∨ bytesCompare a b = 0 ∨ bytesCompare a b = 1 := by
  induction a generalizing b with
  | nil => cases b <;> simp [bytesCompare]
  | cons x xs ih =>
    cases b with
    | nil => simp [bytesCompare]
    | cons y ys =>
      simp only [bytesCompare]
      split_ifs
      · simp
      · simp
      · exact ih ys

theorem bytesCompare_eq_zero (a b : Bytes) : bytesCompare a b = 0 ↔ a = b := by
  induction a generalizing b with
  | nil => cases b <;> simp [bytesCompare]
  | cons x xs ih =>
    cases b with
    | nil => simp [bytesCompare]
    | cons y ys =>
      simp only [bytesCompare, List.cons.injEq]
      split_ifs with h1 h2
      · simp; omega
      · simp; omega
      · rw [ih ys]
        have : x = y := by omega
        simp [this]

theorem bytesCompare_swap (a b : Bytes) : bytesCompare a b = 1 ↔ bytesCompare b a = -1 := by
  induction a generalizing b with
  | nil => cases b <;> simp [bytesCompare]
  | cons x xs ih =>
    cases b with
    | nil => simp [bytesCompare]
    | cons y ys =>
      simp only [bytesCompare]
      split_ifs <;> first | omega | simp | exact ih ys

theorem bytesCompare_trans (a b c : Bytes) (h1 : bytesCompare a b = -1)
    (h2 : bytesCompare b c = -1) : bytesCompare a c = -1 := by
  induction a generalizing b c with
  | nil =>
    cases c with
    | nil => cases b <;> simp [bytesCompare] at h2
    | cons z zs => simp [bytesCompare]
  | cons x xs ih =>
    cases b with
    | nil => simp [bytesCompare] at h1
    | cons y ys =>
      cases c with
      | nil => simp [bytesCompare] at h2
      | cons z zs =>
        simp only [bytesCompare] at h1 h2 ⊢
        split_ifs at h1 h2 ⊢ <;> first | omega | rfl | (exact ih ys zs h1 h2)

theorem bytesCompare_self (a : Bytes) : bytesCompare a a = 0 :=
  (bytesCompare_eq_zero a a).mpr rfl

/-! ## Search in an ordered tree -/

theorem search_key {V : Type} (pk : Bytes) (t : Node Bytes V) (i : Int)
    (l : Node Bytes V) (k : Bytes) (v : V) (ln : Int) (r : Node Bytes V)
    (h : (search pubkeyCompare pk t i).1 = Node.node l k v ln r) : k = pk := by
  induction t generalizing i with
  | nil => simp [search] at h
  | node left key value leftNodes right ihl ihr =>
    simp only [search] at h
    split_ifs at h with h1 h2
    · exact ihl _ h
    · exact ihr _ h
    · simp only [Node.node.injEq] at h
      obtain ⟨-, rfl, -, -, -⟩ := h
      rcases bytesCompare_range key pk with h3 | h3 | h3
      · exact absurd h3 h2
      · exact (bytesCompare_eq_zero key pk).mp h3
      · exact absurd h3 h1

theorem search_not_mem {V : Type} (pk : Bytes) (t : Node Bytes V) (i : Int)
    (h : pk ∉ t.keys) : (search pubkeyCompare pk t i).1 = Node.nil := by
  induction t generalizing i with
  | nil => simp [search]
  | node left key value leftNodes right ihl ihr =>
    simp only [Node.keys, List.mem_append, List.mem_cons, not_or] at h
    simp only [search]
    split_ifs with h1 h2
    · exact ihl _ h.1
    · exact ihr _ h.2.2
    · exfalso
      rcases bytesCompare_range key pk with h3 | h3 | h3
      · exact h2 h3
      · exact h.2.1 ((bytesCompare_eq_zero key pk).mp h3).symm
      · exact h1 h3

theorem search_mem {V : Type} (pk : Bytes) (t : Node Bytes V) (i : Int)
    (ho : t.Ordered pubkeyCompare) (h : pk ∈ t.keys) :
    ∃ l v ln r, (search pubkeyCompare pk t i).1 = Node.node l pk v ln r := by
  induction t generalizing i with
  | nil => simp [Node.keys] at h
  | node left key value leftNodes right ihl ihr =>
    simp only [Node.Ordered, Node.keys, List.pairwise_append, List.pairwise_cons,
      List.mem_cons, forall_eq_or_imp] at ho
    obtain ⟨hol, ⟨hkr, hor⟩, hlr⟩ := ho
    simp only [Node.keys, List.mem_append, List.mem_cons] at h
    simp only [search]
    rcases h with h | h | h
    · have h1 : pubkeyCompare key pk = 1 :=
        (bytesCompare_swap key pk).mpr (hlr pk h).1
      simp only [h1, if_true]
      exact ihl _ hol h
    · subst h
      have h0 : pubkeyCompare pk pk = 0 := bytesCompare_self pk
      simp [h0]
    · have h1 : pubkeyCompare key pk = -1 := hkr pk h
      simp only [h1]
      simp only [show ¬ ((-1 : Int) = 1) by decide, if_false, if_true]
      exact ihr _ hor h

/-! ## In-order traversal -/

theorem keys_eq_inorder {K V : Type} (t : Node K V) :
    t.keys = t.inorder.filterMap Node.key? := by
  induction t with
  | nil => rfl
  | node left key value leftNodes right ihl ihr =>
    simp [Node.keys, Node.inorder, ihl, ihr, Node.key?, List.filterMap_append]

theorem inorder_ne_nil {K V : Type} (t : Node K V) : Node.nil ∉ t.inorder := by
  induction t with
  | nil => simp [Node.inorder]
  | node left key value leftNodes right ihl ihr =>
    simp [Node.inorder, ihl, ihr]

theorem nodeAfter_mem {V : Type} (pk : Bytes) (L : List (Node Bytes V))
    (l : Node Bytes V) (k : Bytes) (v : V) (ln : Int) (r : Node Bytes V)
    (h : nodeAfter pk L = Node.node l k v ln r) : Node.node l k v ln r ∈ L := by
  induction L with
  | nil => simp [nodeAfter] at h
  | cons n rest ih =>
    simp only [nodeAfter] at h
    split_ifs at h
    · cases rest with
      | nil => simp at h
      | cons m rest' =>
        simp only [List.headD_cons] at h
        simp [h]
    · exact List.mem_cons_of_mem _ (ih h)

theorem nodeAfter_not_mem {V : Type} (pk : Bytes) (L : List (Node Bytes V))
    (h : pk ∉ L.filterMap Node.key?) : nodeAfter pk L = Node.nil := by
  induction L with
  | nil => rfl
  | cons n rest ih =>
    simp only [nodeAfter]
    cases hk : n.key? with
    | none =>
      simp only [List.filterMap_cons, hk] at h
      simp [ih h]
    | some kn =>
      simp only [List.filterMap_cons, hk, List.mem_cons, not_or] at h
      have : ¬ kn = pk := fun e => h.1 e.symm
      simp [this, ih h.2]

/-- The node after `pk` has the least key above `pk`. -/
theorem nodeAfter_least {V : Type} (pk : Bytes) (L : List (Node Bytes V))
    (ho : (L.filterMap Node.key?).Pairwise (fun a b => pubkeyCompare a b = -1))
    (l : Node Bytes V) (k : Bytes) (v : V) (ln : Int) (r : Node Bytes V)
    (h : nodeAfter pk L = Node.node l k v ln r) :
    pubkeyCompare pk k = -1 ∧
    ∀ k' ∈ L.filterMap Node.key?, pubkeyCompare pk k' = -1 → pubkeyCompare k k' ≠ 1 := by
  induction L with
  | nil => simp [nodeAfter] at h
  | cons n rest ih =>
    cases hk : n.key? with
    | none =>
      simp only [List.filterMap_cons, hk] at ho ⊢
      simp only [nodeAfter, hk] at h
      exact ih ho (by simpa using h)
    | some kn =>
      simp only [List.filterMap_cons, hk, List.pairwise_cons] at ho
      obtain ⟨hn, hrest⟩ := ho
      simp only [nodeAfter, hk, Option.some.injEq] at h
      by_cases e : kn = pk
      · subst e
        simp only [if_true] at h
        cases rest with
        | nil => simp at h
        | cons m rest' =>
          simp only [List.headD_cons] at h
          subst h
          simp only [List.filterMap_cons, Node.key?, List.pairwise_cons, List.mem_cons,
            forall_eq_or_imp] at hn hrest
          refine ⟨hn.1, ?_⟩
          intro k' hk' hlt
          simp only [List.filterMap_cons, hk] at hk'
          simp only [Node.key?, List.mem_cons] at hk'
          rcases hk' with rfl | rfl | hk'
          · have h0 : pubkeyCompare k' k' = 0 := bytesCompare_self k'
            rw [h0] at hlt
            exact absurd hlt (by decide)
          · have h0 : pubkeyCompare k' k' = 0 := bytesCompare_self k'
            rw [h0]
            decide
          · rw [hrest.1 k' hk']
            decide
      · simp only [e, if_false] at h
        obtain ⟨h1, h2⟩ := ih hrest h
        refine ⟨h1, ?_⟩
        intro k' hk' hlt
        simp only [List.filterMap_cons, hk, List.mem_cons] at hk'
        rcases hk' with rfl | hk'
        · exfalso
          have hpk : pk ∈ rest.filterMap Node.key? := by
            by_contra hc
            rw [nodeAfter_not_mem pk rest hc] at h
            exact absurd h (by simp)
          have h3 := bytesCompare_trans _ _ _ (hn pk hpk) hlt
          have h0 : pubkeyCompare k' k' = 0 := bytesCompare_self k'
          have h4 : pubkeyCompare k' k' = -1 := h3
          rw [h0] at h4
          exact absurd h4 (by decide)
        · exact h2 k' hk' hlt

/-- No node after `pk`: `pk` is the largest key. -/
theorem nodeAfter_nil_largest {V : Type} (pk : Bytes) (L : List (Node Bytes V))
    (ho : (L.filterMap Node.key?).Pairwise (fun a b => pubkeyCompare a b = -1))
    (hnil : Node.nil ∉ L) (hmem : pk ∈ L.filterMap Node.key?)
    (h : nodeAfter pk L = Node.nil) :
    ∀ k' ∈ L.filterMap Node.key?, pubkeyCompare pk k' ≠ -1 := by
  induction L with
  | nil => simp
  | cons n rest ih =>
    simp only [List.mem_cons, not_or] at hnil
    cases hk : n.key? with
    | none =>
      cases n with
      | nil => exact absurd rfl hnil.1
      | node _ _ _ _ _ => simp [Node.key?] at hk
    | some kn =>
      simp only [List.filterMap_cons, hk, List.pairwise_cons, List.mem_cons] at ho hmem ⊢
      obtain ⟨hn, hrest⟩ := ho
      simp only [nodeAfter, hk, Option.some.injEq] at h
      by_cases e : kn = pk
      · subst e
        simp only [if_true] at h
        cases rest with
        | nil =>
          intro k' hk'
          simp only [List.filterMap_nil, List.not_mem_nil, or_false] at hk'
          subst hk'
          have h0 : pubkeyCompare k' k' = 0 := bytesCompare_self k'
          rw [h0]
          decide
        | cons m rest' =>
          simp only [List.headD_cons] at h
          simp only [List.mem_cons, not_or] at hnil
          exact absurd h.symm hnil.2.1
      · simp only [e, if_false] at h
        have hpk : pk ∈ rest.filterMap Node.key? := by
          rcases hmem with h1 | h1
          · exact absurd h1.symm e
          · exact h1
        intro k' hk'
        rcases hk' with rfl | hk'
        · intro hc
          have h3 := (bytesCompare_swap k' pk).mpr hc
          have h4 : pubkeyCompare k' pk = -1 := hn pk hpk
          have h5 : pubkeyCompare k' pk = 1 := h3
          rw [h4] at h5
          exact absurd h5 (by decide)
        · exact ih hrest hnil.2 hpk h k' hk'

/-- The first node has the least key. -/
theorem head_least {V : Type} (L : List (Node Bytes V))
    (ho : (L.filterMap Node.key?).Pairwise (fun a b => pubkeyCompare a b = -1))
    (l : Node Bytes V) (k : Bytes) (v : V) (ln : Int) (r : Node Bytes V)
    (h : L.headD Node.nil = Node.node l k v ln r) :
    Node.node l k v ln r ∈ L ∧
    ∀ k' ∈ L.filterMap Node.key?, pubkeyCompare k k' ≠ 1 := by
  cases L with
  | nil => simp at h
  | cons n rest =>
    simp only [List.headD_cons] at h
    subst h
    simp only [List.filterMap_cons, Node.key?, List.pairwise_cons, List.mem_cons] at ho ⊢
    refine ⟨Or.inl trivial, ?_⟩
    intro k' hk'
    rcases hk' with rfl | hk'
    · have h0 : pubkeyCompare k' k' = 0 := bytesCompare_self k'
      rw [h0]
      decide
    · rw [ho.1 k' hk']
      decide

theorem inorder_key_mem {K V : Type} (t : Node K V) (l : Node K V) (k : K) (v : V)
    (ln : Int) (r : Node K V) (h : Node.node l k v ln r ∈ t.inorder) : k ∈ t.keys := by
  rw [keys_eq_inorder, List.mem_filterMap]
  exact ⟨_, h, rfl⟩

/-- The three ways `GetNext` ends on an ordered ring: the error on the empty
ring, the successor of a present key, or the wrap to the first node. -/
theorem GetNext_cases (g : AnnounceData) (now : Time) (pk : Bytes)
    (ho : g.peerTree.Ordered pubkeyCompare) :
    (g.peerTree.keys = [] ∧
      GetNext g now pk = ([], [], now, some Fault.ErrInvalidPublicKey)) ∨
    (∃ l k peer ln r, Node.node l k peer ln r ∈ g.peerTree.inorder ∧
      GetNext g now pk = (peer.publicKey, peer.listeners, peer.timestamp, none) ∧
      ((pk ∈ g.peerTree.keys ∧ pubkeyCompare pk k = -1 ∧
          ∀ k' ∈ g.peerTree.keys, pubkeyCompare pk k' = -1 → pubkeyCompare k k' ≠ 1) ∨
       ((pk ∉ g.peerTree.keys ∨ ∀ k' ∈ g.peerTree.keys, pubkeyCompare pk k' ≠ -1) ∧
          ∀ k' ∈ g.peerTree.keys, pubkeyCompare k k' ≠ 1))) := by
  have hk := keys_eq_inorder g.peerTree
  have ho' : (g.peerTree.inorder.filterMap Node.key?).Pairwise
      (fun a b => pubkeyCompare a b = -1) := by
    rw [← hk]; exact ho
  -- the wrap to the first node
  have wrap : ∀ (hw : pk ∉ g.peerTree.keys ∨ ∀ k' ∈ g.peerTree.keys, pubkeyCompare pk k' ≠ -1)
      (res : Bytes × Bytes × Time × Option Fault),
      res = (match First g.peerTree with
        | Node.nil => ([], [], now, some Fault.ErrInvalidPublicKey)
        | Node.node _ _ peer _ _ => (peer.publicKey, peer.listeners, peer.timestamp, none)) →
      (g.peerTree.keys = [] ∧ res = ([], [], now, some Fault.ErrInvalidPublicKey)) ∨
      (∃ l k peer ln r, Node.node l k peer ln r ∈ g.peerTree.inorder ∧
        res = (peer.publicKey, peer.listeners, peer.timestamp, none) ∧
        ((pk ∈ g.peerTree.keys ∧ pubkeyCompare pk k = -1 ∧
            ∀ k' ∈ g.peerTree.keys, pubkeyCompare pk k' = -1 → pubkeyCompare k k' ≠ 1) ∨
         ((pk ∉ g.peerTree.keys ∨ ∀ k' ∈ g.peerTree.keys, pubkeyCompare pk k' ≠ -1) ∧
            ∀ k' ∈ g.peerTree.keys, pubkeyCompare k k' ≠ 1))) := by
    intro hw res hres
    cases hf : First g.peerTree with
    | nil =>
      left
      rw [hf] at hres
      refine ⟨?_, hres⟩
      unfold First at hf
      cases hi : g.peerTree.inorder with
      | nil => rw [hk, hi]; rfl
      | cons n rest =>
        rw [hi, List.headD_cons] at hf
        have := inorder_ne_nil g.peerTree
        rw [hi, hf] at this
        exact absurd (List.mem_cons_self _ _) this
    | node l k peer ln r =>
      right
      rw [hf] at hres
      obtain ⟨h1, h2⟩ := head_least g.peerTree.inorder ho' l k peer ln r hf
      rw [← hk] at h2
      exact ⟨l, k, peer, ln, r, h1, hres, Or.inr ⟨hw, h2⟩⟩
  by_cases hmem : pk ∈ g.peerTree.keys
  · obtain ⟨l0, v0, ln0, r0, hs⟩ := search_mem pk g.peerTree 0 ho hmem
    cases hn : nodeAfter pk g.peerTree.inorder with
    | nil =>
      have hl := nodeAfter_nil_largest pk g.peerTree.inorder ho' (inorder_ne_nil _)
        (by rw [← hk]; exact hmem) hn
      rw [← hk] at hl
      apply wrap (Or.inr hl)
      simp only [GetNext, Search, hs, Next, hn]
    | node l k peer ln r =>
      right
      obtain ⟨h1, h2⟩ := nodeAfter_least pk g.peerTree.inorder ho' l k peer ln r hn
      rw [← hk] at h2
      refine ⟨l, k, peer, ln, r, nodeAfter_mem pk _ l k peer ln r hn, ?_, Or.inl ⟨hmem, h1, h2⟩⟩
      simp only [GetNext, Search, hs, Next, hn]
  · have hs := search_not_mem pk g.peerTree 0 hmem
    apply wrap (Or.inl hmem)
    simp only [GetNext, Search, hs]

/-! ## C10: the next peer on the ring -/

/-- C10. On every ring (a peer tree ordered by the key comparison) and for
every public key pk, `GetNext(pk)` fails with `ErrInvalidPublicKey` exactly
when the ring is empty; otherwise, if pk is present and is not the largest
key it returns the entry with the smallest key strictly greater than pk, and
if pk is absent or is the largest key it returns the entry with the smallest
key of the ring. With the keys 0x01, 0x05, 0x0A in the ring,
GetNext(0x05) = 0x0A, GetNext(0x0A) = 0x01 and GetNext(0xFF) = 0x01. -/
theorem GetNext_ring_successor (g : AnnounceData) (now : Time) (pk : Bytes)
    (ho : g.peerTree.Ordered pubkeyCompare) :
    ((GetNext g now pk).2.2.2 = some Fault.ErrInvalidPublicKey ↔ g.peerTree.keys = []) ∧
    (g.peerTree.keys ≠ [] → (GetNext g now pk).2.2.2 = none) ∧
    (pk ∈ g.peerTree.keys → (∃ k0 ∈ g.peerTree.keys, pubkeyCompare pk k0 = -1) →
      ∃ l k peer ln r, Node.node l k peer ln r ∈ g.peerTree.inorder ∧
        pubkeyCompare pk k = -1 ∧
        (∀ k' ∈ g.peerTree.keys, pubkeyCompare pk k' = -1 → pubkeyCompare k k' ≠ 1) ∧
        GetNext g now pk = (peer.publicKey, peer.listeners, peer.timestamp, none)) ∧
    (g.peerTree.keys ≠ [] →
      (pk ∉ g.peerTree.keys ∨ ∀ k' ∈ g.peerTree.keys, pubkeyCompare pk k' ≠ -1) →
      ∃ l k peer ln r, Node.node l k peer ln r ∈ g.peerTree.inorder ∧
        (∀ k' ∈ g.peerTree.keys, pubkeyCompare k k' ≠ 1) ∧
        GetNext g now pk = (peer.publicKey, peer.listeners, peer.timestamp, none)) ∧
    (exRing.peerTree.keys = [[1], [5], [10]] ∧
      (GetNext exRing now [5]).1 = [10] ∧
      (GetNext exRing now [10]).1 = [1] ∧
      (GetNext exRing now [255]).1 = [1]) := by
  have hc := GetNext_cases g now pk ho
  refine ⟨?_, ?_, ?_, ?_, by decide, rfl, rfl, rfl⟩
  · rcases hc with ⟨he, hr⟩ | ⟨l, k, peer, ln, r, hin, hr, -⟩
    · rw [hr]
      simp [he]
    · rw [hr]
      have hkm := inorder_key_mem g.peerTree l k peer ln r hin
      constructor
      · intro h
        exact absurd h (by simp)
      · intro h
        rw [h] at hkm
        exact absurd hkm (by simp)
  · intro hne
    rcases hc with ⟨he, -⟩ | ⟨l, k, peer, ln, r, -, hr, -⟩
    · exact absurd he hne
    · rw [hr]
  · intro hmem hex
    obtain ⟨k0, hk0, hlt0⟩ := hex
    rcases hc with ⟨he, -⟩ | ⟨l, k, peer, ln, r, hin, hr, hcase⟩
    · rw [he] at hmem
      exact absurd hmem (by simp)
    · rcases hcase with ⟨-, h1, h2⟩ | ⟨hw, -⟩
      · exact ⟨l, k, peer, ln, r, hin, h1, h2, hr⟩
      · rcases hw with hw | hw
        · exact absurd hmem hw
        · exact absurd hlt0 (hw k0 hk0)
  · intro hne hw
    rcases hc with ⟨he, -⟩ | ⟨l, k, peer, ln, r, hin, hr, hcase⟩
    · exact absurd he hne
    · rcases hcase with ⟨hmem, h1, -⟩ | ⟨-, h2⟩
      · have hkm := inorder_key_mem g.peerTree l k peer ln r hin
        rcases hw with hw | hw
        · exact absurd hmem hw
        · exact absurd h1 (hw k hkm)
      · exact ⟨l, k, peer, ln, r, hin, h2, hr⟩

/-- C10 at concrete inputs: on the ring `0x01, 0x05, 0x0A` the key `0x05` has
the successor `0x0A`, the largest key `0x0A` and the absent key `0xFF` wrap
to `0x01`, and the empty ring gives `ErrInvalidPublicKey`. -/
theorem GetNext_ring_successor_witness :
    exRing.peerTree.Ordered pubkeyCompare ∧
    (∃ l k peer ln r, Node.node l k peer ln r ∈ exRing.peerTree.inorder ∧
        pubkeyCompare [5] k = -1 ∧
        (∀ k' ∈ exRing.peerTree.keys, pubkeyCompare [5] k' = -1 → pubkeyCompare k k' ≠ 1) ∧
        GetNext exRing 0 [5] = (peer.publicKey, peer.listeners, peer.timestamp, none)) ∧
    GetNext exRing 0 [5] = ([10], [127, 0, 0, 1], 0, none) ∧
    (∃ l k peer ln r, Node.node l k peer ln r ∈ exRing.peerTree.inorder ∧
        (∀ k' ∈ exRing.peerTree.keys, pubkeyCompare k k' ≠ 1) ∧
        GetNext exRing 0 [255] = (peer.publicKey, peer.listeners, peer.timestamp, none)) ∧
    GetNext exRing 0 [255] = ([1], [127, 0, 0, 1], 0, none) ∧
    ((GetNext exRingEmpty 0 [5]).2.2.2 = some Fault.ErrInvalidPublicKey ↔
      exRingEmpty.peerTree.keys = []) ∧
    (GetNext exRingEmpty 0 [5]).2.2.2 = some Fault.ErrInvalidPublicKey :=
  ⟨by decide,
   (GetNext_ring_successor exRing 0 [5] (by decide)).2.2.1 (by decide)
     ⟨[10], by decide, by decide⟩,
   by decide,
   (GetNext_ring_successor exRing 0 [255] (by decide)).2.2.2.1 (by decide)
     (Or.inl (by decide)),
   by decide,
   (GetNext_ring_successor exRingEmpty 0 [5] (by decide)).1,
   by decide⟩

/-! ## Insertion keeps the in-order sequence ordered -/

theorem keys_eq_entries {K V : Type} (t : Node K V) : t.keys = t.entries.map Prod.fst := by
  induction t with
  | nil => rfl
  | node left key value leftNodes right ihl ihr =>
    simp [Node.keys, Node.entries, ihl, ihr]

theorem entries_mkNode {K V : Type} (l : Node K V) (k : K) (v : V) (r : Node K V) :
    (mkNode l k v r).entries = l.entries ++ (k, v) :: r.entries := rfl

/-- Rebalancing keeps the in-order sequence. -/
theorem entries_balance {K V : Type} (l : Node K V) (k : K) (v : V) (r : Node K V) :
    (balance l k v r).entries = l.entries ++ (k, v) :: r.entries := by
  unfold balance
  split_ifs
  · cases l with
    | nil => rfl
    | node ll lk lv ln lr =>
      simp only
      split_ifs
      · simp [entries_mkNode, Node.entries]
      · cases lr with
        | nil => rfl
        | node lrl lrk lrv lrn lrr => simp [entries_mkNode, Node.entries]
  · cases r with
    | nil => rfl
    | node rl rk rv rn rr =>
      simp only
      split_ifs
      · simp [entries_mkNode, Node.entries]
      · cases rl with
        | nil => rfl
        | node rll rlk rlv rln rlr => simp [entries_mkNode, Node.entries]
  · rfl

theorem keys_balance {K V : Type} (l : Node K V) (k : K) (v : V) (r : Node K V) :
    (balance l k v r).keys = l.keys ++ k :: r.keys := by
  simp [keys_eq_entries, entries_balance]

/-- The keys after an insertion are the old keys and the inserted one. -/
theorem Insert_keys_mem {V : Type} (key : Bytes) (value : V) (t : Node Bytes V)
    (k' : Bytes) :
    k' ∈ (Insert pubkeyCompare key value t).1.keys ↔ k' = key ∨ k' ∈ t.keys := by
  induction t with
  | nil => simp [Insert, mkNode, Node.keys]
  | node left k v leftNodes right ihl ihr =>
    simp only [Insert]
    split_ifs with h1 h2
    · simp only [keys_balance, List.mem_append, List.mem_cons, ihl, Node.keys]
      tauto
    · simp only [keys_balance, List.mem_append, List.mem_cons, ihr, Node.keys]
      tauto
    · have hk : k = key := by
        rcases bytesCompare_range k key with h3 | h3 | h3
        · exact absurd h3 h2
        · exact (bytesCompare_eq_zero k key).mp h3
        · exact absurd h3 h1
      subst hk
      simp only [Node.keys, List.mem_append, List.mem_cons]
      tauto

theorem Ordered_node {V : Type} (l : Node Bytes V) (k : Bytes) (v : V) (ln : Int)
    (r : Node Bytes V) :
    (Node.node l k v ln r).Ordered pubkeyCompare ↔
      l.Ordered pubkeyCompare ∧ r.Ordered pubkeyCompare ∧
      (∀ a ∈ l.keys, pubkeyCompare a k = -1) ∧ (∀ b ∈ r.keys, pubkeyCompare k b = -1) := by
  simp only [Node.Ordered, Node.keys, List.pairwise_append, List.pairwise_cons,
    List.mem_cons, forall_eq_or_imp]
  constructor
  · rintro ⟨hl, ⟨hkr, hr⟩, hlr⟩
    exact ⟨hl, hr, fun a ha => (hlr a ha).1, hkr⟩
  · rintro ⟨hl, hr, hlk, hkr⟩
    exact ⟨hl, ⟨hkr, hr⟩, fun a ha =>
      ⟨hlk a ha, fun b hb => bytesCompare_trans a k b (hlk a ha) (hkr b hb)⟩⟩

theorem Ordered_of_keys {V : Type} (t u : Node Bytes V) (h : t.keys = u.keys)
    (ho : u.Ordered pubkeyCompare) : t.Ordered pubkeyCompare := by
  unfold Node.Ordered at ho ⊢
  rw [h]
  exact ho

/-- Insertion keeps the tree ordered. -/
theorem Insert_Ordered {V : Type} (key : Bytes) (value : V) (t : Node Bytes V)
    (ho : t.Ordered pubkeyCompare) :
    (Insert pubkeyCompare key value t).1.Ordered pubkeyCompare := by
  induction t with
  | nil => simp [Insert, mkNode, Node.Ordered, Node.keys]
  | node left k v leftNodes right ihl ihr =>
    obtain ⟨hl, hr, hlk, hkr⟩ := (Ordered_node left k v leftNodes right).mp ho
    simp only [Insert]
    split_ifs with h1 h2
    · have hkey : pubkeyCompare key k = -1 := (bytesCompare_swap k key).mp h1
      apply Ordered_of_keys _ (Node.node (Insert pubkeyCompare key value left).1 k v 0 right)
        (by rw [keys_balance]; rfl)
      rw [Ordered_node]
      refine ⟨ihl hl, hr, ?_, hkr⟩
      intro a ha
      rcases (Insert_keys_mem key value left a).mp ha with rfl | ha
      · exact hkey
      · exact hlk a ha
    · apply Ordered_of_keys _ (Node.node left k v 0 (Insert pubkeyCompare key value right).1)
        (by rw [keys_balance]; rfl)
      rw [Ordered_node]
      refine ⟨hl, ihr hr, hlk, ?_⟩
      intro b hb
      rcases (Insert_keys_mem key value right b).mp hb with rfl | hb
      · exact h2
      · exact hkr b hb
    · exact Ordered_of_keys _ (Node.node left k v leftNodes right) rfl ho

/-- A new key is reported exactly when the key was absent. -/
theorem Insert_added {V : Type} (key : Bytes) (value : V) (t : Node Bytes V)
    (ho : t.Ordered pubkeyCompare) :
    (Insert pubkeyCompare key value t).2 = true ↔ key ∉ t.keys := by
  induction t with
  | nil => simp [Insert, Node.keys]
  | node left k v leftNodes right ihl ihr =>
    obtain ⟨hl, hr, hlk, hkr⟩ := (Ordered_node left k v leftNodes right).mp ho
    have hself : pubkeyCompare key key = 0 := bytesCompare_self key
    simp only [Insert, Node.keys, List.mem_append, List.mem_cons, not_or]
    split_ifs with h1 h2
    · rw [ihl hl]
      constructor
      · intro h
        refine ⟨h, ?_, ?_⟩
        · rintro rfl
          have h3 : pubkeyCompare key key = 1 := h1
          rw [hself] at h3
          exact absurd h3 (by decide)
        · intro hr'
          have h3 : pubkeyCompare k key = -1 := hkr key hr'
          rw [h1] at h3
          exact absurd h3 (by decide)
      · exact fun h => h.1
    · rw [ihr hr]
      constructor
      · intro h
        refine ⟨?_, ?_, h⟩
        · intro hl'
          have h3 : pubkeyCompare k key = 1 := (bytesCompare_swap k key).mpr (hlk key hl')
          rw [h2] at h3
          exact absurd h3 (by decide)
        · rintro rfl
          have h3 : pubkeyCompare key key = -1 := h2
          rw [hself] at h3
          exact absurd h3 (by decide)
      · exact fun h => h.2.2
    · have hk : k = key := by
        rcases bytesCompare_range k key with h3 | h3 | h3
        · exact absurd h3 h2
        · exact (bytesCompare_eq_zero k key).mp h3
        · exact absurd h3 h1
      simp [hk]

theorem entries_key_mem {K V : Type} (t : Node K V) (k : K) (e : V)
    (h : (k, e) ∈ t.entries) : k ∈ t.keys := by
  rw [keys_eq_entries]
  exact List.mem_map.mpr ⟨(k, e), h, rfl⟩

theorem pubkeyCompare_ne_of_lt (a b : Bytes) (h : pubkeyCompare a b = -1) : a ≠ b := by
  rintro rfl
  have h0 : pubkeyCompare a a = 0 := bytesCompare_self a
  rw [h0] at h
  exact absurd h (by decide)

/-- The entries after an insertion: the inserted one, and the old entries of
the other keys. -/
theorem Insert_entries_mem {V : Type} (key : Bytes) (value : V) (t : Node Bytes V)
    (ho : t.Ordered pubkeyCompare) (k' : Bytes) (e : V) :
    (k', e) ∈ (Insert pubkeyCompare key value t).1.entries ↔
      (k' = key ∧ e = value) ∨ (k' ≠ key ∧ (k', e) ∈ t.entries) := by
  induction t with
  | nil => simp [Insert, mkNode, Node.entries]
  | node left k v leftNodes right ihl ihr =>
    obtain ⟨hl, hr, hlk, hkr⟩ := (Ordered_node left k v leftNodes right).mp ho
    simp only [Insert]
    split_ifs with h1 h2
    · have hkey : pubkeyCompare key k = -1 := (bytesCompare_swap k key).mp h1
      have hne : k ≠ key := (pubkeyCompare_ne_of_lt key k hkey).symm
      have hright : ∀ x, (k', x) ∈ right.entries → k' ≠ key := by
        intro x hx
        have := hkr k' (entries_key_mem right k' x hx)
        exact (pubkeyCompare_ne_of_lt key k' (bytesCompare_trans key k k' hkey this)).symm
      simp only [entries_balance, List.mem_append, List.mem_cons, Prod.mk.injEq, ihl hl,
        Node.entries]
      constructor
      · rintro ((h | h) | h | h)
        · exact Or.inl h
        · exact Or.inr ⟨h.1, Or.inl h.2⟩
        · exact Or.inr ⟨by rw [h.1]; exact hne, Or.inr (Or.inl h)⟩
        · exact Or.inr ⟨hright e h, Or.inr (Or.inr h)⟩
      · rintro (h | ⟨hn, h | h | h⟩)
        · exact Or.inl (Or.inl h)
        · exact Or.inl (Or.inr ⟨hn, h⟩)
        · exact Or.inr (Or.inl h)
        · exact Or.inr (Or.inr h)
    · have hne : k ≠ key := pubkeyCompare_ne_of_lt k key h2
      have hleft : ∀ x, (k', x) ∈ left.entries → k' ≠ key := by
        intro x hx
        have := hlk k' (entries_key_mem left k' x hx)
        exact pubkeyCompare_ne_of_lt k' key (bytesCompare_trans k' k key this h2)
      simp only [entries_balance, List.mem_append, List.mem_cons, Prod.mk.injEq, ihr hr,
        Node.entries]
      constructor
      · rintro (h | h | h | h)
        · exact Or.inr ⟨hleft e h, Or.inl h⟩
        · exact Or.inr ⟨by rw [h.1]; exact hne, Or.inr (Or.inl h)⟩
        · exact Or.inl h
        · exact Or.inr ⟨h.1, Or.inr (Or.inr h.2)⟩
      · rintro (h | ⟨hn, h | h | h⟩)
        · exact Or.inr (Or.inr (Or.inl h))
        · exact Or.inl h
        · exact Or.inr (Or.inl h)
        · exact Or.inr (Or.inr (Or.inr ⟨hn, h⟩))
    · have hk : k = key := by
        rcases bytesCompare_range k key with h3 | h3 | h3
        · exact absurd h3 h2
        · exact (bytesCompare_eq_zero k key).mp h3
        · exact absurd h3 h1
      subst hk
      have hleft : ∀ x, (k', x) ∈ left.entries → k' ≠ k := fun x hx =>
        pubkeyCompare_ne_of_lt k' k (hlk k' (entries_key_mem left k' x hx))
      have hright : ∀ x, (k', x) ∈ right.entries → k' ≠ k := fun x hx =>
        (pubkeyCompare_ne_of_lt k k' (hkr k' (entries_key_mem right k' x hx))).symm
      simp only [Node.entries, List.mem_append, List.mem_cons, Prod.mk.injEq]
      constructor
      · rintro (h | h | h)
        · exact Or.inr ⟨hleft e h, Or.inl h⟩
        · exact Or.inl h
        · exact Or.inr ⟨hright e h, Or.inr (Or.inr h)⟩
      · rintro (h | ⟨hn, h | h | h⟩)
        · exact Or.inr (Or.inl h)
        · exact Or.inl h
        · exact absurd h.1 hn
        · exact Or.inr (Or.inr h)

/-- In an ordered tree `search` finds the node of every entry. -/
theorem search_entry {V : Type} (pk : Bytes) (t : Node Bytes V) (i : Int)
    (ho : t.Ordered pubkeyCompare) (v : V) (h : (pk, v) ∈ t.entries) :
    ∃ l ln r, (search pubkeyCompare pk t i).1 = Node.node l pk v ln r := by
  induction t generalizing i with
  | nil => simp [Node.entries] at h
  | node left key value leftNodes right ihl ihr =>
    obtain ⟨hl, hr, hlk, hkr⟩ := (Ordered_node left key value leftNodes right).mp ho
    simp only [Node.entries, List.mem_append, List.mem_cons, Prod.mk.injEq] at h
    simp only [search]
    rcases h with h | h | h
    · have h1 : pubkeyCompare key pk = 1 :=
        (bytesCompare_swap key pk).mpr (hlk pk (entries_key_mem left pk v h))
      simp only [h1, if_true]
      exact ihl _ hl h
    · obtain ⟨rfl, rfl⟩ := h
      have h0 : pubkeyCompare pk pk = 0 := bytesCompare_self pk
      simp [h0]
    · have h1 : pubkeyCompare key pk = -1 := hkr pk (entries_key_mem right pk v h)
      simp only [h1, show ¬ ((-1 : Int) = 1) by decide, if_false, if_true]
      exact ihr _ hr h

/-- An ordered tree holds one entry per key. -/
theorem entries_unique {V : Type} (t : Node Bytes V) (ho : t.Ordered pubkeyCompare)
    (k : Bytes) (v w : V) (hv : (k, v) ∈ t.entries) (hw : (k, w) ∈ t.entries) : v = w := by
  obtain ⟨l, ln, r, h1⟩ := search_entry k t 0 ho v hv
  obtain ⟨l', ln', r', h2⟩ := search_entry k t 0 ho w hw
  rw [h1] at h2
  simp only [Node.node.injEq] at h2
  exact h2.2.2.1

/-! ## The three ways `addPeer` ends -/

theorem addPeer_expired (c : AnnounceConstants) (g : AnnounceData) (now : Nat)
    (pk listeners : Bytes) (t : Nat)
    (h : (now : Int) - effectiveTimestamp now t ≥ c.announceExpiry) :
    addPeer c g now pk listeners t = (false, g) := by
  simp [addPeer, h]

theorem addPeer_limited (c : AnnounceConstants) (g : AnnounceData) (now : Nat)
    (pk listeners : Bytes) (t : Nat) (ho : g.peerTree.Ordered pubkeyCompare)
    (existing : peerEntry) (hmem : (pk, existing) ∈ g.peerTree.entries)
    (h : effectiveTimestamp now t - existing.timestamp < c.announceRebroadcast) :
    addPeer c g now pk listeners t = (false, g) := by
  obtain ⟨l, ln, r, hs⟩ := search_entry pk g.peerTree 0 ho existing hmem
  unfold addPeer
  simp only [Search, hs, h, decide_True, if_true]
  split_ifs <;> rfl

/-- An announcement that is neither expired nor within the rebroadcast
interval of a stored entry is written to the tree. -/
theorem addPeer_stored (c : AnnounceConstants) (g : AnnounceData) (now : Nat)
    (pk listeners : Bytes) (t : Nat) (ho : g.peerTree.Ordered pubkeyCompare)
    (hexp : ¬ (now : Int) - effectiveTimestamp now t ≥ c.announceExpiry)
    (hlim : ∀ existing, (pk, existing) ∈ g.peerTree.entries →
      ¬ effectiveTimestamp now t - existing.timestamp < c.announceRebroadcast) :
    addPeer c g now pk listeners t =
      (decide (g.publicKey ≠ pk),
        { g with
          peerTree := (Insert pubkeyCompare pk
            { publicKey := pk, listeners := listeners,
              timestamp := effectiveTimestamp now t } g.peerTree).1,
          treeChanged := g.treeChanged ||
            (decide (g.publicKey ≠ pk) && decide (pk ∉ g.peerTree.keys)) }) := by
  have hadd := Insert_added pk
    ({ publicKey := pk, listeners := listeners,
       timestamp := effectiveTimestamp now t } : peerEntry) g.peerTree ho
  have hlimited : (match (Search pubkeyCompare g.peerTree pk).1 with
      | Node.nil => false
      | Node.node _ _ existing _ _ =>
        decide (effectiveTimestamp now t - existing.timestamp < c.announceRebroadcast))
      = false := by
    by_cases hmem : pk ∈ g.peerTree.keys
    · rw [keys_eq_entries] at hmem
      obtain ⟨⟨k, existing⟩, he, rfl⟩ := List.mem_map.mp hmem
      obtain ⟨l, ln, r, hs⟩ := search_entry k g.peerTree 0 ho existing he
      simp only [Search, hs]
      simpa using hlim existing he
    · simp only [Search, search_not_mem pk g.peerTree 0 hmem]
  unfold addPeer
  simp only [hexp, if_false, hlimited, Bool.false_eq_true]
  by_cases hself : g.publicKey = pk
  · simp [hself]
  · by_cases hk : pk ∈ g.peerTree.keys
    · have : (Insert pubkeyCompare pk
          ({ publicKey := pk, listeners := listeners,
             timestamp := effectiveTimestamp now t } : peerEntry) g.peerTree).2 = false := by
        have := hadd.not.mpr (not_not.mpr hk)
        simpa using this
      simp [hself, hk, this]
    · have : (Insert pubkeyCompare pk
          ({ publicKey := pk, listeners := listeners,
             timestamp := effectiveTimestamp now t } : peerEntry) g.peerTree).2 = true :=
        hadd.mpr hk
      simp [hself, hk, this]

/-- Every call of `addPeer` ends in one of the three ways. -/
theorem addPeer_cases (c : AnnounceConstants) (g : AnnounceData) (now : Nat)
    (pk listeners : Bytes) (t : Nat) (ho : g.peerTree.Ordered pubkeyCompare) :
    addPeer c g now pk listeners t = (false, g) ∨
    addPeer c g now pk listeners t =
      (decide (g.publicKey ≠ pk),
        { g with
          peerTree := (Insert pubkeyCompare pk
            { publicKey := pk, listeners := listeners,
              timestamp := effectiveTimestamp now t } g.peerTree).1,
          treeChanged := g.treeChanged ||
            (decide (g.publicKey ≠ pk) && decide (pk ∉ g.peerTree.keys)) }) := by
  by_cases hexp : (now : Int) - effectiveTimestamp now t ≥ c.announceExpiry
  · exact Or.inl (addPeer_expired c g now pk listeners t hexp)
  · by_cases hlim : ∃ existing, (pk, existing) ∈ g.peerTree.entries ∧
        effectiveTimestamp now t - existing.timestamp < c.announceRebroadcast
    · obtain ⟨existing, hmem, h⟩ := hlim
      exact Or.inl (addPeer_limited c g now pk listeners t ho existing hmem h)
    · refine Or.inr (addPeer_stored c g now pk listeners t ho hexp ?_)
      intro existing hmem h
      exact hlim ⟨existing, hmem, h⟩

/-- The rings `addPeer` leaves are well formed. -/
theorem addPeer_RingInv (c : AnnounceConstants) (g : AnnounceData) (now : Nat)
    (pk listeners : Bytes) (t : Nat) (hinv : RingInv g) :
    RingInv (addPeer c g now pk listeners t).2 := by
  rcases addPeer_cases c g now pk listeners t hinv.1 with h | h
  · rw [h]; exact hinv
  · rw [h]
    refine ⟨Insert_Ordered _ _ _ hinv.1, ?_⟩
    rintro ⟨k, e⟩ he
    rcases (Insert_entries_mem pk _ g.peerTree hinv.1 k e).mp he with ⟨rfl, rfl⟩ | ⟨-, hold⟩
    · rfl
    · exact hinv.2 (k, e) hold

theorem addPeer_publicKey (c : AnnounceConstants) (g : AnnounceData) (now : Nat)
    (pk listeners : Bytes) (t : Nat) :
    (addPeer c g now pk listeners t).2.publicKey = g.publicKey ∧
    (addPeer c g now pk listeners t).2.peerSet = g.peerSet := by
  unfold addPeer
  simp only
  split_ifs <;> exact ⟨rfl, rfl⟩

/-! ## C12: the rebroadcast limit -/

/-- C12. When the ring already holds an entry for pk and the effective
timestamp ts satisfies ts - existing.timestamp < AnnounceRebroadcast,
`AddPeer(pk, listeners, t)` returns false and leaves `globalData` as it was:
the ring is unchanged, the stored entry for pk keeps its listeners and
timestamp, and treeChanged is not modified. -/
theorem AddPeer_rebroadcast_limit (c : AnnounceConstants) (g : AnnounceData) (now : Nat)
    (pk listeners : Bytes) (t : Nat) (hinv : RingInv g) (existing : peerEntry)
    (hmem : (pk, existing) ∈ g.peerTree.entries)
    (h : effectiveTimestamp now t - existing.timestamp < c.announceRebroadcast) :
    (AddPeer c g now pk listeners t).1 = false ∧
    (AddPeer c g now pk listeners t).2 = g ∧
    (AddPeer c g now pk listeners t).2.peerTree.entries = g.peerTree.entries ∧
    (pk, existing) ∈ (AddPeer c g now pk listeners t).2.peerTree.entries ∧
    (AddPeer c g now pk listeners t).2.treeChanged = g.treeChanged := by
  have hr : AddPeer c g now pk listeners t = (false, g) :=
    addPeer_limited c g now pk listeners t hinv.1 existing hmem h
  rw [hr]
  exact ⟨rfl, rfl, rfl, hmem, rfl⟩

/-- C12 at a concrete input: after `AddPeer(0x42, L, T)` with T = 10000 s, the
call `AddPeer(0x42, L', T + AnnounceRebroadcast/2)` made at once returns false
and the ring still holds the first entry. -/
theorem AddPeer_rebroadcast_limit_witness :
    (AddPeer exConstants exRingSelf exNow [66] [192, 168, 0, 1] 10000).1 = true ∧
    ((AddPeer exConstants exRingWith42 exNow [66] [192, 168, 0, 2] 10210).1 = false ∧
      (AddPeer exConstants exRingWith42 exNow [66] [192, 168, 0, 2] 10210).2
        = exRingWith42 ∧
      (AddPeer exConstants exRingWith42 exNow [66] [192, 168, 0, 2] 10210).2.peerTree.entries
        = exRingWith42.peerTree.entries ∧
      (([66] : Bytes),
        ({ publicKey := [66], listeners := [192, 168, 0, 1],
           timestamp := 10000000000000 } : peerEntry)) ∈
        (AddPeer exConstants exRingWith42 exNow [66] [192, 168, 0, 2]
          10210).2.peerTree.entries ∧
      (AddPeer exConstants exRingWith42 exNow [66] [192, 168, 0, 2] 10210).2.treeChanged
        = exRingWith42.treeChanged) :=
  ⟨by decide,
   AddPeer_rebroadcast_limit exConstants exRingWith42 exNow [66] [192, 168, 0, 2] 10210
     (by decide)
     { publicKey := [66], listeners := [192, 168, 0, 1], timestamp := 10000000000000 }
     (by decide) (by decide)⟩

/-! ## C13: expired announcements -/

/-- C13. An `AddPeer(pk, listeners, t)` call whose effective timestamp ts
satisfies now - ts >= AnnounceExpiry returns false and leaves the ring and
the treeChanged flag (all of `globalData`) unchanged; in particular, when
the clock is more than AnnounceExpiry + 1 s past the epoch,
`AddPeer(0x42, L, now - AnnounceExpiry - 1)` (in seconds) returns false. -/
theorem AddPeer_expiry (c : AnnounceConstants) (g : AnnounceData) (now : Nat)
    (pk listeners : Bytes) (t : Nat) :
    ((now : Int) - effectiveTimestamp now t ≥ c.announceExpiry →
      (AddPeer c g now pk listeners t).1 = false ∧
      (AddPeer c g now pk listeners t).2 = g ∧
      (AddPeer c g now pk listeners t).2.peerTree.entries = g.peerTree.entries ∧
      (AddPeer c g now pk listeners t).2.treeChanged = g.treeChanged) ∧
    (∀ expirySeconds : Nat,
      c.announceExpiry ≤ (expirySeconds : Int) * (nanosecondsPerSecond : Int) →
      expirySeconds + 1 < now / nanosecondsPerSecond →
      AddPeer c g now [66] listeners (now / nanosecondsPerSecond - expirySeconds - 1)
        = (false, g)) := by
  constructor
  · intro h
    have hr : AddPeer c g now pk listeners t = (false, g) :=
      addPeer_expired c g now pk listeners t h
    rw [hr]
    exact ⟨rfl, rfl, rfl, rfl⟩
  · intro expirySeconds hE hnow
    apply addPeer_expired
    have ht : now / nanosecondsPerSecond - expirySeconds - 1 ≠ 0 ∧
        now / nanosecondsPerSecond - expirySeconds - 1 ≤ now / nanosecondsPerSecond := by
      omega
    simp only [effectiveTimestamp, ht, ne_eq, not_false_eq_true, and_self, if_true]
    have hdiv : now / nanosecondsPerSecond * nanosecondsPerSecond ≤ now :=
      Nat.div_mul_le_self now nanosecondsPerSecond
    have hsub : (now / nanosecondsPerSecond - expirySeconds - 1) * nanosecondsPerSecond
        + (expirySeconds + 1) * nanosecondsPerSecond
        = now / nanosecondsPerSecond * nanosecondsPerSecond := by
      rw [← Nat.add_mul]
      congr 1
      omega
    have hpos : (0 : Int) < (nanosecondsPerSecond : Int) := by
      simp [nanosecondsPerSecond]
    push_cast at hE ⊢
    have h1 : ((now / nanosecondsPerSecond - expirySeconds - 1 : Nat) : Int)
        * (nanosecondsPerSecond : Int)
        + ((expirySeconds : Int) + 1) * (nanosecondsPerSecond : Int) ≤ (now : Int) := by
      have := congrArg (fun n : Nat => (n : Int)) hsub
      push_cast at this
      have h2 : ((now / nanosecondsPerSecond * nanosecondsPerSecond : Nat) : Int) ≤ (now : Int) :=
        Int.ofNat_le.mpr hdiv
      push_cast at h2
      linarith
    nlinarith

/-- C13 at the clock reading 10000 s with an expiry of 3300 s: the
announcement stamped 6699 s is refused, by the general statement and by its
instance. -/
theorem AddPeer_expiry_witness :
    ((AddPeer exConstants exRingFive exNow [66] [192, 168, 0, 1] 6699).1 = false ∧
      (AddPeer exConstants exRingFive exNow [66] [192, 168, 0, 1] 6699).2 = exRingFive ∧
      (AddPeer exConstants exRingFive exNow [66] [192, 168, 0, 1] 6699).2.peerTree.entries
        = exRingFive.peerTree.entries ∧
      (AddPeer exConstants exRingFive exNow [66] [192, 168, 0, 1] 6699).2.treeChanged
        = exRingFive.treeChanged) ∧
    AddPeer exConstants exRingFive exNow [66] [192, 168, 0, 1]
        (exNow / nanosecondsPerSecond - 3300 - 1) = (false, exRingFive) :=
  ⟨(AddPeer_expiry exConstants exRingFive exNow [66] [192, 168, 0, 1] 6699).1 (by decide),
   (AddPeer_expiry exConstants exRingFive exNow [66] [192, 168, 0, 1] 6699).2 3300
     (by decide) (by decide)⟩

/-! ## C14: the effective timestamp -/

/-- C14. The effective timestamp ts that `AddPeer` uses, for the expiry test,
for the rebroadcast test and in the stored entry, is the supplied
unixTimestamp converted to a time exactly when unixTimestamp is non-zero and
unixTimestamp <= now in seconds; when unixTimestamp is 0 or lies in the
future, ts is the current time. -/
theorem AddPeer_effective_timestamp (c : AnnounceConstants) (g : AnnounceData) (now : Nat)
    (pk listeners : Bytes) (t : Nat) (hinv : RingInv g) :
    (t ≠ 0 ∧ t ≤ now / nanosecondsPerSecond →
      effectiveTimestamp now t = ((t * nanosecondsPerSecond : Nat) : Int)) ∧
    (t = 0 ∨ now / nanosecondsPerSecond < t → effectiveTimestamp now t = (now : Int)) ∧
    (t ≤ now / nanosecondsPerSecond ↔ t * nanosecondsPerSecond ≤ now) ∧
    ((now : Int) - effectiveTimestamp now t ≥ c.announceExpiry →
      AddPeer c g now pk listeners t = (false, g)) ∧
    (∀ existing, (pk, existing) ∈ g.peerTree.entries →
      effectiveTimestamp now t - existing.timestamp < c.announceRebroadcast →
      AddPeer c g now pk listeners t = (false, g)) ∧
    (¬ (now : Int) - effectiveTimestamp now t ≥ c.announceExpiry →
      (∀ existing, (pk, existing) ∈ g.peerTree.entries →
        ¬ effectiveTimestamp now t - existing.timestamp < c.announceRebroadcast) →
      (pk, ({ publicKey := pk, listeners := listeners,
              timestamp := effectiveTimestamp now t } : peerEntry)) ∈
        (AddPeer c g now pk listeners t).2.peerTree.entries) := by
  refine ⟨fun h => ?_, fun h => ?_, ?_, fun h => ?_, fun existing hmem h => ?_,
    fun hexp hlim => ?_⟩
  · simp [effectiveTimestamp, h]
  · have : ¬ (t ≠ 0 ∧ t ≤ now / nanosecondsPerSecond) := by
      rcases h with h | h
      · simp [h]
      · intro hc
        omega
    simp [effectiveTimestamp, this]
  · exact Nat.le_div_iff_mul_le (by decide)
  · exact addPeer_expired c g now pk listeners t h
  · exact addPeer_limited c g now pk listeners t hinv.1 existing hmem h
  · have hr : AddPeer c g now pk listeners t = _ :=
      addPeer_stored c g now pk listeners t hinv.1 hexp hlim
    rw [hr]
    exact (Insert_entries_mem pk _ g.peerTree hinv.1 pk _).mpr (Or.inl ⟨rfl, rfl⟩)

/-- C14 at the clock reading 10000 s: the timestamps 9000 (past) and 10000
are taken as supplied, 0 and 10001 (future) give the clock reading, and the
entry stored for a new key carries the effective timestamp. -/
theorem AddPeer_effective_timestamp_witness :
    effectiveTimestamp exNow 9000 = 9000000000000 ∧
    effectiveTimestamp exNow 10000 = 10000000000000 ∧
    effectiveTimestamp exNow 0 = 10000000000000 ∧
    effectiveTimestamp (exNow + 5) 0 = 10000000000005 ∧
    effectiveTimestamp (exNow + 5) 10001 = 10000000000005 ∧
    (([66] : Bytes),
      ({ publicKey := [66], listeners := [192, 168, 0, 1],
         timestamp := effectiveTimestamp (exNow + 5) 10001 } : peerEntry)) ∈
      (AddPeer exConstants exRingFive (exNow + 5) [66] [192, 168, 0, 1]
        10001).2.peerTree.entries ∧
    (([66] : Bytes),
      ({ publicKey := [66], listeners := [192, 168, 0, 1],
         timestamp := 10000000000005 } : peerEntry)) ∈
      (AddPeer exConstants exRingFive (exNow + 5) [66] [192, 168, 0, 1]
        10001).2.peerTree.entries :=
  ⟨(AddPeer_effective_timestamp exConstants exRingFive exNow [66] [] 9000 (by decide)).1
     (by decide),
   by decide,
   (AddPeer_effective_timestamp exConstants exRingFive exNow [66] [] 0 (by decide)).2.1
     (Or.inl rfl),
   by decide,
   (AddPeer_effective_timestamp exConstants exRingFive (exNow + 5) [66] [] 10001
     (by decide)).2.1 (Or.inr (by decide)),
   (AddPeer_effective_timestamp exConstants exRingFive (exNow + 5) [66] [192, 168, 0, 1]
     10001 (by decide)).2.2.2.2.2 (by decide)
     (fun existing hmem => absurd (entries_key_mem _ _ existing hmem) (by decide)),
   by decide⟩

/-! ## C17: an accepted announcement -/

theorem Ordered_keys_nodup {V : Type} (t : Node Bytes V) (ho : t.Ordered pubkeyCompare) :
    t.keys.Nodup := by
  unfold Node.Ordered at ho
  exact ho.imp (fun h => pubkeyCompare_ne_of_lt _ _ h)

/-- C17. An `AddPeer(pk, listeners, t)` call with pk different from the node's
own public key that is neither expired nor rate-limited returns true;
afterwards the ring holds exactly one entry for pk (no key occurs twice),
with the given listeners and the effective timestamp ts, while the entry of every other key is
unchanged, and treeChanged is true when pk was not in the ring before and
keeps its previous value when pk was already present. No `AddPeer` call with
pk equal to the node's own key changes treeChanged. -/
theorem AddPeer_accepted (c : AnnounceConstants) (g : AnnounceData) (now : Nat)
    (pk listeners : Bytes) (t : Nat) (hinv : RingInv g) :
    (g.publicKey ≠ pk →
      ¬ (now : Int) - effectiveTimestamp now t ≥ c.announceExpiry →
      (∀ existing, (pk, existing) ∈ g.peerTree.entries →
        ¬ effectiveTimestamp now t - existing.timestamp < c.announceRebroadcast) →
      (AddPeer c g now pk listeners t).1 = true ∧
      (pk, ({ publicKey := pk, listeners := listeners,
              timestamp := effectiveTimestamp now t } : peerEntry)) ∈
        (AddPeer c g now pk listeners t).2.peerTree.entries ∧
      (AddPeer c g now pk listeners t).2.peerTree.keys.Nodup ∧
      (∀ e, (pk, e) ∈ (AddPeer c g now pk listeners t).2.peerTree.entries →
        e = { publicKey := pk, listeners := listeners,
              timestamp := effectiveTimestamp now t }) ∧
      (∀ k e, k ≠ pk →
        ((k, e) ∈ (AddPeer c g now pk listeners t).2.peerTree.entries ↔
          (k, e) ∈ g.peerTree.entries)) ∧
      (pk ∉ g.peerTree.keys → (AddPeer c g now pk listeners t).2.treeChanged = true) ∧
      (pk ∈ g.peerTree.keys →
        (AddPeer c g now pk listeners t).2.treeChanged = g.treeChanged)) ∧
    (AddPeer c g now g.publicKey listeners t).2.treeChanged = g.treeChanged := by
  constructor
  · intro hself hexp hlim
    have hr : AddPeer c g now pk listeners t = _ :=
      addPeer_stored c g now pk listeners t hinv.1 hexp hlim
    have hmemIff := Insert_entries_mem pk
      ({ publicKey := pk, listeners := listeners,
         timestamp := effectiveTimestamp now t } : peerEntry) g.peerTree hinv.1
    have hord := Insert_Ordered pk
      ({ publicKey := pk, listeners := listeners,
         timestamp := effectiveTimestamp now t } : peerEntry) g.peerTree hinv.1
    rw [hr]
    simp only
    refine ⟨by simpa using hself, (hmemIff pk _).mpr (Or.inl ⟨rfl, rfl⟩), ?_, ?_, ?_, ?_, ?_⟩
    · exact Ordered_keys_nodup _ hord
    · intro e he
      rcases (hmemIff pk e).mp he with ⟨-, h⟩ | ⟨h, -⟩
      · exact h
      · exact absurd rfl h
    · intro k e hk
      rw [hmemIff k e]
      constructor
      · rintro (⟨h, -⟩ | ⟨-, h⟩)
        · exact absurd h hk
        · exact h
      · exact fun h => Or.inr ⟨hk, h⟩
    · intro hk
      simp [hself, hk]
    · intro hk
      simp [hk]
  · rcases addPeer_cases c g now g.publicKey listeners t hinv.1 with h | h
    · have hr : AddPeer c g now g.publicKey listeners t = (false, g) := h
      rw [hr]
    · have hr : AddPeer c g now g.publicKey listeners t = _ := h
      rw [hr]
      simp

/-- C17 at concrete inputs on `exRingSelf` (own key `0x06`, treeChanged as the
five announcements left it): the new key `0x42` is accepted and stored, the
entry of `0x05` stays, and an announcement of the own key leaves treeChanged
alone. -/
theorem AddPeer_accepted_witness :
    ((AddPeer exConstants exRingSelf exNow [66] [192, 168, 0, 1] 10000).1 = true ∧
      (([66] : Bytes),
        ({ publicKey := [66], listeners := [192, 168, 0, 1],
           timestamp := effectiveTimestamp exNow 10000 } : peerEntry)) ∈
        (AddPeer exConstants exRingSelf exNow [66] [192, 168, 0, 1]
          10000).2.peerTree.entries ∧
      (AddPeer exConstants exRingSelf exNow [66] [192, 168, 0, 1]
        10000).2.peerTree.keys.Nodup ∧
      (∀ e, (([66] : Bytes), e) ∈
          (AddPeer exConstants exRingSelf exNow [66] [192, 168, 0, 1]
            10000).2.peerTree.entries →
        e = { publicKey := [66], listeners := [192, 168, 0, 1],
              timestamp := effectiveTimestamp exNow 10000 }) ∧
      (∀ k e, k ≠ ([66] : Bytes) →
        ((k, e) ∈ (AddPeer exConstants exRingSelf exNow [66] [192, 168, 0, 1]
            10000).2.peerTree.entries ↔
          (k, e) ∈ exRingSelf.peerTree.entries)) ∧
      (([66] : Bytes) ∉ exRingSelf.peerTree.keys →
        (AddPeer exConstants exRingSelf exNow [66] [192, 168, 0, 1] 10000).2.treeChanged
          = true) ∧
      (([66] : Bytes) ∈ exRingSelf.peerTree.keys →
        (AddPeer exConstants exRingSelf exNow [66] [192, 168, 0, 1] 10000).2.treeChanged
          = exRingSelf.treeChanged)) ∧
    (AddPeer exConstants exRingSelf exNow [66] [192, 168, 0, 1] 10000).2.peerTree.keys
      = [[1], [3], [5], [6], [7], [10], [66]] ∧
    (AddPeer exConstants exRingSelf (exNow + 500000000000) exRingSelf.publicKey
      [10, 0, 0, 2] 0).2.treeChanged = exRingSelf.treeChanged :=
  ⟨(AddPeer_accepted exConstants exRingSelf exNow [66] [192, 168, 0, 1] 10000
      (by decide)).1 (by decide) (by decide)
      (fun existing hmem => absurd (entries_key_mem _ _ existing hmem) (by decide)),
   by decide,
   (AddPeer_accepted exConstants exRingSelf (exNow + 500000000000) [66] [10, 0, 0, 2] 0
      (by decide)).2⟩

/-! ## Walking round the ring -/

theorem inorder_entry_mem {K V : Type} (t : Node K V) (l : Node K V) (k : K) (v : V)
    (ln : Int) (r : Node K V) (h : Node.node l k v ln r ∈ t.inorder) :
    (k, v) ∈ t.entries := by
  induction t with
  | nil => simp [Node.inorder] at h
  | node left key value leftNodes right ihl ihr =>
    simp only [Node.inorder, List.mem_append, List.mem_cons] at h
    simp only [Node.entries, List.mem_append, List.mem_cons]
    rcases h with h | h | h
    · exact Or.inl (ihl h)
    · simp only [Node.node.injEq] at h
      obtain ⟨-, rfl, rfl, -, -⟩ := h
      exact Or.inr (Or.inl rfl)
    · exact Or.inr (Or.inr (ihr h))

theorem head_key {V : Type} (L : List (Node Bytes V)) (hnil : Node.nil ∉ L) :
    (L.headD Node.nil).key? = (L.filterMap Node.key?)[0]? := by
  cases L with
  | nil => rfl
  | cons m rest =>
    cases m with
    | nil => exact absurd (List.mem_cons_self _ _) hnil
    | node l k v ln r => simp [Node.key?]

/-- The node after the one holding the j-th key holds the next key. -/
theorem nodeAfter_key {V : Type} (L : List (Node Bytes V)) (hnil : Node.nil ∉ L)
    (hnd : (L.filterMap Node.key?).Nodup) (j : Nat)
    (hj : j < (L.filterMap Node.key?).length) :
    (nodeAfter ((L.filterMap Node.key?)[j]) L).key? = (L.filterMap Node.key?)[j + 1]? := by
  induction L generalizing j with
  | nil => simp at hj
  | cons m rest ih =>
    simp only [List.mem_cons, not_or] at hnil
    cases m with
    | nil => exact absurd rfl hnil.1
    | node l k v ln r =>
      simp only [List.filterMap_cons, Node.key?, List.nodup_cons] at hnd hj ⊢
      cases j with
      | zero =>
        simp only [List.getElem_cons_zero, nodeAfter, Node.key?, if_true, zero_add,
          List.getElem?_cons_succ]
        exact head_key rest hnil.2
      | succ j' =>
        simp only [List.length_cons, Nat.add_lt_add_iff_right] at hj
        simp only [List.getElem_cons_succ, List.getElem?_cons_succ]
        have hne : ¬ k = (rest.filterMap Node.key?)[j'] := by
          intro hk
          exact hnd.1 (hk ▸ List.getElem_mem _)
        simp only [nodeAfter, Node.key?, Option.some.injEq, hne, if_false]
        exact ih hnil.2 hnd.2 j' hj

/-- On a well-formed ring `GetNext` of the j-th key returns the next key in
ascending order, and the first key after the last one. -/
theorem GetNext_step (g : AnnounceData) (now : Time) (hinv : RingInv g) (j : Nat)
    (k : Bytes) (hk : g.peerTree.keys[j]? = some k) :
    some (GetNext g now k).1 = g.peerTree.keys[(j + 1) % g.peerTree.keys.length]? := by
  have hkeys := keys_eq_inorder g.peerTree
  have hnil := inorder_ne_nil g.peerTree
  have hnd : (g.peerTree.inorder.filterMap Node.key?).Nodup := by
    rw [← hkeys]; exact Ordered_keys_nodup _ hinv.1
  obtain ⟨hj, hkj⟩ := List.getElem?_eq_some.mp hk
  have hmem : k ∈ g.peerTree.keys := hkj ▸ List.getElem_mem _
  obtain ⟨l0, v0, ln0, r0, hs⟩ := search_mem k g.peerTree 0 hinv.1 hmem
  have hj' : j < (g.peerTree.inorder.filterMap Node.key?).length := by rw [← hkeys]; exact hj
  have hkj' : (g.peerTree.inorder.filterMap Node.key?)[j] = k := by
    simp only [← hkeys]; exact hkj
  have hafter := nodeAfter_key g.peerTree.inorder hnil hnd j hj'
  rw [hkj'] at hafter
  have hfirst := head_key g.peerTree.inorder hnil
  rw [← hkeys] at hafter hfirst
  -- the node GetNext ends on
  have key_of : ∀ (f : Node Bytes peerEntry) (kf : Bytes), f ∈ g.peerTree.inorder →
      f.key? = some kf →
      (match f with
        | Node.nil => (([] : Bytes), ([] : Bytes), now, some Fault.ErrInvalidPublicKey)
        | Node.node _ _ peer _ _ =>
          (peer.publicKey, peer.listeners, peer.timestamp, none)).1 = kf := by
    intro f kf hf hkf
    cases f with
    | nil => simp [Node.key?] at hkf
    | node l k1 v ln r =>
      simp only [Node.key?, Option.some.injEq] at hkf
      subst hkf
      exact hinv.2 (k1, v) (inorder_entry_mem _ l k1 v ln r hf)
  by_cases hlast : j + 1 < g.peerTree.keys.length
  · rw [Nat.mod_eq_of_lt hlast, List.getElem?_eq_getElem hlast] at *
    cases hn : nodeAfter k g.peerTree.inorder with
    | nil => rw [hn] at hafter; simp [Node.key?] at hafter
    | node l k1 v ln r =>
      have hin := nodeAfter_mem k _ l k1 v ln r hn
      have := key_of _ _ hin (hn ▸ hafter)
      simp only [GetNext, Search, hs, Next, hn]
      exact congrArg some this
  · have hjn : j + 1 = g.peerTree.keys.length := by omega
    have hnone : nodeAfter k g.peerTree.inorder = Node.nil := by
      rw [List.getElem?_eq_none (by omega)] at hafter
      cases hn : nodeAfter k g.peerTree.inorder with
      | nil => rfl
      | node l k1 v ln r => rw [hn] at hafter; simp [Node.key?] at hafter
    rw [hjn, Nat.mod_self]
    have hpos : 0 < g.peerTree.keys.length := by omega
    rw [List.getElem?_eq_getElem hpos] at hfirst ⊢
    have hin : g.peerTree.inorder.headD Node.nil ∈ g.peerTree.inorder := by
      cases hi : g.peerTree.inorder with
      | nil => rw [hkeys, hi] at hpos; simp at hpos
      | cons m rest => simp
    have := key_of _ _ hin hfirst
    simp only [GetNext, Search, hs, Next, hnone, First]
    exact congrArg some this

theorem ringWalk_keys (g : AnnounceData) (now : Time) (hinv : RingInv g) (m j : Nat)
    (k : Bytes) (hk : g.peerTree.keys[j]? = some k) :
    some (ringWalk g now m k) = g.peerTree.keys[(j + m) % g.peerTree.keys.length]? := by
  induction m generalizing j k with
  | zero =>
    obtain ⟨hj, -⟩ := List.getElem?_eq_some.mp hk
    simp only [ringWalk, Nat.add_zero, Nat.mod_eq_of_lt hj, hk]
  | succ m ih =>
    have hstep := GetNext_step g now hinv j k hk
    have := ih ((j + 1) % g.peerTree.keys.length) (GetNext g now k).1 hstep.symm
    simp only [ringWalk]
    rw [this]
    congr 1
    rw [Nat.add_mod, Nat.mod_mod, ← Nat.add_mod]
    congr 1
    omega

theorem RingInv_of_peerTree (g g' : AnnounceData) (h : g'.peerTree = g.peerTree)
    (hinv : RingInv g) : RingInv g' := by
  unfold RingInv at hinv ⊢
  rw [h]
  exact hinv

theorem SetPeer_RingInv (c : AnnounceConstants) (g : AnnounceData) (now : Nat)
    (pk listeners : Bytes) (hinv : RingInv g) :
    RingInv (SetPeer c g now pk listeners).2 := by
  unfold SetPeer
  split_ifs
  · exact hinv
  · apply RingInv_of_peerTree _ _ rfl
    exact addPeer_RingInv c _ now pk listeners 0 (RingInv_of_peerTree g _ rfl hinv)

theorem applyRingOp_RingInv (c : AnnounceConstants) (g : AnnounceData) (op : RingOp)
    (hinv : RingInv g) : RingInv (applyRingOp c g op) := by
  cases op with
  | setPeer now pk l => exact SetPeer_RingInv c g now pk l hinv
  | addPeer now pk l t => exact addPeer_RingInv c g now pk l t hinv

/-- Every ring that calls of `SetPeer` and `AddPeer` build is well formed. -/
theorem runRingOps_RingInv (c : AnnounceConstants) (ops : List RingOp) (g : AnnounceData)
    (hinv : RingInv g) : RingInv (runRingOps c g ops) := by
  induction ops generalizing g with
  | nil => exact hinv
  | cons op ops ih => exact ih _ (applyRingOp_RingInv c g op hinv)

theorem initialAnnounceData_RingInv : RingInv initialAnnounceData := by decide

/-! ## C11: the ring order -/

/-- C11. Every ring built from the empty one by calls of `SetPeer` and
`AddPeer` is well formed, and on a well-formed ring with the non-empty key
set K, listed in ascending byte-lexicographic order, the walk that starts at
the i-th key k and repeats `GetNext` |K| times visits the keys after k in
ascending order, wraps once from the largest key to the smallest and goes on
in ascending order up to k: it visits every key of K exactly once and is back
at k after exactly |K| steps, not before. -/
theorem GetNext_ring_order (g : AnnounceData) (now : Time) (i : Nat) (k : Bytes)
    (hinv : RingInv g) (hk : g.peerTree.keys[i]? = some k) :
    (∀ (c : AnnounceConstants) (ops : List RingOp),
      RingInv (runRingOps c initialAnnounceData ops)) ∧
    g.peerTree.keys.Pairwise (fun a b => pubkeyCompare a b = -1) ∧
    (List.range g.peerTree.keys.length).map (fun m => ringWalk g now (m + 1) k)
      = g.peerTree.keys.drop (i + 1) ++ g.peerTree.keys.take (i + 1) ∧
    ((List.range g.peerTree.keys.length).map (fun m => ringWalk g now (m + 1) k)).Perm
      g.peerTree.keys ∧
    ((List.range g.peerTree.keys.length).map (fun m => ringWalk g now (m + 1) k)).Nodup ∧
    ringWalk g now g.peerTree.keys.length k = k ∧
    (∀ m, 0 < m → m < g.peerTree.keys.length → ringWalk g now m k ≠ k) := by
  obtain ⟨hi, hki⟩ := List.getElem?_eq_some.mp hk
  have hnd := Ordered_keys_nodup _ hinv.1
  have hwalk := ringWalk_keys g now hinv
  have hvisited : (List.range g.peerTree.keys.length).map
      (fun m => ringWalk g now (m + 1) k) = g.peerTree.keys.rotate (i + 1) := by
    apply List.ext_getElem
    · simp
    · intro m h1 h2
      simp only [List.getElem_map, List.getElem_range]
      rw [List.getElem_rotate]
      have := hwalk (m + 1) i k hk
      have hlt : (i + (m + 1)) % g.peerTree.keys.length < g.peerTree.keys.length :=
        Nat.mod_lt _ (by omega)
      rw [List.getElem?_eq_getElem hlt] at this
      have h3 := Option.some.inj this
      rw [h3]
      have hcomm : i + (m + 1) = m + (i + 1) := by omega
      simp only [hcomm]
  have hrot : g.peerTree.keys.rotate (i + 1)
      = g.peerTree.keys.drop (i + 1) ++ g.peerTree.keys.take (i + 1) :=
    List.rotate_eq_drop_append_take (by omega)
  refine ⟨fun c ops => runRingOps_RingInv c ops _ initialAnnounceData_RingInv, hinv.1,
    hvisited.trans hrot, ?_, ?_, ?_, ?_⟩
  · rw [hvisited]
    exact List.rotate_perm _ _
  · rw [hvisited]
    exact List.nodup_rotate.mpr hnd
  · have := hwalk g.peerTree.keys.length i k hk
    rw [Nat.add_mod_right, Nat.mod_eq_of_lt hi, hk] at this
    exact Option.some.inj this
  · intro m hm0 hmn heq
    have := hwalk m i k hk
    rw [heq, ← hk] at this
    have hlt : (i + m) % g.peerTree.keys.length < g.peerTree.keys.length :=
      Nat.mod_lt _ (by omega)
    rw [List.getElem?_eq_getElem hi, List.getElem?_eq_getElem hlt] at this
    have h3 := Option.some.inj this
    have h4 := (List.Nodup.getElem_inj_iff hnd).mp h3
    by_cases h5 : i + m < g.peerTree.keys.length
    · rw [Nat.mod_eq_of_lt h5] at h4
      omega
    · have h6 : (i + m) % g.peerTree.keys.length = i + m - g.peerTree.keys.length := by
        rw [Nat.mod_eq_sub_mod (by omega), Nat.mod_eq_of_lt (by omega)]
      omega

/-- C11 on the ring `0x01, 0x03, 0x05, 0x07, 0x0A` built by five `AddPeer`
calls: the walk from `0x07` visits `0x0A, 0x01, 0x03, 0x05, 0x07`. -/
theorem GetNext_ring_order_witness :
    exRingFive.peerTree.keys = [[1], [3], [5], [7], [10]] ∧
    ((∀ (c : AnnounceConstants) (ops : List RingOp),
        RingInv (runRingOps c initialAnnounceData ops)) ∧
      exRingFive.peerTree.keys.Pairwise (fun a b => pubkeyCompare a b = -1) ∧
      (List.range exRingFive.peerTree.keys.length).map
          (fun m => ringWalk exRingFive 0 (m + 1) [7])
        = exRingFive.peerTree.keys.drop (3 + 1) ++ exRingFive.peerTree.keys.take (3 + 1) ∧
      ((List.range exRingFive.peerTree.keys.length).map
          (fun m => ringWalk exRingFive 0 (m + 1) [7])).Perm exRingFive.peerTree.keys ∧
      ((List.range exRingFive.peerTree.keys.length).map
          (fun m => ringWalk exRingFive 0 (m + 1) [7])).Nodup ∧
      ringWalk exRingFive 0 exRingFive.peerTree.keys.length [7] = [7] ∧
      (∀ m, 0 < m → m < exRingFive.peerTree.keys.length →
        ringWalk exRingFive 0 m [7] ≠ [7])) ∧
    (List.range 5).map (fun m => ringWalk exRingFive 0 (m + 1) [7])
      = [[10], [1], [3], [5], [7]] :=
  ⟨by decide, GetNext_ring_order exRingFive 0 3 [7] (by decide) (by decide), by decide⟩

/-! ## C16: the node's own entry -/

theorem GetNext_absent (g : AnnounceData) (now : Time) (hinv : RingInv g) (pk : Bytes)
    (hpk : pk ∉ g.peerTree.keys) (hne : 0 < g.peerTree.keys.length) :
    some (GetNext g now pk).1 = g.peerTree.keys[0]? := by
  have hkeys := keys_eq_inorder g.peerTree
  have hnil := inorder_ne_nil g.peerTree
  have hs := search_not_mem pk g.peerTree 0 hpk
  have hfirst := head_key g.peerTree.inorder hnil
  rw [← hkeys, List.getElem?_eq_getElem hne] at hfirst
  rw [List.getElem?_eq_getElem hne]
  cases hi : g.peerTree.inorder with
  | nil => rw [hkeys, hi] at hne; simp at hne
  | cons m rest =>
    rw [hi] at hfirst
    cases m with
    | nil => simp [Node.key?] at hfirst
    | node l k1 v ln r =>
      simp only [List.headD_cons, Node.key?, Option.some.injEq] at hfirst
      have hin : Node.node l k1 v ln r ∈ g.peerTree.inorder := by rw [hi]; simp
      have hv := hinv.2 (k1, v) (inorder_entry_mem _ l k1 v ln r hin)
      simp only [GetNext, Search, hs, First, hi, List.headD_cons]
      rw [← hfirst]
      exact congrArg some hv

/-- From every public key the walk reaches every key of a well-formed ring
within one round. -/
theorem ringWalk_reaches (g : AnnounceData) (now : Time) (hinv : RingInv g)
    (target : Bytes) (ht : target ∈ g.peerTree.keys) (pk0 : Bytes) :
    ∃ m, 0 < m ∧ m ≤ g.peerTree.keys.length ∧ ringWalk g now m pk0 = target := by
  obtain ⟨b, hb, hkb⟩ := List.getElem_of_mem ht
  have hkb' : g.peerTree.keys[b]? = some target := by
    rw [List.getElem?_eq_getElem hb, hkb]
  by_cases hmem : pk0 ∈ g.peerTree.keys
  · obtain ⟨a, ha, hka⟩ := List.getElem_of_mem hmem
    have hka' : g.peerTree.keys[a]? = some pk0 := by
      rw [List.getElem?_eq_getElem ha, hka]
    by_cases hab : a < b
    · refine ⟨b - a, by omega, by omega, ?_⟩
      have := ringWalk_keys g now hinv (b - a) a pk0 hka'
      have h1 : (a + (b - a)) % g.peerTree.keys.length = b := by
        rw [show a + (b - a) = b by omega, Nat.mod_eq_of_lt hb]
      rw [h1, hkb'] at this
      exact Option.some.inj this
    · refine ⟨b + g.peerTree.keys.length - a, by omega, by omega, ?_⟩
      have := ringWalk_keys g now hinv (b + g.peerTree.keys.length - a) a pk0 hka'
      have h1 : (a + (b + g.peerTree.keys.length - a)) % g.peerTree.keys.length = b := by
        rw [show a + (b + g.peerTree.keys.length - a) = b + g.peerTree.keys.length by omega,
          Nat.add_mod_right, Nat.mod_eq_of_lt hb]
      rw [h1, hkb'] at this
      exact Option.some.inj this
  · refine ⟨b + 1, by omega, by omega, ?_⟩
    have h0 := GetNext_absent g now hinv pk0 hmem (by omega)
    have := ringWalk_keys g now hinv b 0 (GetNext g now pk0).1 h0.symm
    rw [Nat.zero_add, Nat.mod_eq_of_lt hb, hkb'] at this
    simp only [ringWalk]
    exact Option.some.inj this

theorem addPeer_keys_mono (c : AnnounceConstants) (g : AnnounceData) (now : Nat)
    (pk listeners : Bytes) (t : Nat) (ho : g.peerTree.Ordered pubkeyCompare) (k : Bytes)
    (hk : k ∈ g.peerTree.keys) : k ∈ (addPeer c g now pk listeners t).2.peerTree.keys := by
  rcases addPeer_cases c g now pk listeners t ho with h | h
  · rw [h]; exact hk
  · rw [h]
    exact (Insert_keys_mem pk _ g.peerTree k).mpr (Or.inr hk)

/-- Once `SetPeer` has been made, later calls keep the node's own key, and no
key leaves the ring. -/
theorem runRingOps_self (c : AnnounceConstants) (ops : List RingOp) (g : AnnounceData)
    (hinv : RingInv g) (hset : g.peerSet = true) (k : Bytes) (hk : k ∈ g.peerTree.keys) :
    (runRingOps c g ops).publicKey = g.publicKey ∧
    (runRingOps c g ops).peerSet = true ∧
    k ∈ (runRingOps c g ops).peerTree.keys := by
  induction ops generalizing g with
  | nil => exact ⟨rfl, hset, hk⟩
  | cons op ops ih =>
    have hinv' := applyRingOp_RingInv c g op hinv
    have hstep : (applyRingOp c g op).publicKey = g.publicKey ∧
        (applyRingOp c g op).peerSet = true ∧ k ∈ (applyRingOp c g op).peerTree.keys := by
      cases op with
      | setPeer now pk l =>
        have hr : applyRingOp c g (RingOp.setPeer now pk l) = g := by
          simp [applyRingOp, SetPeer, hset]
        rw [hr]
        exact ⟨rfl, hset, hk⟩
      | addPeer now pk l t =>
        have h1 := addPeer_publicKey c g now pk l t
        exact ⟨h1.1, h1.2.trans hset, addPeer_keys_mono c g now pk l t hinv.1 k hk⟩
    obtain ⟨h1, h2, h3⟩ := ih (applyRingOp c g op) hinv' hstep.2.1 hstep.2.2
    exact ⟨h1.trans hstep.1, h2, h3⟩

theorem addPeer_self_false (c : AnnounceConstants) (g : AnnounceData) (now : Nat)
    (listeners : Bytes) (t : Nat) (ho : g.peerTree.Ordered pubkeyCompare) :
    (addPeer c g now g.publicKey listeners t).1 = false := by
  rcases addPeer_cases c g now g.publicKey listeners t ho with h | h
  · rw [h]
  · rw [h]; simp

/-- C16. After a successful `SetPeer(selfPk, L)` the ring contains an entry
for selfPk (AnnounceExpiry being a positive duration), and whatever calls
follow, every `AddPeer(selfPk, listeners, t)`, for all listeners, timestamps
and clock readings, returns false, whether it is rejected or inserts or
updates the self entry; the self entry stays in the ring and the `GetNext`
walk reaches it from every public key within one round. -/
theorem SetPeer_self_suppression (c : AnnounceConstants) (g : AnnounceData) (now : Nat)
    (selfPk listeners : Bytes) (hinv : RingInv g) (hE : 0 < c.announceExpiry)
    (hok : (SetPeer c g now selfPk listeners).1 = none) :
    (SetPeer c g now selfPk listeners).2.publicKey = selfPk ∧
    selfPk ∈ (SetPeer c g now selfPk listeners).2.peerTree.keys ∧
    (∀ ops : List RingOp,
      selfPk ∈ (runRingOps c (SetPeer c g now selfPk listeners).2 ops).peerTree.keys ∧
      (∀ (now1 : Nat) (l : Bytes) (t : Nat),
        (AddPeer c (runRingOps c (SetPeer c g now selfPk listeners).2 ops)
          now1 selfPk l t).1 = false ∧
        selfPk ∈ (AddPeer c (runRingOps c (SetPeer c g now selfPk listeners).2 ops)
          now1 selfPk l t).2.peerTree.keys) ∧
      (∀ (clock : Time) (pk0 : Bytes), ∃ m, 0 < m ∧
        m ≤ (runRingOps c (SetPeer c g now selfPk listeners).2 ops).peerTree.keys.length ∧
        ringWalk (runRingOps c (SetPeer c g now selfPk listeners).2 ops) clock m pk0
          = selfPk)) := by
  have hunset : g.peerSet = false := by
    by_contra hc
    have : g.peerSet = true := by simpa using hc
    simp [SetPeer, this] at hok
  have hinv1 : RingInv (SetPeer c g now selfPk listeners).2 :=
    SetPeer_RingInv c g now selfPk listeners hinv
  -- the state `addPeer` is called on inside `SetPeer`
  have hinv0 : RingInv { g with publicKey := selfPk, listeners := listeners, peerSet := true } :=
    RingInv_of_peerTree g _ rfl hinv
  have hpk := addPeer_publicKey c
    { g with publicKey := selfPk, listeners := listeners, peerSet := true } now selfPk listeners 0
  have hself : (SetPeer c g now selfPk listeners).2.publicKey = selfPk := by
    simp only [SetPeer, hunset, Bool.false_eq_true, if_false]
    exact hpk.1
  have hset : (SetPeer c g now selfPk listeners).2.peerSet = true := by
    simp only [SetPeer, hunset, Bool.false_eq_true, if_false]
    exact hpk.2
  have hmem : selfPk ∈ (SetPeer c g now selfPk listeners).2.peerTree.keys := by
    simp only [SetPeer, hunset, Bool.false_eq_true, if_false]
    by_cases hlim : ∃ existing, (selfPk, existing) ∈ g.peerTree.entries ∧
        effectiveTimestamp now 0 - existing.timestamp < c.announceRebroadcast
    · obtain ⟨existing, he, hl⟩ := hlim
      rw [addPeer_limited c _ now selfPk listeners 0 hinv0.1 existing he hl]
      exact entries_key_mem _ _ _ he
    · have hexp : ¬ (now : Int) - effectiveTimestamp now 0 ≥ c.announceExpiry := by
        simp only [effectiveTimestamp, ne_eq, not_true_eq_false, false_and, if_false, sub_self]
        omega
      rw [addPeer_stored c _ now selfPk listeners 0 hinv0.1 hexp
        (fun existing he hl => hlim ⟨existing, he, hl⟩)]
      exact (Insert_keys_mem selfPk _ g.peerTree selfPk).mpr (Or.inl rfl)
  refine ⟨hself, hmem, fun ops => ?_⟩
  obtain ⟨h1, -, h3⟩ := runRingOps_self c ops _ hinv1 hset selfPk hmem
  have hinv2 := runRingOps_RingInv c ops _ hinv1
  have hself2 : (runRingOps c (SetPeer c g now selfPk listeners).2 ops).publicKey = selfPk :=
    h1.trans hself
  refine ⟨h3, fun now1 l t => ⟨?_, ?_⟩, fun clock pk0 => ?_⟩
  · have := addPeer_self_false c _ now1 l t hinv2.1
    rw [hself2] at this
    exact this
  · exact addPeer_keys_mono c _ now1 selfPk l t hinv2.1 selfPk h3
  · exact ringWalk_reaches _ clock hinv2 selfPk h3 pk0

/-- C16 on `exRingFive`: `SetPeer(0x06, L)` succeeds and puts `0x06` into the
ring; after two more announcements an `AddPeer(0x06, ...)` made 1000 s later
updates the self entry and returns false, and the walk from `0x42` reaches
`0x06` in four steps. -/
theorem SetPeer_self_suppression_witness :
    ((SetPeer exConstants exRingFive exNow [6] [10, 0, 0, 1]).2.publicKey = [6] ∧
      ([6] : Bytes) ∈ (SetPeer exConstants exRingFive exNow [6] [10, 0, 0, 1]).2.peerTree.keys ∧
      (∀ ops : List RingOp,
        ([6] : Bytes) ∈ (runRingOps exConstants
          (SetPeer exConstants exRingFive exNow [6] [10, 0, 0, 1]).2 ops).peerTree.keys ∧
        (∀ (now1 : Nat) (l : Bytes) (t : Nat),
          (AddPeer exConstants (runRingOps exConstants
            (SetPeer exConstants exRingFive exNow [6] [10, 0, 0, 1]).2 ops)
            now1 [6] l t).1 = false ∧
          ([6] : Bytes) ∈ (AddPeer exConstants (runRingOps exConstants
            (SetPeer exConstants exRingFive exNow [6] [10, 0, 0, 1]).2 ops)
            now1 [6] l t).2.peerTree.keys) ∧
        (∀ (clock : Time) (pk0 : Bytes), ∃ m, 0 < m ∧
          m ≤ (runRingOps exConstants
            (SetPeer exConstants exRingFive exNow [6] [10, 0, 0, 1]).2 ops).peerTree.keys.length ∧
          ringWalk (runRingOps exConstants
            (SetPeer exConstants exRingFive exNow [6] [10, 0, 0, 1]).2 ops) clock m pk0
            = [6]))) ∧
    (AddPeer exConstants exRingWith42 (exNow + 1000000000000) [6] [10, 0, 0, 9] 0).1 = false ∧
    (([6] : Bytes),
      ({ publicKey := [6], listeners := [10, 0, 0, 9],
         timestamp := 11000000000000 } : peerEntry)) ∈
      (AddPeer exConstants exRingWith42 (exNow + 1000000000000) [6] [10, 0, 0, 9]
        0).2.peerTree.entries ∧
    ringWalk exRingWith42 0 4 [66] = [6] :=
  ⟨SetPeer_self_suppression exConstants exRingFive exNow [6] [10, 0, 0, 1]
     (by decide) (by decide) (by decide),
   by decide, by decide, by decide⟩

/-! ## C15: the same announcement twice -/

/-- Between two clock readings the effective timestamp of the same argument
advances by no more than the clock. -/
theorem effectiveTimestamp_advance (n1 n2 t : Nat) (h : n1 ≤ n2) :
    effectiveTimestamp n2 t - effectiveTimestamp n1 t ≤ (n2 : Int) - (n1 : Int) := by
  have hdiv : n1 / nanosecondsPerSecond ≤ n2 / nanosecondsPerSecond :=
    Nat.div_le_div_right h
  have hle : ∀ n : Nat, t ≤ n / nanosecondsPerSecond → t * nanosecondsPerSecond ≤ n :=
    fun n hn => (Nat.le_div_iff_mul_le (by decide)).mp hn
  unfold effectiveTimestamp
  by_cases h1 : t ≠ 0 ∧ t ≤ n1 / nanosecondsPerSecond
  · have h2 : t ≠ 0 ∧ t ≤ n2 / nanosecondsPerSecond := ⟨h1.1, le_trans h1.2 hdiv⟩
    rw [if_pos h1, if_pos h2]
    simp only [sub_self]
    linarith [Int.ofNat_le.mpr h]
  · by_cases h2 : t ≠ 0 ∧ t ≤ n2 / nanosecondsPerSecond
    · have := Int.ofNat_le.mpr (hle n2 h2.2)
      rw [if_neg h1, if_pos h2]
      linarith
    · rw [if_neg h1, if_neg h2]

/-- C15, as the code has it. When `AddPeer(pk, listeners, t)` is called twice
in a row with the same arguments (no other operation in between, less than
AnnounceRebroadcast of clock time elapsing, AnnounceRebroadcast > 0), the
second call returns false and leaves the ring as the first call left it,
provided the first call was not turned down by the rebroadcast limit (it
stored its entry, or it was refused as expired) or both calls have the same
effective timestamp. -/
theorem AddPeer_twice (c : AnnounceConstants) (g : AnnounceData) (n1 n2 : Nat)
    (pk listeners : Bytes) (t : Nat) (hinv : RingInv g) (hclock : n1 ≤ n2)
    (helapsed : (n2 : Int) - (n1 : Int) < c.announceRebroadcast)
    (hcase : (∀ existing, (pk, existing) ∈ g.peerTree.entries →
        ¬ effectiveTimestamp n1 t - existing.timestamp < c.announceRebroadcast) ∨
      (n1 : Int) - effectiveTimestamp n1 t ≥ c.announceExpiry ∨
      effectiveTimestamp n2 t = effectiveTimestamp n1 t) :
    (AddPeer c (AddPeer c g n1 pk listeners t).2 n2 pk listeners t).1 = false ∧
    (AddPeer c (AddPeer c g n1 pk listeners t).2 n2 pk listeners t).2
      = (AddPeer c g n1 pk listeners t).2 := by
  have hadv := effectiveTimestamp_advance n1 n2 t hclock
  have key : AddPeer c (AddPeer c g n1 pk listeners t).2 n2 pk listeners t
      = (false, (AddPeer c g n1 pk listeners t).2) := by
    by_cases hexp : (n1 : Int) - effectiveTimestamp n1 t ≥ c.announceExpiry
    · have h1 : AddPeer c g n1 pk listeners t = (false, g) :=
        addPeer_expired c g n1 pk listeners t hexp
      rw [h1]
      exact addPeer_expired c g n2 pk listeners t (by linarith)
    · by_cases hlim : ∃ existing, (pk, existing) ∈ g.peerTree.entries ∧
          effectiveTimestamp n1 t - existing.timestamp < c.announceRebroadcast
      · obtain ⟨existing, he, hl⟩ := hlim
        have h1 : AddPeer c g n1 pk listeners t = (false, g) :=
          addPeer_limited c g n1 pk listeners t hinv.1 existing he hl
        rw [h1]
        have hsame : effectiveTimestamp n2 t = effectiveTimestamp n1 t := by
          rcases hcase with h | h | h
          · exact absurd hl (h existing he)
          · exact absurd h hexp
          · exact h
        exact addPeer_limited c g n2 pk listeners t hinv.1 existing he (by rw [hsame]; exact hl)
      · have h1 : AddPeer c g n1 pk listeners t = _ :=
          addPeer_stored c g n1 pk listeners t hinv.1 hexp
            (fun existing he hl => hlim ⟨existing, he, hl⟩)
        have hinv1 : RingInv (AddPeer c g n1 pk listeners t).2 :=
          addPeer_RingInv c g n1 pk listeners t hinv
        have hmem : (pk, (⟨pk, listeners, effectiveTimestamp n1 t⟩ : peerEntry)) ∈
            (AddPeer c g n1 pk listeners t).2.peerTree.entries := by
          rw [h1]
          exact (Insert_entries_mem pk _ g.peerTree hinv.1 pk _).mpr (Or.inl ⟨rfl, rfl⟩)
        exact addPeer_limited c _ n2 pk listeners t hinv1.1 _ hmem (by simp only; linarith)
  rw [key]
  exact ⟨rfl, rfl⟩

/-- C15 on `exRingSelf`: the new key `0x42`, announced with timestamp 0 at
10000 s and again 100 s later, is stored by the first call and refused by
the second, which leaves the ring as it was. -/
theorem AddPeer_twice_witness :
    (AddPeer exConstants exRingSelf exNow [66] [192, 168, 0, 1] 0).1 = true ∧
    (AddPeer exConstants
        (AddPeer exConstants exRingSelf exNow [66] [192, 168, 0, 1] 0).2
        (exNow + 100000000000) [66] [192, 168, 0, 1] 0).1 = false ∧
    (AddPeer exConstants
        (AddPeer exConstants exRingSelf exNow [66] [192, 168, 0, 1] 0).2
        (exNow + 100000000000) [66] [192, 168, 0, 1] 0).2
      = (AddPeer exConstants exRingSelf exNow [66] [192, 168, 0, 1] 0).2 :=
  ⟨by decide,
   AddPeer_twice exConstants exRingSelf exNow (exNow + 100000000000) [66] [192, 168, 0, 1] 0
     (by decide) (by decide) (by decide)
     (Or.inl (fun existing hmem => absurd (entries_key_mem _ _ existing hmem) (by decide)))⟩

/-- C15 as stated fails when the first call is turned down by the rebroadcast
limit and the effective timestamp comes from the clock: the ring holds `0x42`
stamped 10000 s and AnnounceRebroadcast is 420 s; `AddPeer(0x42, L, 0)` at
10419 s returns false and leaves the ring alone, and the same call one second
later, at 10420 s, is accepted and returns true. -/
theorem AddPeer_twice_rebroadcast_boundary :
    RingInv exRingWith42 ∧
    0 < exConstants.announceRebroadcast ∧
    ((exNow + 420000000000 : Nat) : Int) - ((exNow + 419000000000 : Nat) : Int)
      < exConstants.announceRebroadcast ∧
    (AddPeer exConstants exRingWith42 (exNow + 419000000000) [66] [192, 168, 0, 1] 0).1
      = false ∧
    (AddPeer exConstants exRingWith42 (exNow + 419000000000) [66] [192, 168, 0, 1]
      0).2.peerTree.entries = exRingWith42.peerTree.entries ∧
    (AddPeer exConstants
        (AddPeer exConstants exRingWith42 (exNow + 419000000000) [66] [192, 168, 0, 1] 0).2
        (exNow + 420000000000) [66] [192, 168, 0, 1] 0).1 = true ∧
    (([66] : Bytes),
      ({ publicKey := [66], listeners := [192, 168, 0, 1],
         timestamp := 10420000000000 } : peerEntry)) ∈
      (AddPeer exConstants
        (AddPeer exConstants exRingWith42 (exNow + 419000000000) [66] [192, 168, 0, 1] 0).2
        (exNow + 420000000000) [66] [192, 168, 0, 1] 0).2.peerTree.entries := by
  refine ⟨by decide, by decide, by decide, by decide, by decide, by decide, by decide⟩

/-! ## C18: search returns the node and its rank -/

theorem keys_length {K V : Type} (t : Node K V) : t.keys.length = t.size := by
  induction t with
  | nil => rfl
  | node left key value leftNodes right ihl ihr =>
    simp [Node.keys, Node.size, ihl, ihr]
    omega

theorem countP_all {K : Type} (p : K → Bool) (l : List K) (h : ∀ a ∈ l, p a = true) :
    l.countP p = l.length := by
  induction l with
  | nil => rfl
  | cons a rest ih =>
    rw [List.countP_cons_of_pos _ _ (h a (List.mem_cons_self _ _)),
      ih (fun b hb => h b (List.mem_cons_of_mem _ hb))]
    rfl

theorem countP_none {K : Type} (p : K → Bool) (l : List K) (h : ∀ a ∈ l, p a = false) :
    l.countP p = 0 := by
  induction l with
  | nil => rfl
  | cons a rest ih =>
    rw [List.countP_cons_of_neg _ _ (by simp [h a (List.mem_cons_self _ _)]),
      ih (fun b hb => h b (List.mem_cons_of_mem _ hb))]

/-- The result of `search` on an ordered, counted tree, for any start index. -/
theorem search_spec {K V : Type} (compare : K → K → Int) (hc : ThreeWay compare)
    (key : K) (t : Node K V) (index : Int) (ho : t.Ordered compare) (hn : t.Counted) :
    (key ∈ t.keys →
      ∃ l v ln r, search compare key t index
          = (Node.node l key v ln r, index + (t.rank compare key : Int)) ∧
        Node.node l key v ln r ∈ t.inorder) ∧
    (key ∉ t.keys → search compare key t index = (Node.nil, -1)) := by
  induction t generalizing index with
  | nil =>
    exact ⟨fun h => absurd h (by simp [Node.keys]), fun _ => rfl⟩
  | node left k v leftNodes right ihl ihr =>
    obtain ⟨hln, hcl, hcr⟩ := hn
    have ho' := ho
    simp only [Node.Ordered, Node.keys, List.pairwise_append, List.pairwise_cons,
      List.mem_cons, forall_eq_or_imp] at ho'
    obtain ⟨hol, ⟨hkr, hor⟩, hlr⟩ := ho'
    have hrefl : ∀ a : K, compare a a ≠ 1 ∧ compare a a ≠ -1 := fun a => (hc.2 a a).mpr rfl
    have hanti : ∀ a b : K, compare a b = -1 → compare b a ≠ -1 := by
      intro a b hab hba
      have := (hc.1 b a).mp hba
      rw [hab] at this
      exact absurd this (by decide)
    constructor
    · intro hmem
      simp only [Node.keys, List.mem_append, List.mem_cons] at hmem
      simp only [search, Node.rank, Node.keys, List.countP_append, List.countP_cons]
      rcases hmem with hmem | hmem | hmem
      · -- the key lies in the left subtree
        have hlt : compare key k = -1 := (hlr key hmem).1
        have h1 : compare k key = 1 := (hc.1 key k).mp hlt
        obtain ⟨l, v1, ln, r, hs, hin⟩ := (ihl index hol hcl).1 hmem
        refine ⟨l, v1, ln, r, ?_, ?_⟩
        · simp only [h1, if_true, hs, Node.rank]
          have hk0 : decide (compare k key = -1) = false := by simp [h1]
          have hr0 : right.keys.countP (fun a => decide (compare a key = -1)) = 0 :=
            countP_none _ _ (fun b hb => by
              have := hanti key b ((hlr key hmem).2 b hb)
              simp [this])
          simp [hk0, hr0]
        · simp only [Node.inorder, List.mem_append]
          exact Or.inl hin
      · -- the key is at this node
        subst hmem
        have h1 := (hrefl key).1
        have h2 := (hrefl key).2
        refine ⟨left, v, leftNodes, right, ?_, ?_⟩
        · simp only [h1, h2, if_false]
          have hl0 : left.keys.countP (fun a => decide (compare a key = -1)) = left.keys.length :=
            countP_all _ _ (fun a ha => by simp [(hlr a ha).1])
          have hr0 : right.keys.countP (fun a => decide (compare a key = -1)) = 0 :=
            countP_none _ _ (fun b hb => by
              have := hanti key b (hkr b hb)
              simp [this])
          simp [hl0, hr0, h2, hln, keys_length]
        · simp [Node.inorder]
      · -- the key lies in the right subtree
        have h2 : compare k key = -1 := hkr key hmem
        have h1 : compare k key ≠ 1 := by rw [h2]; decide
        obtain ⟨l, v1, ln, r, hs, hin⟩ := (ihr (index + leftNodes + 1) hor hcr).1 hmem
        refine ⟨l, v1, ln, r, ?_, ?_⟩
        · simp only [h1, h2, if_false, if_true, hs, Node.rank]
          have hl0 : left.keys.countP (fun a => decide (compare a key = -1)) = left.keys.length :=
            countP_all _ _ (fun a ha => by simp [(hlr a ha).2 key hmem])
          simp [hl0, h2, hln, keys_length]
          omega
        · simp only [Node.inorder, List.mem_append, List.mem_cons]
          exact Or.inr (Or.inr hin)
    · intro hmem
      simp only [Node.keys, List.mem_append, List.mem_cons, not_or] at hmem
      simp only [search]
      split_ifs with h1 h2
      · exact (ihl index hol hcl).2 hmem.1
      · exact (ihr _ hor hcr).2 hmem.2.2
      · exact absurd ((hc.2 k key).mp ⟨h1, h2⟩).symm hmem.2.1

theorem pubkeyCompare_ThreeWay : ThreeWay pubkeyCompare := by
  constructor
  · intro a b
    exact (bytesCompare_swap b a).symm
  · intro a b
    constructor
    · rintro ⟨h1, h2⟩
      rcases bytesCompare_range a b with h | h | h
      · exact absurd h h2
      · exact (bytesCompare_eq_zero a b).mp h
      · exact absurd h h1
    · rintro rfl
      have h0 : pubkeyCompare a a = 0 := bytesCompare_self a
      rw [h0]
      exact ⟨by decide, by decide⟩

/-- C18. On a tree that is ordered by the key comparison and in which each
node's leftNodes field equals the number of nodes in its left subtree,
`Search` of a key that is in the tree returns the node holding that key
together with its 0-based in-order rank, the number of keys in the tree
strictly smaller than it; `Search` of a key that is not in the tree returns
no node and index -1. -/
theorem Search_rank {K V : Type} (compare : K → K → Int) (hc : ThreeWay compare)
    (t : Node K V) (key : K) (ho : t.Ordered compare) (hn : t.Counted) :
    (key ∈ t.keys →
      ∃ l v ln r, Search compare t key
          = (Node.node l key v ln r, (t.rank compare key : Int)) ∧
        Node.node l key v ln r ∈ t.inorder) ∧
    (key ∉ t.keys → Search compare t key = (Node.nil, -1)) := by
  have h := search_spec compare hc key t 0 ho hn
  simp only [zero_add] at h
  exact h

/-- C18 on the peer tree of `exRingFive` (keys `0x01, 0x03, 0x05, 0x07, 0x0A`):
`0x07` is found with rank 3, `0x01` with rank 0, and the absent key `0x06`
gives no node and -1. -/
theorem Search_rank_witness :
    (∃ l v ln r, Search pubkeyCompare exRingFive.peerTree [7]
        = (Node.node l [7] v ln r, (exRingFive.peerTree.rank pubkeyCompare [7] : Int)) ∧
      Node.node l [7] v ln r ∈ exRingFive.peerTree.inorder) ∧
    exRingFive.peerTree.rank pubkeyCompare [7] = 3 ∧
    (Search pubkeyCompare exRingFive.peerTree [7]).2 = 3 ∧
    (Search pubkeyCompare exRingFive.peerTree [1]).2 = 0 ∧
    Search pubkeyCompare exRingFive.peerTree [6] = (Node.nil, -1) ∧
    (Search pubkeyCompare exRingFive.peerTree [6]).2 = -1 :=
  ⟨(Search_rank pubkeyCompare pubkeyCompare_ThreeWay exRingFive.peerTree [7]
      (by decide) (by decide)).1 (by decide),
   by decide, by decide, by decide,
   (Search_rank pubkeyCompare pubkeyCompare_ThreeWay exRingFive.peerTree [6]
      (by decide) (by decide)).2 (by decide),
   by decide⟩

/-! ## C19: digests at and below genesis, and blocks that are not there -/

/-- C19. For every block number n <= the genesis block number,
`DigestForBlock(n)` returns without error the test genesis digest when the
mode flag is testing and the live genesis digest otherwise, whatever the
chain head, the block ring and storage hold; for every n greater than
genesis that is found neither in the block ring nor in the Blocks pool,
`DigestForBlock(n)` fails with `ErrBlockNotFound`. -/
theorem DigestForBlock_genesis_and_missing {Own Pend : Type} (env : Env Own Pend)
    (genesis : Genesis) (s : State Own Pend) (number : Nat) :
    (number ≤ genesis.BlockNumber →
      (env.testing = true →
        DigestForBlock env genesis s number = Except.ok genesis.TestGenesisDigest) ∧
      (env.testing = false →
        DigestForBlock env genesis s number = Except.ok genesis.LiveGenesisDigest) ∧
      (∀ s1 : State Own Pend,
        DigestForBlock env genesis s1 number = DigestForBlock env genesis s number)) ∧
    (genesis.BlockNumber < number →
      blockringDigestForBlock s.ring number = none →
      s.pools.Blocks.Get (putUint64 number) = none →
      DigestForBlock env genesis s number = Except.error Fault.ErrBlockNotFound) := by
  constructor
  · intro h
    refine ⟨fun ht => ?_, fun ht => ?_, fun s1 => ?_⟩
    · simp [DigestForBlock, h, ht]
    · simp [DigestForBlock, h, ht]
    · simp [DigestForBlock, h]
  · intro h hring hpool
    have hn : ¬ number ≤ genesis.BlockNumber := by omega
    unfold DigestForBlock
    simp only [hn, if_false, hring, hpool]
    split_ifs <;> rfl

/-- C19 at concrete inputs with genesis block number 1: block 1 gives the
test digest in testing mode and the live digest in live mode, also on a
state that holds other blocks; block 9, which neither the ring nor the
Blocks pool of `exState` holds, gives `ErrBlockNotFound`. -/
theorem DigestForBlock_genesis_and_missing_witness :
    DigestForBlock exEnv exGenesis exState 1 = Except.ok [101] ∧
    DigestForBlock exEnvLive exGenesis exState 0 = Except.ok [102] ∧
    (∀ s1 : State ExOwn Bool,
      DigestForBlock exEnv exGenesis s1 1 = DigestForBlock exEnv exGenesis exState 1) ∧
    DigestForBlock exEnv exGenesis exState 9 = Except.error Fault.ErrBlockNotFound :=
  ⟨((DigestForBlock_genesis_and_missing exEnv exGenesis exState 1).1 (by decide)).1 rfl,
   ((DigestForBlock_genesis_and_missing exEnvLive exGenesis exState 0).1 (by decide)).2.1 rfl,
   ((DigestForBlock_genesis_and_missing exEnv exGenesis exState 1).1 (by decide)).2.2,
   (DigestForBlock_genesis_and_missing exEnv exGenesis exState 9).2 (by decide)
     (by decide) (by decide)⟩

/-! ## C20: a block owner transfer whose link has no owner -/

/-- C20, what the code does. For a `BlockOwnerTransfer` the validation loop
hands whatever `OwnerOf(link)` returns to `tx.Pack`, the nil owner included,
for every collaborator environment: there is no test for a missing owner as
there is for a bitmark transfer. On `exState`, which holds no owner for the
link `[4]`, the bitmark transfer stops with the panic "Transactions database
is corrupt", while the block owner transfer ends as `Pack` decides: in the
panic raised inside `Pack`, in the ordinary error `Pack` returns, or, when
`Pack` accepts the nil owner, in `ErrDoubleTransferAttempt`. -/
theorem StoreIncoming_block_owner_transfer_no_owner :
    (∀ (Own Pend : Type) (env : Env Own Pend) (pools : Pools) (own : Own)
        (suppress : Bool) (data : Bytes) (n : Nat) (link : Link) (version : Nat)
        (payments : CurrencyMap) (owner : Account) (rest : Bytes),
      validateTransaction
        { env with
          Unpack := fun _ _ =>
            Except.ok (Transaction.BlockOwnerTransfer link version payments owner rest, n),
          OwnerOf := fun _ _ _ => none }
        pools own suppress data =
      afterPack
        (env.Pack (Transaction.BlockOwnerTransfer link version payments owner rest) none)
        (if !env.CurrentlyOwns pools own none link then
          Res.error Fault.ErrDoubleTransferAttempt
        else
          match pools.BlockOwnerTxIndex.Get link with
          | none => Res.fatal Panic.MissingBlockOwnerTxIndex
          | some key =>
            match env.CheckPayments version env.testing payments with
            | some err => Res.error err
            | none =>
              Res.ok ({ txId := env.NewDigest (data.take n), packed := data.take n,
                        unpacked :=
                          Transaction.BlockOwnerTransfer link version payments owner rest,
                        linkOwner := none, previousBlockNumberKey := some key },
                      data.drop n))) ∧
    exEnv.OwnerOf exState.pools exState.ownership [4] = none ∧
    (StoreIncoming exEnv exState exBlockTransferNoOwner).1
      = Outcome.fatal Panic.TransactionsDatabaseCorrupt ∧
    (StoreIncoming exEnv exState exBlockOwnerTransferNoOwner).1
      = Outcome.fatal (Panic.Collaborator 0) ∧
    (StoreIncoming exEnvPackError exState exBlockOwnerTransferNoOwner).1
      = Outcome.error (Fault.Other 3) ∧
    (StoreIncoming exEnvPackAny exState exBlockOwnerTransferNoOwner).1
      = Outcome.error Fault.ErrDoubleTransferAttempt := by
  refine ⟨?_, by decide, by decide, by decide, by decide, by decide⟩
  intro Own Pend env pools own suppress data n link version payments owner rest
  rfl

/-! ## Store then look up -/

/-- Looking up the number just put: the ring answers with the digest just
put when it has room for at least one block, and holds nothing otherwise. -/
theorem blockringDigestForBlock_Put (size : Nat) (number : Nat) (digest : Digest)
    (packedBlock : Bytes) (ring : BlockRing) :
    blockringDigestForBlock (blockringPut size number digest packedBlock ring) number
      = if 0 < size then some digest else none := by
  cases size with
  | zero => simp [blockringPut, blockringDigestForBlock]
  | succ k => simp [blockringPut, blockringDigestForBlock]

/-- C21: when `StoreIncoming` accepts a block with the rebuild flag clear and
the number n of that block (the successor of the old height) is above the
genesis number, the header it extracted carries n and a digest, and
`DigestForBlock n` on the state left behind returns that digest without
error. The new height is n, so the block ring is consulted; a ring with room
answers with the digest just put, and otherwise the Blocks pool holds the
packed block under the eight big-endian bytes of n and the header extracted
from it carries the same digest. -/
theorem StoreIncoming_then_DigestForBlock {Own Pend : Type} (env : Env Own Pend)
    (genesis : Genesis) (s : State Own Pend) (packedBlock : Bytes)
    (hrebuild : s.head.rebuild = false)
    (h : (StoreIncoming env s packedBlock).1 = Outcome.success)
    (hgen : genesis.BlockNumber < (s.head.height + 1) % uint64Modulus) :
    ∃ header digest data,
      env.ExtractHeader packedBlock = Except.ok (header, digest, data) ∧
      header.Number = (s.head.height + 1) % uint64Modulus ∧
      (StoreIncoming env s packedBlock).2.head.height = header.Number ∧
      (blockringDigestForBlock (StoreIncoming env s packedBlock).2.ring header.Number
        = if 0 < env.BlockRingSize then some digest else none) ∧
      (StoreIncoming env s packedBlock).2.pools.Blocks.Get (putUint64 header.Number)
        = some packedBlock ∧
      DigestForBlock env genesis (StoreIncoming env s packedBlock).2 header.Number
        = Except.ok digest := by
  obtain ⟨header, digest, data, hx, -, hnum, hhead, hring, hblocks⟩ :=
    StoreIncoming_success env s packedBlock h
  rw [hrebuild] at hring hblocks
  simp only [Bool.false_eq_true, if_false] at hring hblocks
  have hlook := blockringDigestForBlock_Put env.BlockRingSize header.Number digest
    packedBlock s.ring
  have hget := Pool_Get_Put s.pools.Blocks (putUint64 header.Number) packedBlock
  rw [← hnum] at hgen
  refine ⟨header, digest, data, hx, hnum, by rw [hhead], by rw [hring, hlook],
    by rw [hblocks, hget], ?_⟩
  unfold DigestForBlock
  rw [if_neg (by omega)]
  simp only [hhead, hring, hblocks, hlook, hget]
  rw [if_pos ⟨hgen, le_refl _⟩]
  by_cases hsize : 0 < env.BlockRingSize
  · simp [hsize]
  · simp [hsize, hx]

theorem StoreIncoming_then_DigestForBlock_witness :
    exState.head.rebuild = false ∧
    (StoreIncoming exEnv exState exBlockGood).1 = Outcome.success ∧
    exGenesis.BlockNumber < (exState.head.height + 1) % uint64Modulus ∧
    exEnv.ExtractHeader exBlockGood
      = Except.ok (⟨2, 2, 8, [9], [15], 1000⟩, [12], [1, 5, 3, 6]) ∧
    blockringDigestForBlock (StoreIncoming exEnv exState exBlockGood).2.ring 8
      = some [12] ∧
    DigestForBlock exEnv exGenesis (StoreIncoming exEnv exState exBlockGood).2 8
      = Except.ok [12] ∧
    blockringDigestForBlock (StoreIncoming exEnvNoRing exState exBlockGood).2.ring 8
      = none ∧
    DigestForBlock exEnvNoRing exGenesis (StoreIncoming exEnvNoRing exState exBlockGood).2 8
      = Except.ok [12] ∧
    ∃ header digest data,
      exEnv.ExtractHeader exBlockGood = Except.ok (header, digest, data) ∧
      header.Number = (exState.head.height + 1) % uint64Modulus ∧
      (StoreIncoming exEnv exState exBlockGood).2.head.height = header.Number ∧
      (blockringDigestForBlock (StoreIncoming exEnv exState exBlockGood).2.ring
          header.Number
        = if 0 < exEnv.BlockRingSize then some digest else none) ∧
      (StoreIncoming exEnv exState exBlockGood).2.pools.Blocks.Get
          (putUint64 header.Number)
        = some exBlockGood ∧
      DigestForBlock exEnv exGenesis (StoreIncoming exEnv exState exBlockGood).2
          header.Number
        = Except.ok digest :=
  ⟨rfl, by decide, by decide, rfl, by decide, rfl, by decide, rfl,
    StoreIncoming_then_DigestForBlock exEnv exGenesis exState exBlockGood rfl (by decide)
      (by decide)⟩

/-! ## The periodic checker and shutdown -/

/-- The `select` of `checker.Run` always ends normally, whichever
communication proceeds. -/
theorem checker_select_normal (handlers : Nat) (c : SelectCase) (s : CheckerState) :
    (checker.select handlers c s).1 = Completion.normal ∧
    (checker.select handlers c s).2.passes = s.passes := by
  cases c <;> exact ⟨rfl, rfl⟩

/-- C22: `checker.Run` does not stop on shutdown. Whatever communications
proceed in its passes, the shutdown receive included, `Run` has not returned
after them and has made one pass of the loop for each, so a pass in which
shutdown is observed is followed by further passes; the interval clause
still starts a round when it proceeds after that. With two handlers, the
passes interval, shutdown, shutdown leave `Run` in the loop after three
passes, and a later interval pass starts a second round. -/
theorem checker_Run_shutdown_keeps_looping :
    (∀ (handlers : Nat) (cases : List SelectCase) (s : CheckerState),
      (checker.Run handlers cases s).1 = false ∧
      (checker.Run handlers cases s).2.passes = s.passes + cases.length) ∧
    checker.clause 2 SelectCase.shutdown exChecker = (Completion.breakOut, exChecker) ∧
    checker.select 2 SelectCase.shutdown exChecker = (Completion.normal, exChecker) ∧
    checker.Run 2 [SelectCase.interval, SelectCase.shutdown, SelectCase.shutdown] exChecker
      = (false, { passes := 3, rounds := 1, checks := 2, logged := 1 }) ∧
    checker.Run 2
        [SelectCase.interval, SelectCase.shutdown, SelectCase.shutdown, SelectCase.interval]
        exChecker
      = (false, { passes := 4, rounds := 2, checks := 4, logged := 2 }) := by
  refine ⟨?_, rfl, rfl, rfl, rfl⟩
  intro handlers cases
  induction cases with
  | nil => intro s; exact ⟨rfl, by simp [checker.Run]⟩
  | cons c later ih =>
    intro s
    have hsel := checker_select_normal handlers c { s with passes := s.passes + 1 }
    unfold checker.Run
    generalize checker.select handlers c { s with passes := s.passes + 1 } = r at hsel ⊢
    obtain ⟨completion, s1⟩ := r
    simp only at hsel
    obtain ⟨rfl, hp⟩ := hsel
    simp only []
    refine ⟨(ih s1).1, ?_⟩
    rw [(ih s1).2, hp, List.length_cons]
    omega

end Bitmarkd
